import Mathlib

/-!
Shallow embedding of the `ds` data-structure library (ds.h / ds.cpp):
the open-addressing hash table engine (`DS_Set`, `DS_Map`), the
block-chained stack allocator (`DS_StackAllocator`), the allocator
dispatch functions and the string comparison operators, together with
proofs of the specified properties.

Conventions used throughout the embedding:
* machine integers are modelled as `Nat` with explicit `% 2 ^ 32` where the
  source casts to `uint32_t`; pointer values are `Nat` (NULL = 0);
* table keys are `Nat`; the all-zero key `0` is the reserved sentinel that
  marks an empty slot (`KEY{}` in the source, for integer-like keys);
* the unbounded `for (;;)` probe loops of the source are written with an
  explicit fuel argument; fuel exhaustion yields the `none`/default branch,
  and the proofs show that under the table's well-formedness invariant the
  fuel provided by the wrapper definitions is never exhausted;
* `Data[index]` is rendered as `List.getD index 0`; all accesses are proved
  in-bounds under the invariant.
-/

/-- Bitwise and of `x` with `numSlots - 1`, i.e. the source's
`(uint32_t)key & mask` where `mask = (uint32_t)NumSlots - 1`. -/
def DS_hashIndex (key numSlots : Nat) : Nat :=
  (key % 2 ^ 32) &&& (numSlots - 1)

/-- The probe-step `index = (index + 1) & mask` of the source. -/
def DS_probeStep (index numSlots : Nat) : Nat :=
  (index + 1) &&& (numSlots - 1)

/-- `DS_Set<KEY>` with `KEY` an integer-like key type: the flat slot array
(`Data`, length `NumSlots`), the element count and the slot count.  The
`Allocator` field of the source only feeds the (unmodelled) slot-array
storage and is dropped; "correctly initialized" appears as a hypothesis
where the source asserts `Allocator != NULL`. -/
structure DS_Set where
  Data : List Nat
  NumElems : Nat
  NumSlots : Nat
deriving Repr, DecidableEq

/-- The probe loop of `DS_Set::Has`: stop with `false` at an empty slot,
with `true` at a slot holding `key`, else step to `(index + 1) & mask`. -/
def setHasLoop (data : List Nat) (numSlots key : Nat) : Nat → Nat → Bool
  | 0, _ => false
  | fuel + 1, index =>
    let elem := data.getD index 0
    if elem = 0 then false
    else if key = elem then true
    else setHasLoop data numSlots key fuel (DS_probeStep index numSlots)

/-- `DS_Set::Has`. -/
def DS_Set.Has (t : DS_Set) (key : Nat) : Bool :=
  if t.NumSlots = 0 then false
  else setHasLoop t.Data t.NumSlots key t.NumSlots (DS_hashIndex key t.NumSlots)

/-- The probe loop shared by `DS_Set::Add` (after the growth check):
returns the updated slot array and the `added_new` flag; `none` only on
fuel exhaustion. -/
def setAddLoop (data : List Nat) (numSlots key : Nat) :
    Nat → Nat → Option (List Nat × Bool)
  | 0, _ => none
  | fuel + 1, index =>
    let elem := data.getD index 0
    if elem = 0 then some (data.set index key, true)
    else if key = elem then some (data, false)
    else setAddLoop data numSlots key fuel (DS_probeStep index numSlots)

mutual

/-- `DS_Set::Add` (behaviour after the `DS_ASSERT`s; the sentinel-key
assertion is modelled by `DS_Set.AddAssertPasses`).  `rfuel` bounds the
nesting depth of the `Add`/`Resize` recursion. -/
def DS_Set.Add : Nat → DS_Set → Nat → Option (DS_Set × Bool)
  | 0, _, _ => none
  | rfuel + 1, t, key =>
    (if 100 * (t.NumElems + 1) > 70 * t.NumSlots then
      DS_Set.Resize rfuel t (if t.NumSlots = 0 then 8 else t.NumSlots * 2)
    else some t).bind fun t1 =>
      (setAddLoop t1.Data t1.NumSlots key t1.NumSlots
          (DS_hashIndex key t1.NumSlots)).map fun r =>
        (⟨r.1, if r.2 then t1.NumElems + 1 else t1.NumElems, t1.NumSlots⟩, r.2)

/-- `DS_Set::Resize` (behaviour after the power-of-two / size
`DS_ASSERT`s): allocate a zeroed slot array of `num_slots` slots, then (when
`num_slots > 0`) re-insert every occupied slot of the old array through
`DS_Set::Add`. -/
def DS_Set.Resize : Nat → DS_Set → Nat → Option DS_Set
  | 0, _, _ => none
  | rfuel + 1, t, num_slots =>
    let fresh : DS_Set := ⟨List.replicate num_slots 0, 0, num_slots⟩
    if 0 < num_slots then
      t.Data.foldl (fun acc elem =>
        acc.bind fun a =>
          if elem = 0 then some a
          else (DS_Set.Add rfuel a elem).map Prod.fst) (some fresh)
    else some fresh

end

/-- The `DS_ASSERT(!(key == KEY{}))` guard at the top of `DS_Set::Add`:
the assertion passes exactly when the key differs from the sentinel. -/
def DS_Set.AddAssertPasses (key : Nat) : Bool :=
  !(key == 0)

/-- The backwards-shift deletion loop of `DS_Set::Remove`: starting from
the index of the slot that was just emptied, step forward; stop at an empty
slot; otherwise evict the occupied slot and re-insert its key through
`DS_Set::Add`. -/
def setRemoveRepair (rfuel numSlots : Nat) : Nat → DS_Set → Nat → Option DS_Set
  | 0, _, _ => none
  | fuel + 1, t, index =>
    let index := DS_probeStep index numSlots
    let moving := t.Data.getD index 0
    if moving = 0 then some t
    else
      let t1 : DS_Set := ⟨t.Data.set index 0, t.NumElems - 1, t.NumSlots⟩
      (DS_Set.Add rfuel t1 moving).bind fun r =>
        setRemoveRepair rfuel numSlots fuel r.1 index

/-- The search loop of `DS_Set::Remove`: probe for `key`; at an empty slot
report `removed = false`; at the key, empty the slot, decrement the count
and run the backwards-shift deletion loop. -/
def setRemoveLoop (rfuel numSlots key : Nat) : Nat → DS_Set → Nat → Option (DS_Set × Bool)
  | 0, _, _ => none
  | fuel + 1, t, index =>
    let elem := t.Data.getD index 0
    if elem = 0 then some (t, false)
    else if key = elem then
      let t1 : DS_Set := ⟨t.Data.set index 0, t.NumElems - 1, t.NumSlots⟩
      (setRemoveRepair rfuel numSlots t.NumSlots t1 index).map fun r => (r, true)
    else setRemoveLoop rfuel numSlots key fuel t (DS_probeStep index numSlots)

/-- `DS_Set::Remove`. -/
def DS_Set.Remove (rfuel : Nat) (t : DS_Set) (key : Nat) : Option (DS_Set × Bool) :=
  if t.NumSlots = 0 then some (t, false)
  else setRemoveLoop rfuel t.NumSlots key t.NumSlots t (DS_hashIndex key t.NumSlots)

/-- `DS_Set` state produced by `DS_Set::Init(allocator, 0)`: no slot array,
no elements. -/
def DS_Set.Init : DS_Set := ⟨[], 0, 0⟩

/-- One slot of `DS_Map<KEY, VALUE>` (`DS_MapSlot`): a key and a value.
`VALUE` is instantiated at `Nat` as a representative value type.  A key
equal to the sentinel `0` marks an empty slot. -/
abbrev DS_MapSlot := Nat × Nat

/-- `DS_Map<KEY, VALUE>`: flat array of key/value slots, element count and
slot count (the `Allocator` field is dropped as for `DS_Set`). -/
structure DS_Map where
  Data : List DS_MapSlot
  NumElems : Nat
  NumSlots : Nat
deriving Repr, DecidableEq

/-- The probe loop of `DS_Map::FindPtr`: `none` renders both the NULL
result at an empty slot and fuel exhaustion (the latter is proved
unreachable under the invariant); `some v` renders a pointer to the value
`v` stored next to the matching key. -/
def mapFindLoop (data : List DS_MapSlot) (numSlots key : Nat) :
    Nat → Nat → Option Nat
  | 0, _ => none
  | fuel + 1, index =>
    let elem := data.getD index (0, 0)
    if elem.1 = 0 then none
    else if key = elem.1 then some elem.2
    else mapFindLoop data numSlots key fuel (DS_probeStep index numSlots)

/-- `DS_Map::FindPtr`. -/
def DS_Map.FindPtr (t : DS_Map) (key : Nat) : Option Nat :=
  if t.NumSlots = 0 then none
  else mapFindLoop t.Data t.NumSlots key t.NumSlots (DS_hashIndex key t.NumSlots)

/-- `DS_Map::Find`: same search; `Find` copies the value out and reports
whether the key existed, which `Option Nat` already carries. -/
def DS_Map.Find (t : DS_Map) (key : Nat) : Option Nat :=
  t.FindPtr key

/-- `DS_Map::Has`: `FindPtr(key) != NULL`. -/
def DS_Map.Has (t : DS_Map) (key : Nat) : Bool :=
  t.FindPtr key |>.isSome

/-- The probe loop of `DS_Map::Add`: on an empty slot write the key (the
value member is untouched, mirroring `elem->Key = key`), on a matching key
return the existing slot; the returned index renders the `VALUE**` out
parameter (a pointer to the slot's value). -/
def mapAddLoop (data : List DS_MapSlot) (numSlots key : Nat) :
    Nat → Nat → Option (List DS_MapSlot × Bool × Nat)
  | 0, _ => none
  | fuel + 1, index =>
    let elem := data.getD index (0, 0)
    if elem.1 = 0 then some (data.set index (key, elem.2), true, index)
    else if key = elem.1 then some (data, false, index)
    else mapAddLoop data numSlots key fuel (DS_probeStep index numSlots)

/-- Write `v` through the `VALUE*` for slot `index` (`*value = v`). -/
def mapWriteVal (data : List DS_MapSlot) (index v : Nat) : List DS_MapSlot :=
  data.set index ((data.getD index (0, 0)).1, v)

mutual

/-- `DS_Map::Add` (behaviour after the `DS_ASSERT`s; the sentinel-key
assertion is modelled by `DS_Map.AddAssertPasses`).  The third component of
the result renders the `VALUE**` out parameter as a slot index. -/
def DS_Map.Add : Nat → DS_Map → Nat → Option (DS_Map × Bool × Nat)
  | 0, _, _ => none
  | rfuel + 1, t, key =>
    (if 100 * (t.NumElems + 1) > 70 * t.NumSlots then
      DS_Map.Resize rfuel t (if t.NumSlots = 0 then 8 else t.NumSlots * 2)
    else some t).bind fun t1 =>
      (mapAddLoop t1.Data t1.NumSlots key t1.NumSlots
          (DS_hashIndex key t1.NumSlots)).map fun r =>
        (⟨r.1, if r.2.1 then t1.NumElems + 1 else t1.NumElems, t1.NumSlots⟩, r.2)

/-- `DS_Map::Resize` (behaviour after the `DS_ASSERT`s): allocate a
zero-initialized slot array, then re-insert every occupied slot of the old
array through `DS_Map::Add`, copying its value into the new slot.  (The
source guards the re-insertion loop by `old_capacity > 0`; iterating over
the old data realizes that guard, since the old array is empty exactly when
`old_capacity == 0`.) -/
def DS_Map.Resize : Nat → DS_Map → Nat → Option DS_Map
  | 0, _, _ => none
  | rfuel + 1, t, num_slots =>
    let fresh : DS_Map := ⟨List.replicate num_slots (0, 0), 0, num_slots⟩
    t.Data.foldl (fun acc elem =>
      acc.bind fun a =>
        if elem.1 = 0 then some a
        else (DS_Map.Add rfuel a elem.1).map fun r =>
          ⟨mapWriteVal r.1.Data r.2.2 elem.2, r.1.NumElems, r.1.NumSlots⟩) (some fresh)

end

/-- The `DS_ASSERT(!(key == KEY{}))` guard at the top of `DS_Map::Add`. -/
def DS_Map.AddAssertPasses (key : Nat) : Bool :=
  !(key == 0)

/-- `DS_Map::Set`: `Add`, then store `value` through the returned pointer. -/
def DS_Map.Set (rfuel : Nat) (t : DS_Map) (key value : Nat) : Option DS_Map :=
  (DS_Map.Add rfuel t key).map fun r =>
    ⟨mapWriteVal r.1.Data r.2.2 value, r.1.NumElems, r.1.NumSlots⟩

/-- The backwards-shift deletion loop of `DS_Map::Remove`.  The source line
`if (moving->KEY == KEY{}) break;` names the template type parameter `KEY`
instead of the member `Key` and does not compile when instantiated; the
loop is modelled with the member read `moving->Key` that the surrounding
code (and the identical `DS_Set::Remove`) evidently intends. -/
def mapRemoveRepair (rfuel numSlots : Nat) : Nat → DS_Map → Nat → Option DS_Map
  | 0, _, _ => none
  | fuel + 1, t, index =>
    let index := DS_probeStep index numSlots
    let moving := t.Data.getD index (0, 0)
    if moving.1 = 0 then some t
    else
      let t1 : DS_Map := ⟨t.Data.set index (0, moving.2), t.NumElems - 1, t.NumSlots⟩
      (DS_Map.Add rfuel t1 moving.1).bind fun r =>
        mapRemoveRepair rfuel numSlots fuel
          ⟨mapWriteVal r.1.Data r.2.2 moving.2, r.1.NumElems, r.1.NumSlots⟩ index

/-- The search loop of `DS_Map::Remove`. -/
def mapRemoveLoop (rfuel numSlots key : Nat) :
    Nat → DS_Map → Nat → Option (DS_Map × Bool)
  | 0, _, _ => none
  | fuel + 1, t, index =>
    let elem := t.Data.getD index (0, 0)
    if elem.1 = 0 then some (t, false)
    else if key = elem.1 then
      let t1 : DS_Map := ⟨t.Data.set index (0, elem.2), t.NumElems - 1, t.NumSlots⟩
      (mapRemoveRepair rfuel numSlots t.NumSlots t1 index).map fun r => (r, true)
    else mapRemoveLoop rfuel numSlots key fuel t (DS_probeStep index numSlots)

/-- `DS_Map::Remove`. -/
def DS_Map.Remove (rfuel : Nat) (t : DS_Map) (key : Nat) : Option (DS_Map × Bool) :=
  if t.NumSlots = 0 then some (t, false)
  else mapRemoveLoop rfuel t.NumSlots key t.NumSlots t (DS_hashIndex key t.NumSlots)

/-- `DS_Map` state produced by `DS_Map::Init(allocator, 0)`. -/
def DS_Map.Init : DS_Map := ⟨[], 0, 0⟩

example :
    (DS_Set.Add 4 DS_Set.Init 5).bind (fun r => DS_Set.Add 4 r.1 13) =
      some (⟨[0, 0, 0, 0, 0, 5, 13, 0], 2, 8⟩, true) := by decide

example :
    (DS_Map.Set 4 DS_Map.Init 5 77).bind (fun m => DS_Map.Find m 5) =
      some 77 := by decide

example :
    ((DS_Map.Set 4 DS_Map.Init 5 77).bind fun m =>
      (DS_Map.Set 4 m 13 88).bind fun m2 =>
        (DS_Map.Remove 4 m2 5).map fun r => DS_Map.Find r.1 13) =
      some (some 88) := by decide

/-- Cyclic forward distance from index `a` to index `b` in a table of
`numSlots` slots: the number of probe steps needed to walk from `a` to `b`
with wraparound. -/
def cdist (numSlots a b : Nat) : Nat :=
  (b + numSlots - a) % numSlots

/-- Number of occupied (non-sentinel) slots of a set slot array. -/
def countOcc (data : List Nat) : Nat :=
  data.countP fun x => !(x == 0)

/-- Probe-chain condition for one occupied slot `i`: walking forward with
wraparound from `hash(key) & mask` reaches `i` without encountering an
empty slot strictly before it. -/
def ChainSlotOK (data : List Nat) (numSlots i : Nat) : Prop :=
  ∀ j, j < cdist numSlots (DS_hashIndex (data.getD i 0) numSlots) i →
    data.getD ((DS_hashIndex (data.getD i 0) numSlots + j) % numSlots) 0 ≠ 0

/-- The table probe-chain invariant: every occupied slot satisfies
`ChainSlotOK`. -/
def ChainInv (data : List Nat) (numSlots : Nat) : Prop :=
  ∀ i, i < numSlots → data.getD i 0 ≠ 0 → ChainSlotOK data numSlots i

/-- No key occurs in two distinct slots. -/
def NodupInv (data : List Nat) : Prop :=
  ∀ i j, i < data.length → j < data.length →
    data.getD i 0 ≠ 0 → data.getD i 0 = data.getD j 0 → i = j

/-- Well-formedness of a `DS_Set`: slot-array length, power-of-two slot
count, consistent element count, the 70% load-factor bound, no duplicate
keys, and the probe-chain invariant. -/
structure SetWF (t : DS_Set) : Prop where
  len : t.Data.length = t.NumSlots
  pow2 : t.NumSlots = 0 ∨ ∃ k, t.NumSlots = 2 ^ k
  count : t.NumElems = countOcc t.Data
  load : 100 * t.NumElems ≤ 70 * t.NumSlots
  nodup : NodupInv t.Data
  chain : ChainInv t.Data t.NumSlots

/-- Key projection of a map: the `DS_Set` whose slot array holds the `Key`
members of the map's slots. -/
def mapKeys (t : DS_Map) : DS_Set :=
  ⟨t.Data.map Prod.fst, t.NumElems, t.NumSlots⟩

/-- Well-formedness of a `DS_Map`: its key projection is well-formed. -/
def MapWF (t : DS_Map) : Prop :=
  SetWF (mapKeys t)

/-- A mutating table operation, for the trace-level laws. -/
inductive TableOp where
  | add (key : Nat)
  | remove (key : Nat)
  | resize (num_slots : Nat)
deriving Repr, DecidableEq

/-- All `Add`/`Remove` keys of the trace are non-sentinel (`Resize` carries
no key). -/
def TableOp.KeyOk : TableOp → Prop
  | .add k => k ≠ 0
  | .remove k => k ≠ 0
  | .resize _ => True

/-- Is the operation an `Add`/`Remove` (no `Resize`)? -/
def TableOp.isAddRemove : TableOp → Prop
  | .resize _ => False
  | _ => True

instance : DecidablePred TableOp.KeyOk := fun op =>
  match op with
  | .add k => inferInstanceAs (Decidable (k ≠ 0))
  | .remove k => inferInstanceAs (Decidable (k ≠ 0))
  | .resize _ => inferInstanceAs (Decidable True)

instance : DecidablePred TableOp.isAddRemove := fun op =>
  match op with
  | .add _ => inferInstanceAs (Decidable True)
  | .remove _ => inferInstanceAs (Decidable True)
  | .resize _ => inferInstanceAs (Decidable False)

/-- Run one operation on a `DS_Set`.  `Add` is guarded by its sentinel-key
assertion, `Resize` by its power-of-two and `num_slots >= NumElems`
assertions (`none` renders an assertion failure).  The fuel values `3`/`4`
are proved sufficient from well-formed states. -/
def setRunOp (t : DS_Set) : TableOp → Option DS_Set
  | .add k =>
      if DS_Set.AddAssertPasses k then (DS_Set.Add 3 t k).map Prod.fst else none
  | .remove k => (DS_Set.Remove 3 t k).map Prod.fst
  | .resize n =>
      if n &&& (n - 1) = 0 ∧ t.NumElems ≤ n then DS_Set.Resize 4 t n else none

/-- Run a trace of operations on a `DS_Set`. -/
def setRunOps (t : DS_Set) : List TableOp → Option DS_Set
  | [] => some t
  | op :: rest => (setRunOp t op).bind fun t1 => setRunOps t1 rest

/-- Run one operation on a `DS_Map` (as `setRunOp`). -/
def mapRunOp (t : DS_Map) : TableOp → Option DS_Map
  | .add k =>
      if DS_Map.AddAssertPasses k then (DS_Map.Add 3 t k).map Prod.fst else none
  | .remove k => (DS_Map.Remove 3 t k).map Prod.fst
  | .resize n =>
      if n &&& (n - 1) = 0 ∧ t.NumElems ≤ n then DS_Map.Resize 4 t n else none

/-- Run a trace of operations on a `DS_Map`. -/
def mapRunOps (t : DS_Map) : List TableOp → Option DS_Map
  | [] => some t
  | op :: rest => (mapRunOp t op).bind fun t1 => mapRunOps t1 rest

/-- Net effect of a trace on key `key`: present iff the last `Add`/`Remove`
touching `key` was an `Add` (and absent if no operation touched it). -/
def netPresent (ops : List TableOp) (key : Nat) : Bool :=
  ops.foldl (fun b op =>
    match op with
    | .add k => if k = key then true else b
    | .remove k => if k = key then false else b
    | .resize _ => b) false

/-- Header of an arena block (`DS_StackBlockHeader`); `Next` holds the base
address of the next block, `none` rendering NULL. -/
structure DS_StackBlockHeader where
  SizeIncludingHeader : Nat
  AllocatedFromBackingAllocator : Bool
  Next : Option Nat
deriving Repr, DecidableEq

/-- `sizeof(DS_StackBlockHeader)` on the modelled 64-bit target:
`uint32_t` (4) + `bool` (1) + padding (3) + pointer (8). -/
def DS_StackBlockHeaderSize : Nat := 16

/-- `DS_StackMark`: current block (base address or NULL) and bump pointer
(an address; NULL = 0). -/
structure DS_StackMark where
  Block : Option Nat
  Ptr : Nat
deriving Repr, DecidableEq

/-- `DS_AlignUpPow2(x, p)` for a power-of-two `p` on non-negative `x`:
the source computes `((x + p - 1) & ~(p - 1))`, which for `p = 2^k` equals
rounding `x + p - 1` down to a multiple of `p`. -/
def DS_AlignUpPow2 (x p : Nat) : Nat :=
  (x + p - 1) - (x + p - 1) % p

/-- State of a `DS_StackAllocator` together with a model of its backing
allocator: `headers` maps block base addresses to header records (reads of
never-written addresses are junk, as in C; the modelled paths only read
written headers), `stream n` is the base address the backing allocator
returns for the `n`-th `MemAlloc`, `nalloc` counts them, and
`allocLog`/`freeLog` record the `MemAlloc`/`MemFree` calls issued to the
backing allocator, in order. -/
structure DS_StackAllocator where
  headers : Nat → DS_StackBlockHeader
  FirstBlock : Option Nat
  Mark : DS_StackMark
  BlockSize : Nat
  BlockAlignment : Nat
  stream : Nat → Nat
  nalloc : Nat
  allocLog : List (Nat × Nat)
  freeLog : List Nat

/-- `DS_StackAllocator::Init(backing, initial_block, block_size,
block_alignment)`: `headers` starts as junk (all-zero records); when an
initial block is supplied, its header is written and the mark is placed
after the header, else the mark is `(NULL, NULL)`. -/
def DS_StackAllocator.Init (stream : Nat → Nat) (initial_block : Option Nat)
    (block_size block_alignment : Nat) : DS_StackAllocator :=
  match initial_block with
  | none =>
      { headers := fun _ => ⟨0, false, none⟩, FirstBlock := none,
        Mark := ⟨none, 0⟩, BlockSize := block_size,
        BlockAlignment := block_alignment, stream := stream, nalloc := 0,
        allocLog := [], freeLog := [] }
  | some b =>
      { headers := fun a => if a = b then ⟨block_size, false, none⟩ else ⟨0, false, none⟩,
        FirstBlock := some b, Mark := ⟨some b, b + DS_StackBlockHeaderSize⟩,
        BlockSize := block_size, BlockAlignment := block_alignment,
        stream := stream, nalloc := 0, allocLog := [], freeLog := [] }

/-- `DS_StackAllocator::PushUninitialized` (behaviour after the alignment
`DS_ASSERT`s, which are modelled as hypotheses in the theorems).  Returns
the new state and the result pointer. -/
def DS_StackAllocator.PushUninitialized (s : DS_StackAllocator)
    (size alignment : Nat) : DS_StackAllocator × Nat :=
  let result := DS_AlignUpPow2 s.Mark.Ptr alignment
  let remaining_space : Int :=
    match s.Mark.Block with
    | some b => ((s.headers b).SizeIncludingHeader : Int) - ((result : Int) - (b : Int))
    | none => 0
  if (size : Int) > remaining_space then
    let result_offset := DS_AlignUpPow2 DS_StackBlockHeaderSize alignment
    let new_block_size :=
      if s.BlockSize > result_offset + size then s.BlockSize
      else result_offset + size
    let next_block : Option Nat :=
      match s.Mark.Block with
      | some cb => (s.headers cb).Next
      | none => none
    let reuse : Option Nat :=
      match next_block with
      | some nb =>
          if (size : Int) ≤ ((s.headers nb).SizeIncludingHeader : Int) - (result_offset : Int)
          then some nb else none
      | none => none
    match reuse with
    | some nb =>
        ({ s with Mark := ⟨some nb, nb + result_offset + size⟩ }, nb + result_offset)
    | none =>
        let addr := s.stream s.nalloc
        let headers1 : Nat → DS_StackBlockHeader := fun a =>
          if a = addr then ⟨new_block_size, true, next_block⟩ else s.headers a
        let headers2 : Nat → DS_StackBlockHeader :=
          match s.Mark.Block with
          | some cb => fun a =>
              if a = cb then ⟨(headers1 cb).SizeIncludingHeader,
                (headers1 cb).AllocatedFromBackingAllocator, some addr⟩
              else headers1 a
          | none => headers1
        ({ s with
            headers := headers2,
            FirstBlock := match s.Mark.Block with
              | some _ => s.FirstBlock
              | none => some addr,
            nalloc := s.nalloc + 1,
            allocLog := s.allocLog ++ [(addr, new_block_size)],
            Mark := ⟨some addr, addr + result_offset + size⟩ },
          addr + result_offset)
  else
    ({ s with Mark := ⟨s.Mark.Block, result + size⟩ }, result)

/-- `DS_StackAllocator::GetMark`. -/
def DS_StackAllocator.GetMark (s : DS_StackAllocator) : DS_StackMark :=
  s.Mark

/-- `DS_StackAllocator::SetMark`: a NULL-block mark rewinds to the start of
the first block (`(char*)FirstBlock + sizeof(DS_StackBlockHeader)`, which
is `0 + 16` when `FirstBlock` is NULL); any other mark is restored as
given. -/
def DS_StackAllocator.SetMark (s : DS_StackAllocator) (mark : DS_StackMark) :
    DS_StackAllocator :=
  match mark.Block with
  | none =>
      { s with Mark := ⟨s.FirstBlock,
          (match s.FirstBlock with | some b => b | none => 0) + DS_StackBlockHeaderSize⟩ }
  | some _ => { s with Mark := mark }

/-- The block-freeing loop of `DS_StackAllocator::Reset`: free every block
of the chain starting at `b` (reading each `Next` before the free, as the
source does); fueled, since the source walks a pointer chain. -/
def resetFreeLoop : Nat → DS_StackAllocator → Option Nat → Option DS_StackAllocator
  | _, s, none => some s
  | 0, _, some _ => none
  | fuel + 1, s, some b =>
      resetFreeLoop fuel { s with freeLog := s.freeLog ++ [b] } ((s.headers b).Next)

/-- `DS_StackAllocator::Reset`: free all blocks after the first, null the
first block's `Next`, additionally free (if backing-allocated) and null the
first block when its size exceeds `BlockSize`, then rewind the mark to the
start of the first block. -/
def DS_StackAllocator.Reset (fuel : Nat) (s : DS_StackAllocator) :
    Option DS_StackAllocator :=
  (match s.FirstBlock with
   | none => some s
   | some fb =>
      (resetFreeLoop fuel s ((s.headers fb).Next)).map fun (s1 : DS_StackAllocator) =>
        let s2 : DS_StackAllocator := { s1 with headers := (fun a =>
          if a = fb then ⟨(s1.headers fb).SizeIncludingHeader,
            (s1.headers fb).AllocatedFromBackingAllocator, none⟩
          else s1.headers a) }
        if (s2.headers fb).SizeIncludingHeader > s2.BlockSize then
          let s3 :=
            if (s2.headers fb).AllocatedFromBackingAllocator then
              { s2 with freeLog := s2.freeLog ++ [fb] }
            else s2
          { s3 with FirstBlock := none }
        else s2).map fun (sf : DS_StackAllocator) =>
    { sf with Mark := ⟨sf.FirstBlock,
        (match sf.FirstBlock with | some b => b | none => 0) + DS_StackBlockHeaderSize⟩ }

/-- `DS_StackAllocatorFunction`, acting on the arena state, a byte memory
(`mem : address → byte`) and the reallocation request: push `size` bytes,
then, when `old_data` is non-NULL, `memcpy(data, old_data, old_size)`. -/
def DS_StackAllocatorFunction (s : DS_StackAllocator) (mem : Nat → Nat)
    (old_data old_size size alignment : Nat) :
    DS_StackAllocator × (Nat → Nat) × Nat :=
  let r := s.PushUninitialized size alignment
  let mem1 : Nat → Nat :=
    if old_data ≠ 0 then
      fun a => if r.2 ≤ a ∧ a < r.2 + old_size then mem (old_data + (a - r.2)) else mem a
    else mem
  (r.1, mem1, r.2)

/-- Abstract model of the process (CRT) heap used by `DS_HeapAllocatorProc`:
a byte memory, the size of each live allocation, a fresh-address stream and
a log of frees. -/
structure CRTHeap where
  mem : Nat → Nat
  sizes : Nat → Option Nat
  stream : Nat → Nat
  nalloc : Nat
  freeLog : List Nat

/-- Modelled from the documented contract of the CRT function
`_aligned_free` (external to this repository): release the allocation at
`ptr`. -/
def CRT_aligned_free (h : CRTHeap) (ptr : Nat) : CRTHeap :=
  { h with sizes := fun a => if a = ptr then none else h.sizes a,
           freeLog := h.freeLog ++ [ptr] }

/-- Modelled from the documented contract of the CRT function
`_aligned_realloc` (external to this repository): allocate `size` bytes at
a fresh address; when `ptr` is non-NULL, copy
`min(size of the old allocation, size)` bytes from it and release it. -/
def CRT_aligned_realloc (h : CRTHeap) (ptr size _align : Nat) : CRTHeap × Nat :=
  let addr := h.stream h.nalloc
  let old : Nat := if ptr ≠ 0 then (h.sizes ptr).getD 0 else 0
  let copied := min old size
  let mem1 : Nat → Nat := fun a =>
    if addr ≤ a ∧ a < addr + copied then h.mem (ptr + (a - addr)) else h.mem a
  let sizes1 : Nat → Option Nat := fun a =>
    if a = addr then some size else if a = ptr then none else h.sizes a
  ({ h with mem := mem1, sizes := sizes1, nalloc := h.nalloc + 1 }, addr)

/-- `DS_HeapAllocatorProc`: free when `size == 0` (the `old_size` parameter
is ignored, as documented in the source), otherwise `_aligned_realloc`
(a fresh allocation when `ptr` is NULL). -/
def DS_HeapAllocatorProc (h : CRTHeap) (ptr _old_size size align : Nat) :
    CRTHeap × Nat :=
  if size = 0 then (CRT_aligned_free h ptr, 0)
  else CRT_aligned_realloc h ptr size align

/-- Run a sequence of `PushUninitialized` calls (`(size, alignment)` pairs),
collecting the returned addresses. -/
def pushMany (s : DS_StackAllocator) : List (Nat × Nat) → DS_StackAllocator × List Nat
  | [] => (s, [])
  | (size, al) :: rest =>
      let r := s.PushUninitialized size al
      let rr := pushMany r.1 rest
      (rr.1, r.2 :: rr.2)

/-- Address-independent observation of one push: the offset of the result
within the block it landed in together with that block's
size-including-header, or `none` for the degenerate pushes that touch no
block (a zero-size request while no block is current, whose returned
pointer addresses no storage). -/
def pushManyObs (s : DS_StackAllocator) : List (Nat × Nat) → List (Option (Nat × Nat))
  | [] => []
  | (size, al) :: rest =>
      let r := s.PushUninitialized size al
      (match r.1.Mark.Block with
       | some b => some (r.2 - b, (r.1.headers b).SizeIncludingHeader)
       | none => none) :: pushManyObs r.1 rest

/-- The block chain of an arena: `ChainFrom s h bs` says that following the
`Next` links from `h` visits exactly the base addresses `bs` and ends at
NULL. -/
inductive ChainFrom (s : DS_StackAllocator) : Option Nat → List Nat → Prop where
  | nil : ChainFrom s none []
  | cons (b : Nat) (rest : List Nat) :
      ChainFrom s (s.headers b).Next rest → ChainFrom s (some b) (b :: rest)

/-- Well-formedness of an arena state with block-address list `bs`: the
chain from `FirstBlock` is exactly `bs` without duplicates, the mark's
block (when non-NULL) is on the chain and is NULL only in the no-block
state, the backing allocator's future addresses are fresh, distinct and
`BlockAlignment`-aligned, all chain blocks are aligned and at least
`BlockSize` large, and `BlockAlignment` is a power of two. -/
structure ArenaWF (s : DS_StackAllocator) (bs : List Nat) : Prop where
  chain : ChainFrom s s.FirstBlock bs
  nodup : bs.Nodup
  mark_mem : ∀ b, s.Mark.Block = some b → b ∈ bs
  mark_none : s.Mark.Block = none → s.FirstBlock = none
  fresh : ∀ n, s.nalloc ≤ n → s.stream n ∉ bs
  stream_inj : ∀ n m, s.nalloc ≤ n → s.nalloc ≤ m → s.stream n = s.stream m → n = m
  stream_aligned : ∀ n, s.stream n % s.BlockAlignment = 0
  blocks_aligned : ∀ b ∈ bs, b % s.BlockAlignment = 0
  block_size_ge : ∀ b ∈ bs, s.BlockSize ≤ (s.headers b).SizeIncludingHeader
  align_pow2 : ∃ k, s.BlockAlignment = 2 ^ k

/-- Relation between two arena states that makes them indistinguishable,
addresses aside, under `pushManyObs` for positive-size pushes: same
configuration, aligned and future-injective backing streams whose future
addresses avoid the current block, and either (i) both have no
current block, (ii) both have a current block of equal size and equal used
offset with no next block, or (iii) the left state sits at the start of an
unused standard-size block while the right has no block yet. -/
structure ObsRel (s t : DS_StackAllocator) : Prop where
  bsize : s.BlockSize = t.BlockSize
  balign : s.BlockAlignment = t.BlockAlignment
  align_pow2 : ∃ k, s.BlockAlignment = 2 ^ k
  stream_al_l : ∀ n, s.stream n % s.BlockAlignment = 0
  stream_al_r : ∀ n, t.stream n % t.BlockAlignment = 0
  stream_inj_l : ∀ n m, s.nalloc ≤ n → s.nalloc ≤ m → s.stream n = s.stream m → n = m
  stream_inj_r : ∀ n m, t.nalloc ≤ n → t.nalloc ≤ m → t.stream n = t.stream m → n = m
  fresh_l : ∀ bb, s.Mark.Block = some bb → ∀ n, s.nalloc ≤ n → s.stream n ≠ bb
  fresh_r : ∀ bb, t.Mark.Block = some bb → ∀ n, t.nalloc ≤ n → t.stream n ≠ bb
  cases : (s.Mark.Block = none ∧ t.Mark.Block = none) ∨
    (∃ b c, s.Mark.Block = some b ∧ t.Mark.Block = some c ∧
      b % s.BlockAlignment = 0 ∧ c % s.BlockAlignment = 0 ∧
      (s.headers b).SizeIncludingHeader = (t.headers c).SizeIncludingHeader ∧
      (s.headers b).Next = none ∧ (t.headers c).Next = none ∧
      b ≤ s.Mark.Ptr ∧ c ≤ t.Mark.Ptr ∧ s.Mark.Ptr - b = t.Mark.Ptr - c) ∨
    (∃ b, s.Mark.Block = some b ∧ t.Mark.Block = none ∧
      b % s.BlockAlignment = 0 ∧
      (s.headers b).SizeIncludingHeader = s.BlockSize ∧
      (s.headers b).Next = none ∧
      s.Mark.Ptr = b + DS_StackBlockHeaderSize ∧
      DS_StackBlockHeaderSize ≤ s.BlockSize)

/-- Is `memcmp(a, b, n) == 0`, i.e. do the first `n` bytes agree?  Both
strings are assumed at least `n` bytes long at call sites, as in C. -/
def DS_memcmpIsZero (a b : List Nat) (n : Nat) : Bool :=
  a.take n == b.take n

/-- `DS_String::operator==(DS_String)`: `Size == other.Size &&
memcmp(Data, other.Data, Size) == 0` (a string is modelled as its byte
list; `Size` is its length). -/
def DS_String.opEq (a b : List Nat) : Bool :=
  a.length == b.length && DS_memcmpIsZero a b a.length

/-- `DS_String::operator!=(DS_String)` as written in the source:
`Size != other.Size || memcmp(Data, other.Data, Size) == 0`. -/
def DS_String.opNe (a b : List Nat) : Bool :=
  !(a.length == b.length) || DS_memcmpIsZero a b a.length

/-- `DS_String::operator==(const char*)`: `other` is NULL or a byte list;
`other_len` is `INTPTR_MIN` for NULL. -/
def DS_String.opEqCStr (a : List Nat) (other : Option (List Nat)) : Bool :=
  let other_len : Int := match other with
    | some l => (l.length : Int)
    | none => -(2 ^ 63)
  (a.length : Int) == other_len && DS_memcmpIsZero a (other.getD []) a.length

/-- `DS_String::operator!=(const char*)` as written in the source
(`Size != other_len || memcmp(Data, other, Size) == 0`). -/
def DS_String.opNeCStr (a : List Nat) (other : Option (List Nat)) : Bool :=
  let other_len : Int := match other with
    | some l => (l.length : Int)
    | none => -(2 ^ 63)
  !((a.length : Int) == other_len) || DS_memcmpIsZero a (other.getD []) a.length

example :
    ((DS_Set.Add 4 DS_Set.Init 5).bind fun r =>
      (DS_Set.Add 4 r.1 13).bind fun r2 =>
        DS_Set.Remove 4 r2.1 5) =
      some (⟨[0, 0, 0, 0, 0, 13, 0, 0], 1, 8⟩, true) := by decide

/-- Loop invariant of the backwards-shift deletion loop of
`DS_Set::Remove`, holding at entry of each iteration.  `D` is the slot
array before the removal, `key` the removed key, `i0` the slot it occupied,
`e` a slot that was already empty before the removal, `t` the current
table, `h` the current hole and `idx` the loop's index variable (the next
examined slot is `(idx + 1) % S`). -/
structure RepairInv (S : Nat) (D : List Nat) (key i0 e : Nat)
    (t : DS_Set) (h idx : Nat) : Prop where
  slots : t.NumSlots = S
  len : t.Data.length = S
  i0_lt : i0 < S
  h_lt : h < S
  idx_lt : idx < S
  hole : t.Data.getD h 0 = 0
  elems : t.NumElems = countOcc t.Data
  count : countOcc t.Data + 1 = countOcc D
  untouched : ∀ p, p < S → cdist S i0 idx < cdist S i0 p →
    t.Data.getD p 0 = D.getD p 0
  h_in : cdist S i0 h ≤ cdist S i0 idx
  e_lt : e < S
  e_ne : e ≠ h
  e_empty : t.Data.getD e 0 = 0
  e_ahead : cdist S i0 idx < cdist S i0 e
  nodup : NodupInv t.Data
  mem : ∀ v, v ≠ 0 → (v ∈ t.Data ↔ v ∈ D ∧ v ≠ key)
  chain : ∀ s, s < S → t.Data.getD s 0 ≠ 0 →
    ChainSlotOK t.Data S s ∨
    (cdist S (DS_hashIndex (t.Data.getD s 0) S) h <
        cdist S (DS_hashIndex (t.Data.getD s 0) S) s ∧
      (∀ i, i < cdist S (DS_hashIndex (t.Data.getD s 0) S) s →
        (DS_hashIndex (t.Data.getD s 0) S + i) % S ≠ h →
        t.Data.getD ((DS_hashIndex (t.Data.getD s 0) S + i) % S) 0 ≠ 0) ∧
      (∀ i, i < cdist S ((idx + 1) % S) s →
        t.Data.getD (((idx + 1) % S + i) % S) 0 ≠ 0))

/-! ### List and arithmetic helpers -/

theorem getD_eq_getElem {α : Type} (l : List α) (d : α) {i : Nat} (h : i < l.length) :
    l.getD i d = l[i] := by
  simp [List.getD_eq_getD_get?, List.getElem?_eq_getElem h]

theorem getD_eq_default {α : Type} (l : List α) (d : α) {i : Nat} (h : l.length ≤ i) :
    l.getD i d = d := by
  simp [List.getD_eq_getD_get?, List.getElem?_eq_none h]

theorem getD_set_self {α : Type} (l : List α) (d a : α) {i : Nat} (h : i < l.length) :
    (l.set i a).getD i d = a := by
  simp [List.getD_eq_getD_get?, List.getElem?_set_self', h]

theorem getD_set_ne {α : Type} (l : List α) (d a : α) {i j : Nat} (h : i ≠ j) :
    (l.set i a).getD j d = l.getD j d := by
  simp [List.getD_eq_getD_get?, List.getElem?_set_ne h]

theorem getD_mem (l : List Nat) {i : Nat} (h : i < l.length) : l.getD i 0 ∈ l := by
  rw [getD_eq_getElem _ _ h]
  exact List.getElem_mem h

theorem mem_getD (l : List Nat) {v : Nat} (h : v ∈ l) :
    ∃ i, i < l.length ∧ l.getD i 0 = v := by
  obtain ⟨i, hi, rfl⟩ := List.mem_iff_getElem.1 h
  exact ⟨i, hi, getD_eq_getElem _ _ hi⟩

theorem countOcc_le_length (d : List Nat) : countOcc d ≤ d.length :=
  List.countP_le_length _

theorem countOcc_set (d : List Nat) (a : Nat) : ∀ i, i < d.length →
    countOcc (d.set i a) + (if d.getD i 0 = 0 then 0 else 1) =
      countOcc d + (if a = 0 then 0 else 1) := by
  induction d with
  | nil => intro i h; simp at h
  | cons x xs ih =>
    intro i h
    match i with
    | 0 =>
      simp only [List.set, countOcc, List.countP_cons, List.getD_cons_zero]
      by_cases hx : x = 0 <;> by_cases ha : a = 0 <;> simp [hx, ha] <;> omega
    | j + 1 =>
      simp only [List.set, countOcc, List.countP_cons, List.getD_cons_succ]
      have := ih j (by simpa using h)
      simp only [countOcc, List.getD_eq_getD_get?, List.get?_eq_getElem?] at this ⊢
      by_cases hx : x = 0 <;> simp [hx] <;> omega

theorem exists_empty_slot (d : List Nat) (h : countOcc d < d.length) :
    ∃ p, p < d.length ∧ d.getD p 0 = 0 := by
  by_contra hc
  push_neg at hc
  have : countOcc d = d.length := by
    apply List.countP_eq_length.2
    intro a ha
    obtain ⟨i, hi, rfl⟩ := mem_getD d ha
    simpa using hc i hi
  omega

theorem and_two_pow_sub_one (x k : Nat) : x &&& (2 ^ k - 1) = x % 2 ^ k := by
  apply Nat.eq_of_testBit_eq
  intro i
  simp [Nat.testBit_and, Nat.testBit_mod_two_pow, Nat.testBit_two_pow_sub_one,
    Bool.and_comm]

theorem hashIndex_lt {S : Nat} (hS : 0 < S) (key : Nat) : DS_hashIndex key S < S := by
  have h := @Nat.and_le_right (key % 2 ^ 32) (S - 1)
  unfold DS_hashIndex
  omega

theorem hashIndex_eq_mod {S k : Nat} (hS : S = 2 ^ k) (key : Nat) :
    DS_hashIndex key S = (key % 2 ^ 32) % S := by
  subst hS
  exact and_two_pow_sub_one _ _

theorem probeStep_eq {S k : Nat} (hS : S = 2 ^ k) (i : Nat) :
    DS_probeStep i S = (i + 1) % S := by
  subst hS
  exact and_two_pow_sub_one _ _

/-! ### Cyclic-distance toolkit -/

theorem cdist_lt {S : Nat} (hS : 0 < S) (a b : Nat) : cdist S a b < S :=
  Nat.mod_lt _ hS

theorem cdist_self (S a : Nat) : cdist S a a = 0 := by
  unfold cdist
  rw [show a + S - a = S by omega]
  exact Nat.mod_self S

theorem add_mod_mod (a y S : Nat) : (a + y % S) % S = (a + y) % S := by
  conv_rhs => rw [Nat.add_mod]
  rw [Nat.add_mod, Nat.mod_mod_of_dvd _ dvd_rfl]

theorem add_cdist {S a b : Nat} (ha : a < S) (hb : b < S) :
    (a + cdist S a b) % S = b := by
  unfold cdist
  rw [add_mod_mod, show a + (b + S - a) = b + S by omega, Nat.add_mod_right]
  exact Nat.mod_eq_of_lt hb

theorem cdist_add {S a : Nat} (ha : a < S) (j : Nat) :
    cdist S a ((a + j) % S) = j % S := by
  unfold cdist
  rw [show (a + j) % S + S - a = (a + j) % S + (S - a) by omega,
    Nat.mod_add_mod, show a + j + (S - a) = j + S by omega, Nat.add_mod_right]

theorem cdist_sub {S a b : Nat} (ha : a < S) (hb : b < S) {i : Nat}
    (hi : i ≤ cdist S a b) : cdist S ((a + i) % S) b = cdist S a b - i := by
  have hS : 0 < S := by omega
  have hd : cdist S a b < S := cdist_lt hS a b
  have hb2 : b = ((a + i) % S + (cdist S a b - i)) % S := by
    rw [Nat.mod_add_mod, show a + i + (cdist S a b - i) = a + cdist S a b by omega,
      add_cdist ha hb]
  conv_lhs => rw [hb2]
  rw [cdist_add (Nat.mod_lt _ hS), Nat.mod_eq_of_lt (by omega)]

theorem cdist_eq_zero {S a b : Nat} (ha : a < S) (hb : b < S)
    (h : cdist S a b = 0) : a = b := by
  have := add_cdist ha hb
  rw [h, Nat.add_zero, Nat.mod_eq_of_lt ha] at this
  exact this

theorem probe_inj {S a : Nat} (ha : a < S) {i j : Nat} (hi : i < S) (hj : j < S)
    (h : (a + i) % S = (a + j) % S) : i = j := by
  have h1 := cdist_add ha i
  rw [h, cdist_add ha j] at h1
  rw [Nat.mod_eq_of_lt hi, Nat.mod_eq_of_lt hj] at h1
  omega

theorem cdist_compose {S a b c : Nat} (ha : a < S) (hb : b < S) (hc : c < S) :
    (cdist S a b + cdist S b c) % S = cdist S a c := by
  have hS : 0 < S := by omega
  have hc2 : c = (a + (cdist S a b + cdist S b c)) % S := by
    rw [← Nat.add_assoc, ← Nat.mod_add_mod, add_cdist ha hb, add_cdist hb hc]
  conv_rhs => rw [hc2]
  rw [cdist_add ha]

theorem cdist_compose_lt {S a b c : Nat} (ha : a < S) (hb : b < S) (hc : c < S)
    (h : cdist S a b + cdist S b c < S) :
    cdist S a c = cdist S a b + cdist S b c := by
  rw [← cdist_compose ha hb hc, Nat.mod_eq_of_lt h]

/-! ### Probe-loop lemmas -/

theorem setHasLoop_skip {d : List Nat} {S key : Nat} {k : Nat} (hk : S = 2 ^ k) :
    ∀ (n : Nat) (a : Nat), a < S →
      (∀ i, i < n → d.getD ((a + i) % S) 0 ≠ 0 ∧ key ≠ d.getD ((a + i) % S) 0) →
      ∀ fuel, setHasLoop d S key (n + fuel) a = setHasLoop d S key fuel ((a + n) % S) := by
  intro n
  induction n with
  | zero =>
    intro a ha _ fuel
    rw [Nat.zero_add, Nat.add_zero, Nat.mod_eq_of_lt ha]
  | succ m ih =>
    intro a ha hrun fuel
    have hS : 0 < S := by omega
    have h0 := hrun 0 (by omega)
    rw [Nat.add_zero, Nat.mod_eq_of_lt ha] at h0
    have hstep : setHasLoop d S key (m + 1 + fuel) a =
        setHasLoop d S key (m + fuel) (DS_probeStep a S) := by
      rw [show m + 1 + fuel = (m + fuel) + 1 by omega]
      simp only [setHasLoop]
      rw [if_neg h0.1, if_neg h0.2]
    rw [hstep, probeStep_eq hk]
    have ha1 : (a + 1) % S < S := Nat.mod_lt _ hS
    have hrun1 : ∀ i, i < m →
        d.getD (((a + 1) % S + i) % S) 0 ≠ 0 ∧ key ≠ d.getD (((a + 1) % S + i) % S) 0 := by
      intro i hi
      rw [Nat.mod_add_mod, show a + 1 + i = a + (1 + i) by omega]
      exact hrun (1 + i) (by omega)
    rw [ih ((a + 1) % S) ha1 hrun1 fuel, Nat.mod_add_mod,
      show a + 1 + m = a + (m + 1) by omega]

theorem setHasLoop_empty {d : List Nat} {S key a : Nat} (h : d.getD a 0 = 0)
    (fuel : Nat) : setHasLoop d S key (fuel + 1) a = false := by
  simp only [setHasLoop]
  rw [if_pos h]

theorem setHasLoop_hit {d : List Nat} {S key a : Nat} (h : d.getD a 0 ≠ 0)
    (hkey : key = d.getD a 0) (fuel : Nat) :
    setHasLoop d S key (fuel + 1) a = true := by
  simp only [setHasLoop]
  rw [if_neg h, if_pos hkey]

theorem setHasLoop_true_mem {d : List Nat} {S key : Nat} {k : Nat} (hk : S = 2 ^ k)
    (hlen : d.length = S) :
    ∀ (fuel a : Nat), a < S → setHasLoop d S key fuel a = true → key ≠ 0 ∧ key ∈ d := by
  intro fuel
  induction fuel with
  | zero => intro a _ h; simp [setHasLoop] at h
  | succ m ih =>
    intro a ha h
    simp only [setHasLoop] at h
    by_cases h0 : d.getD a 0 = 0
    · rw [if_pos h0] at h; exact absurd h (by simp)
    · rw [if_neg h0] at h
      by_cases hkey : key = d.getD a 0
      · refine ⟨by rw [hkey]; exact h0, ?_⟩
        rw [hkey]
        exact getD_mem d (by omega)
      · rw [if_neg hkey] at h
        have hS : 0 < S := by omega
        rw [probeStep_eq hk] at h
        exact ih _ (Nat.mod_lt _ hS) h

theorem setAddLoop_skip {d : List Nat} {S key : Nat} {k : Nat} (hk : S = 2 ^ k) :
    ∀ (n : Nat) (a : Nat), a < S →
      (∀ i, i < n → d.getD ((a + i) % S) 0 ≠ 0 ∧ key ≠ d.getD ((a + i) % S) 0) →
      ∀ fuel, setAddLoop d S key (n + fuel) a = setAddLoop d S key fuel ((a + n) % S) := by
  intro n
  induction n with
  | zero =>
    intro a ha _ fuel
    rw [Nat.zero_add, Nat.add_zero, Nat.mod_eq_of_lt ha]
  | succ m ih =>
    intro a ha hrun fuel
    have hS : 0 < S := by omega
    have h0 := hrun 0 (by omega)
    rw [Nat.add_zero, Nat.mod_eq_of_lt ha] at h0
    have hstep : setAddLoop d S key (m + 1 + fuel) a =
        setAddLoop d S key (m + fuel) (DS_probeStep a S) := by
      rw [show m + 1 + fuel = (m + fuel) + 1 by omega]
      simp only [setAddLoop]
      rw [if_neg h0.1, if_neg h0.2]
    rw [hstep, probeStep_eq hk]
    have hrun1 : ∀ i, i < m →
        d.getD (((a + 1) % S + i) % S) 0 ≠ 0 ∧ key ≠ d.getD (((a + 1) % S + i) % S) 0 := by
      intro i hi
      rw [Nat.mod_add_mod, show a + 1 + i = a + (1 + i) by omega]
      exact hrun (1 + i) (by omega)
    rw [ih ((a + 1) % S) (Nat.mod_lt _ hS) hrun1 fuel, Nat.mod_add_mod,
      show a + 1 + m = a + (m + 1) by omega]

theorem setAddLoop_empty {d : List Nat} {S key a : Nat} (h : d.getD a 0 = 0)
    (fuel : Nat) : setAddLoop d S key (fuel + 1) a = some (d.set a key, true) := by
  simp only [setAddLoop]
  rw [if_pos h]

theorem setAddLoop_hit {d : List Nat} {S key a : Nat} (h : d.getD a 0 ≠ 0)
    (hkey : key = d.getD a 0) (fuel : Nat) :
    setAddLoop d S key (fuel + 1) a = some (d, false) := by
  simp only [setAddLoop]
  rw [if_neg h, if_pos hkey]

theorem first_empty_probe {d : List Nat} {S a : Nat} (hS : 0 < S)
    (hlen : d.length = S) (ha : a < S) (hex : ∃ p, p < S ∧ d.getD p 0 = 0) :
    ∃ n, n < S ∧ d.getD ((a + n) % S) 0 = 0 ∧
      ∀ i, i < n → d.getD ((a + i) % S) 0 ≠ 0 := by
  obtain ⟨p, hp, hp0⟩ := hex
  have hexn : ∃ n, d.getD ((a + n) % S) 0 = 0 :=
    ⟨cdist S a p, by rw [add_cdist ha hp]; exact hp0⟩
  refine ⟨Nat.find hexn, ?_, Nat.find_spec hexn, fun i hi => Nat.find_min hexn hi⟩
  have : Nat.find hexn ≤ cdist S a p := by
    apply Nat.find_min'
    rw [add_cdist ha hp]
    exact hp0
  have := cdist_lt hS a p
  omega

/-! ### Correctness of `DS_Set::Add` and `DS_Set::Resize` -/

theorem countOcc_replicate_zero (n : Nat) : countOcc (List.replicate n 0) = 0 := by
  induction n with
  | zero => rfl
  | succ m ih => simpa [countOcc, List.replicate, List.countP_cons] using ih

theorem getD_replicate_zero {n i : Nat} : (List.replicate n 0).getD i 0 = 0 := by
  by_cases h : i < n
  · rw [getD_eq_getElem _ _ (by simpa using h)]
    exact List.getElem_replicate ..
  · exact getD_eq_default _ _ (by simpa using h)

theorem setWF_fresh {n k : Nat} (hn : n = 2 ^ k) :
    SetWF ⟨List.replicate n 0, 0, n⟩ := by
  refine ⟨by simp, Or.inr ⟨k, hn⟩, (countOcc_replicate_zero n).symm, by simp, ?_, ?_⟩
  · intro i j _ _ hi _
    exact absurd getD_replicate_zero hi
  · intro i _ hi
    exact absurd getD_replicate_zero hi

theorem nodupInv_pairwise {d : List Nat} (h : NodupInv d) :
    d.Pairwise (fun x y => x ≠ 0 → x ≠ y) := by
  rw [List.pairwise_iff_getElem]
  intro i j hi hj hij hne heq
  have h1 : d.getD i 0 = d[i] := getD_eq_getElem _ _ hi
  have h2 : d.getD j 0 = d[j] := getD_eq_getElem _ _ hj
  have := h i j hi hj (by rw [h1]; exact hne) (by rw [h1, h2, heq])
  omega

/-- The probe-and-place step shared by every `Add` call site: from a
well-formed table with room, the probe loop succeeds and produces a table
satisfying the invariant, with the key added. -/
theorem setAddStep {t1 : DS_Set} {key : Nat} (W : SetWF t1) (hkey : key ≠ 0)
    (hroom : 100 * (t1.NumElems + 1) ≤ 70 * t1.NumSlots) :
    ∃ d2 isNew,
      setAddLoop t1.Data t1.NumSlots key t1.NumSlots (DS_hashIndex key t1.NumSlots) =
        some (d2, isNew) ∧
      SetWF ⟨d2, if isNew then t1.NumElems + 1 else t1.NumElems, t1.NumSlots⟩ ∧
      (isNew = true ↔ key ∉ t1.Data) ∧
      (∀ v, v ≠ 0 → (v ∈ d2 ↔ v ∈ t1.Data ∨ v = key)) := by
  obtain ⟨d, c, S⟩ := t1
  simp only at *
  have Wlen : d.length = S := W.len
  have Wpow2 : S = 0 ∨ ∃ k, S = 2 ^ k := W.pow2
  have Wcount : c = countOcc d := W.count
  have Wload : 100 * c ≤ 70 * S := W.load
  have Wnodup : NodupInv d := W.nodup
  have Wchain : ChainInv d S := W.chain
  have hS : 0 < S := by omega
  obtain ⟨k, hk⟩ : ∃ k, S = 2 ^ k := by
    rcases Wpow2 with h | h
    · omega
    · exact h
  have hlen : d.length = S := Wlen
  set a := DS_hashIndex key S with ha_def
  have ha : a < S := hashIndex_lt hS key
  by_cases hmem : key ∈ d
  · -- the key exists: the loop stops at its slot and leaves the table alone
    obtain ⟨s, hs_len, hs⟩ := mem_getD d hmem
    have hs_lt : s < S := by omega
    set n := cdist S a s with hn_def
    have hn_lt : n < S := cdist_lt hS a s
    have hsn : (a + n) % S = s := add_cdist ha hs_lt
    have hocc : ∀ i, i < n → d.getD ((a + i) % S) 0 ≠ 0 := by
      intro i hi
      have hchain := Wchain s hs_lt (by rw [hs]; exact hkey)
      have : DS_hashIndex (d.getD s 0) S = a := by rw [hs]
      unfold ChainSlotOK at hchain
      rw [this] at hchain
      exact hchain i hi
    have hnok : ∀ i, i < n → key ≠ d.getD ((a + i) % S) 0 := by
      intro i hi heq
      have hocc_i := hocc i hi
      have := Wnodup ((a + i) % S) s (by rw [hlen]; exact Nat.mod_lt _ hS)
        (by omega) hocc_i (by rw [← heq, hs])
      rw [← hsn] at this
      exact absurd (probe_inj ha (by omega) hn_lt this) (by omega)
    have hskip := setAddLoop_skip hk n a ha
      (fun i hi => ⟨hocc i hi, hnok i hi⟩) (S - n)
    rw [show n + (S - n) = S by omega] at hskip
    rw [hskip, hsn, show S - n = (S - n - 1) + 1 by omega,
      setAddLoop_hit (by rw [hs]; exact hkey) (by rw [hs])]
    refine ⟨d, false, rfl, ?_, by simp [hmem], ?_⟩
    · simpa using W
    · intro v hv
      constructor
      · exact fun h => Or.inl h
      · rintro (h | rfl)
        · exact h
        · exact hmem
  · -- the key is absent: the loop stops at the first empty slot and fills it
    have hc : c = countOcc d := Wcount
    have hcS : countOcc d < S := by omega
    obtain ⟨n, hn_lt, hempty, hmin⟩ :=
      first_empty_probe hS hlen ha (by
        obtain ⟨p, hp, hp0⟩ := exists_empty_slot d (by omega)
        exact ⟨p, by omega, hp0⟩)
    set e := (a + n) % S with he_def
    have he_lt : e < S := Nat.mod_lt _ hS
    have hcd : cdist S a e = n := by
      rw [he_def, cdist_add ha, Nat.mod_eq_of_lt hn_lt]
    have hnok : ∀ i, i < n → key ≠ d.getD ((a + i) % S) 0 := by
      intro i hi heq
      exact hmem (by rw [heq]; exact getD_mem d (by rw [hlen]; exact Nat.mod_lt _ hS))
    have hskip := setAddLoop_skip hk n a ha
      (fun i hi => ⟨hmin i hi, hnok i hi⟩) (S - n)
    rw [show n + (S - n) = S by omega] at hskip
    rw [hskip, ← he_def, show S - n = (S - n - 1) + 1 by omega,
      setAddLoop_empty hempty]
    refine ⟨d.set e key, true, rfl, ?_, by simp [hmem], ?_⟩
    · refine ⟨by simpa using hlen, Wpow2, ?_, by simpa using hroom, ?_, ?_⟩
      · show c + 1 = countOcc (d.set e key)
        have he_len : e < d.length := by omega
        have h2 := countOcc_set d key e he_len
        rw [hempty, if_pos rfl, if_neg hkey] at h2
        omega
      · intro i j hi hj hocc_i heq
        have he_len : e < d.length := by omega
        simp only [List.length_set] at hi hj
        by_cases hie : i = e <;> by_cases hje : j = e
        · omega
        · subst hie
          rw [getD_set_self d 0 key he_len] at heq
          rw [getD_set_ne d 0 key (Ne.symm hje)] at heq
          exact absurd (by rw [heq]; exact getD_mem d (by omega)) hmem
        · subst hje
          rw [getD_set_ne d 0 key (Ne.symm hie)] at hocc_i heq
          rw [getD_set_self d 0 key he_len] at heq
          exact absurd (by rw [← heq]; exact getD_mem d (by omega)) hmem
        · rw [getD_set_ne d 0 key (Ne.symm hie)] at hocc_i heq
          rw [getD_set_ne d 0 key (Ne.symm hje)] at heq
          exact Wnodup i j (by omega) (by omega) hocc_i heq
      · intro s hsS hocc_s
        by_cases hse : s = e
        · -- the chain of the newly placed key
          subst hse
          unfold ChainSlotOK
          have he_len : e < d.length := by omega
          rw [getD_set_self d 0 key he_len] at hocc_s ⊢
          intro j hj
          rw [← ha_def, hcd] at hj
          have hne : (a + j) % S ≠ e := by
            intro heq
            rw [he_def] at heq
            exact absurd (probe_inj ha (by omega) hn_lt heq) (by omega)
          rw [← ha_def, getD_set_ne d 0 key (Ne.symm hne)]
          exact hmin j hj
        · rw [getD_set_ne d 0 key (Ne.symm hse)] at hocc_s
          have hchain := Wchain s hsS hocc_s
          unfold ChainSlotOK at hchain ⊢
          rw [getD_set_ne d 0 key (Ne.symm hse)]
          intro j hj
          by_cases hq : (DS_hashIndex (d.getD s 0) S + j) % S = e
          · rw [hq, getD_set_self d 0 key (by omega)]
            exact hkey
          · rw [getD_set_ne d 0 key (Ne.symm hq)]
            exact hchain j hj
    · intro v hv
      constructor
      · intro h
        rcases List.mem_or_eq_of_mem_set h with h1 | h1
        · exact Or.inl h1
        · exact Or.inr h1
      · rintro (h | hveq)
        · obtain ⟨i, hi, hgi⟩ := mem_getD d h
          have hie : i ≠ e := by
            intro heq
            rw [heq, hempty] at hgi
            exact hv hgi.symm
          rw [← getD_set_ne d 0 key (Ne.symm hie)] at hgi
          rw [← hgi]
          exact getD_mem _ (by simpa [List.length_set] using hi)
        · have hmem2 : (d.set e key).getD e 0 ∈ d.set e key :=
            getD_mem _ (by simp only [List.length_set]; omega)
          rw [getD_set_self d 0 key (by omega)] at hmem2
          rw [hveq]
          exact hmem2

theorem countOcc_cons (x : Nat) (l : List Nat) :
    countOcc (x :: l) = countOcc l + (if x = 0 then 0 else 1) := by
  by_cases hx : x = 0 <;> simp [countOcc, List.countP_cons, hx]

theorem setAdd_nogrow_correct (rf : Nat) {t : DS_Set} {key : Nat} (W : SetWF t)
    (hkey : key ≠ 0) (hrf : 1 ≤ rf)
    (hng : 100 * (t.NumElems + 1) ≤ 70 * t.NumSlots) :
    ∃ t1 isNew, DS_Set.Add rf t key = some (t1, isNew) ∧ SetWF t1 ∧
      t1.NumSlots = t.NumSlots ∧
      t1.NumElems = (if key ∈ t.Data then t.NumElems else t.NumElems + 1) ∧
      (isNew = true ↔ key ∉ t.Data) ∧
      (∀ v, v ≠ 0 → (v ∈ t1.Data ↔ v ∈ t.Data ∨ v = key)) := by
  obtain ⟨rr, rfl⟩ : ∃ rr, rf = rr + 1 := ⟨rf - 1, by omega⟩
  obtain ⟨d2, isNew, hloop, hwf, hnew, hmem⟩ := setAddStep W hkey hng
  refine ⟨⟨d2, if isNew then t.NumElems + 1 else t.NumElems, t.NumSlots⟩, isNew,
    ?_, hwf, rfl, ?_, hnew, hmem⟩
  · simp only [DS_Set.Add]
    rw [if_neg (by omega), Option.some_bind, hloop, Option.map_some']
  · by_cases hm : key ∈ t.Data
    · have : isNew = false := by
        cases isNew
        · rfl
        · exact absurd (hnew.1 rfl) (by simp [hm])
      simp [this, hm]
    · have : isNew = true := hnew.2 hm
      simp [this, hm]

theorem setResize_fold_nogrow (rf : Nat) (hrf : 1 ≤ rf) :
    ∀ (old : List Nat) (acc : DS_Set), SetWF acc →
      (∀ v, v ≠ 0 → v ∈ old → v ∉ acc.Data) →
      old.Pairwise (fun x y => x ≠ 0 → x ≠ y) →
      100 * (acc.NumElems + countOcc old) ≤ 70 * acc.NumSlots →
      ∃ t2, old.foldl (fun a2 elem => a2.bind fun a =>
          if elem = 0 then some a
          else (DS_Set.Add rf a elem).map Prod.fst) (some acc) = some t2 ∧
        SetWF t2 ∧ t2.NumSlots = acc.NumSlots ∧
        t2.NumElems = acc.NumElems + countOcc old ∧
        (∀ v, v ≠ 0 → (v ∈ t2.Data ↔ v ∈ acc.Data ∨ v ∈ old)) := by
  intro old
  induction old with
  | nil =>
    intro acc W _ _ _
    refine ⟨acc, rfl, W, rfl, by simp [countOcc], ?_⟩
    intro v _
    simp
  | cons x rest ih =>
    intro acc W hdisj hpw hbud
    obtain ⟨hpw_head, hpw_rest⟩ := List.pairwise_cons.1 hpw
    rw [List.foldl_cons, Option.some_bind]
    by_cases hx : x = 0
    · rw [if_pos hx]
      have hbud2 : 100 * (acc.NumElems + countOcc rest) ≤ 70 * acc.NumSlots := by
        rw [countOcc_cons, if_pos hx] at hbud
        omega
      obtain ⟨t2, hfold, hwf2, hslots2, hcount2, hmem2⟩ :=
        ih acc W (fun v hv hvin => hdisj v hv (List.mem_cons_of_mem x hvin))
          hpw_rest hbud2
      refine ⟨t2, hfold, hwf2, hslots2, ?_, ?_⟩
      · rw [hcount2, countOcc_cons, if_pos hx]
        omega
      · intro v hv
        rw [hmem2 v hv, List.mem_cons]
        constructor
        · rintro (h | h)
          · exact Or.inl h
          · exact Or.inr (Or.inr h)
        · rintro (h | h | h)
          · exact Or.inl h
          · exact absurd (hx ▸ h) hv
          · exact Or.inr h
    · rw [if_neg hx]
      have hng : 100 * (acc.NumElems + 1) ≤ 70 * acc.NumSlots := by
        rw [countOcc_cons, if_neg hx] at hbud
        omega
      obtain ⟨t1, isNew, hadd, hwf1, hslots1, hcount1, _, hmem1⟩ :=
        setAdd_nogrow_correct rf W hx hrf hng
      have hxnotin : x ∉ acc.Data := hdisj x hx (List.mem_cons_self x rest)
      rw [hadd, Option.map_some']
      have hbud1 : 100 * (t1.NumElems + countOcc rest) ≤ 70 * t1.NumSlots := by
        rw [hcount1, if_neg hxnotin, hslots1, countOcc_cons, if_neg hx] at *
        omega
      have hdisj1 : ∀ v, v ≠ 0 → v ∈ rest → v ∉ t1.Data := by
        intro v hv hvin hvt1
        rcases (hmem1 v hv).1 hvt1 with h | h
        · exact hdisj v hv (List.mem_cons_of_mem x hvin) h
        · exact hpw_head v hvin hx h.symm
      obtain ⟨t2, hfold, hwf2, hslots2, hcount2, hmem2⟩ :=
        ih t1 hwf1 hdisj1 hpw_rest hbud1
      refine ⟨t2, hfold, hwf2, by rw [hslots2, hslots1], ?_, ?_⟩
      · rw [hcount2, hcount1, if_neg hxnotin, countOcc_cons, if_neg hx]
        omega
      · intro v hv
        rw [hmem2 v hv, hmem1 v hv, List.mem_cons]
        constructor
        · rintro ((h | h) | h)
          · exact Or.inl h
          · exact Or.inr (Or.inl h)
          · exact Or.inr (Or.inr h)
        · rintro (h | h | h)
          · exact Or.inl (Or.inl h)
          · exact Or.inl (Or.inr h)
          · exact Or.inr h

theorem countOcc_eq_zero_mem {d : List Nat} (h : countOcc d = 0) :
    ∀ v ∈ d, v = 0 := by
  intro v hv
  have := List.countP_eq_zero.1 h v hv
  simpa using this

theorem setResize_nogrow_correct (rf : Nat) {t : DS_Set} {n k : Nat} (W : SetWF t)
    (hn : n = 2 ^ k) (hrf : 2 ≤ rf) (hbud : 100 * t.NumElems ≤ 70 * n) :
    ∃ t2, DS_Set.Resize rf t n = some t2 ∧ SetWF t2 ∧ t2.NumSlots = n ∧
      t2.NumElems = t.NumElems ∧
      (∀ v, v ≠ 0 → (v ∈ t2.Data ↔ v ∈ t.Data)) := by
  obtain ⟨rr, rfl⟩ : ∃ rr, rf = rr + 1 := ⟨rf - 1, by omega⟩
  have hn_pos : 0 < n := by rw [hn]; positivity
  have Wfresh : SetWF ⟨List.replicate n 0, 0, n⟩ := setWF_fresh hn
  have hdisj : ∀ v, v ≠ 0 → v ∈ t.Data →
      v ∉ (⟨List.replicate n 0, 0, n⟩ : DS_Set).Data := by
    intro v hv _ hvin
    exact hv (List.eq_of_mem_replicate hvin)
  obtain ⟨t2, hfold, hwf2, hslots2, hcount2, hmem2⟩ :=
    setResize_fold_nogrow rr (by omega) t.Data ⟨List.replicate n 0, 0, n⟩ Wfresh
      hdisj (nodupInv_pairwise W.nodup)
      (by simpa [← W.count] using hbud)
  refine ⟨t2, ?_, hwf2, hslots2, by rw [hcount2, ← W.count]; simp, ?_⟩
  · simp only [DS_Set.Resize]
    rw [if_pos hn_pos]
    exact hfold
  · intro v hv
    rw [hmem2 v hv]
    simp only [List.mem_replicate]
    constructor
    · rintro (h | h)
      · exact absurd h.2 hv
      · exact h
    · exact fun h => Or.inr h

theorem setAdd_correct (rf : Nat) {t : DS_Set} {key : Nat} (W : SetWF t)
    (hkey : key ≠ 0) (hrf : 3 ≤ rf) :
    ∃ t1 isNew, DS_Set.Add rf t key = some (t1, isNew) ∧ SetWF t1 ∧
      t1.NumElems = (if key ∈ t.Data then t.NumElems else t.NumElems + 1) ∧
      (isNew = true ↔ key ∉ t.Data) ∧
      (∀ v, v ≠ 0 → (v ∈ t1.Data ↔ v ∈ t.Data ∨ v = key)) := by
  by_cases hng : 100 * (t.NumElems + 1) > 70 * t.NumSlots
  · -- the load factor would be exceeded: grow first, then place the key
    obtain ⟨rr, rfl⟩ : ∃ rr, rf = rr + 1 := ⟨rf - 1, by omega⟩
    have hzero : t.NumSlots = 0 → t.NumElems = 0 := by
      intro h0
      have : t.Data.length = 0 := by rw [W.len, h0]
      have hD : t.Data = [] := List.length_eq_zero.1 this
      rw [W.count, hD]
      rfl
    obtain ⟨k, hk⟩ : ∃ k, (if t.NumSlots = 0 then 8 else t.NumSlots * 2) = 2 ^ k := by
      rcases W.pow2 with h | ⟨j, hj⟩
      · exact ⟨3, by rw [if_pos h]; norm_num⟩
      · have : t.NumSlots ≠ 0 := by rw [hj]; positivity
        exact ⟨j + 1, by rw [if_neg this, hj]; ring⟩
    have hbud : 100 * t.NumElems ≤
        70 * (if t.NumSlots = 0 then 8 else t.NumSlots * 2) := by
      by_cases h0 : t.NumSlots = 0
      · rw [if_pos h0, hzero h0]
        omega
      · rw [if_neg h0]
        have := W.load
        omega
    obtain ⟨t1, hresize, hwf1, hslots1, hcount1, hmem1⟩ :=
      setResize_nogrow_correct rr W hk (by omega) hbud
    have hroom : 100 * (t1.NumElems + 1) ≤ 70 * t1.NumSlots := by
      have e1 : t1.NumElems = t.NumElems := hcount1
      have e2 : t1.NumSlots = if t.NumSlots = 0 then 8 else t.NumSlots * 2 := hslots1
      have h1 := W.load
      by_cases h0 : t.NumSlots = 0
      · rw [if_pos h0] at e2
        have e3 := hzero h0
        omega
      · rw [if_neg h0] at e2
        rcases Nat.lt_or_ge t.NumSlots 2 with hS2 | hS2
        · have hS1 : t.NumSlots = 1 := by omega
          have : t.NumElems = 0 := by rw [hS1] at h1; omega
          omega
        · omega
    obtain ⟨d2, isNew, hloop, hwf2, hnew2, hmem2⟩ := setAddStep hwf1 hkey hroom
    have hkeymem : key ∈ t1.Data ↔ key ∈ t.Data := hmem1 key hkey
    refine ⟨⟨d2, if isNew then t1.NumElems + 1 else t1.NumElems, t1.NumSlots⟩,
      isNew, ?_, hwf2, ?_, ?_, ?_⟩
    · simp only [DS_Set.Add]
      rw [if_pos hng, hresize, Option.some_bind, hloop, Option.map_some']
    · by_cases hm : key ∈ t.Data
      · have : isNew = false := by
          cases isNew
          · rfl
          · exact absurd (hnew2.1 rfl) (by simp [hkeymem.2 hm])
        simp [this, hm, hcount1]
      · have : isNew = true := hnew2.2 (by rw [hkeymem]; exact hm)
        simp [this, hm, hcount1]
    · rw [hnew2, hkeymem]
    · intro v hv
      rw [hmem2 v hv, hmem1 v hv]
  · obtain ⟨t1, isNew, hadd, hwf1, _, hcount1, hnew1, hmem1⟩ :=
      setAdd_nogrow_correct rf W hkey (by omega) (by omega)
    exact ⟨t1, isNew, hadd, hwf1, hcount1, hnew1, hmem1⟩

theorem setResize_fold_grow (rf : Nat) (hrf : 3 ≤ rf) :
    ∀ (old : List Nat) (acc : DS_Set), SetWF acc →
      (∀ v, v ≠ 0 → v ∈ old → v ∉ acc.Data) →
      old.Pairwise (fun x y => x ≠ 0 → x ≠ y) →
      ∃ t2, old.foldl (fun a2 elem => a2.bind fun a =>
          if elem = 0 then some a
          else (DS_Set.Add rf a elem).map Prod.fst) (some acc) = some t2 ∧
        SetWF t2 ∧ t2.NumElems = acc.NumElems + countOcc old ∧
        (∀ v, v ≠ 0 → (v ∈ t2.Data ↔ v ∈ acc.Data ∨ v ∈ old)) := by
  intro old
  induction old with
  | nil =>
    intro acc W _ _
    refine ⟨acc, rfl, W, by simp [countOcc], ?_⟩
    intro v _
    simp
  | cons x rest ih =>
    intro acc W hdisj hpw
    obtain ⟨hpw_head, hpw_rest⟩ := List.pairwise_cons.1 hpw
    rw [List.foldl_cons, Option.some_bind]
    by_cases hx : x = 0
    · rw [if_pos hx]
      obtain ⟨t2, hfold, hwf2, hcount2, hmem2⟩ :=
        ih acc W (fun v hv hvin => hdisj v hv (List.mem_cons_of_mem x hvin)) hpw_rest
      refine ⟨t2, hfold, hwf2, ?_, ?_⟩
      · rw [hcount2, countOcc_cons, if_pos hx]
        omega
      · intro v hv
        rw [hmem2 v hv, List.mem_cons]
        constructor
        · rintro (h | h)
          · exact Or.inl h
          · exact Or.inr (Or.inr h)
        · rintro (h | h | h)
          · exact Or.inl h
          · exact absurd (hx ▸ h) hv
          · exact Or.inr h
    · rw [if_neg hx]
      obtain ⟨t1, isNew, hadd, hwf1, hcount1, _, hmem1⟩ :=
        setAdd_correct rf W hx hrf
      have hxnotin : x ∉ acc.Data := hdisj x hx (List.mem_cons_self x rest)
      rw [hadd, Option.map_some']
      have hdisj1 : ∀ v, v ≠ 0 → v ∈ rest → v ∉ t1.Data := by
        intro v hv hvin hvt1
        rcases (hmem1 v hv).1 hvt1 with h | h
        · exact hdisj v hv (List.mem_cons_of_mem x hvin) h
        · exact hpw_head v hvin hx h.symm
      obtain ⟨t2, hfold, hwf2, hcount2, hmem2⟩ := ih t1 hwf1 hdisj1 hpw_rest
      refine ⟨t2, hfold, hwf2, ?_, ?_⟩
      · rw [hcount2, hcount1, if_neg hxnotin, countOcc_cons, if_neg hx]
        omega
      · intro v hv
        rw [hmem2 v hv, hmem1 v hv, List.mem_cons]
        constructor
        · rintro ((h | h) | h)
          · exact Or.inl h
          · exact Or.inr (Or.inl h)
          · exact Or.inr (Or.inr h)
        · rintro (h | h | h)
          · exact Or.inl (Or.inl h)
          · exact Or.inl (Or.inr h)
          · exact Or.inr h

theorem setResize_correct (rf : Nat) {t : DS_Set} {n : Nat} (W : SetWF t)
    (hn : n = 0 ∨ ∃ k, n = 2 ^ k) (hn_elems : t.NumElems ≤ n) (hrf : 4 ≤ rf) :
    ∃ t2, DS_Set.Resize rf t n = some t2 ∧ SetWF t2 ∧
      t2.NumElems = t.NumElems ∧
      (∀ v, v ≠ 0 → (v ∈ t2.Data ↔ v ∈ t.Data)) := by
  obtain ⟨rr, rfl⟩ : ∃ rr, rf = rr + 1 := ⟨rf - 1, by omega⟩
  rcases hn with hn0 | ⟨k, hk⟩
  · subst hn0
    have hE : t.NumElems = 0 := by omega
    have hC : countOcc t.Data = 0 := by rw [← W.count, hE]
    refine ⟨⟨[], 0, 0⟩, ?_, ?_, hE.symm, ?_⟩
    · simp [DS_Set.Resize]
    · exact ⟨rfl, Or.inl rfl, rfl, by simp, by intro i j h; simp at h, by intro i h; simp at h⟩
    · intro v hv
      simp only [List.mem_nil_iff, false_iff]
      intro hvin
      exact hv (countOcc_eq_zero_mem hC v hvin)
  · have hn_pos : 0 < n := by rw [hk]; positivity
    have Wfresh : SetWF ⟨List.replicate n 0, 0, n⟩ := setWF_fresh hk
    obtain ⟨t2, hfold, hwf2, hcount2, hmem2⟩ :=
      setResize_fold_grow rr (by omega) t.Data ⟨List.replicate n 0, 0, n⟩ Wfresh
        (fun v hv _ hvin => hv (List.eq_of_mem_replicate hvin))
        (nodupInv_pairwise W.nodup)
    refine ⟨t2, ?_, hwf2, by rw [hcount2, ← W.count]; simp, ?_⟩
    · simp only [DS_Set.Resize]
      rw [if_pos hn_pos]
      exact hfold
    · intro v hv
      rw [hmem2 v hv]
      simp only [List.mem_replicate]
      constructor
      · rintro (h | h)
        · exact absurd h.2 hv
        · exact h
      · exact fun h => Or.inr h

/-- `DS_Set::Has` decides membership of the abstract set on well-formed
tables. -/
theorem setHas_correct {t : DS_Set} (W : SetWF t) (key : Nat) :
    t.Has key = true ↔ (key ≠ 0 ∧ key ∈ t.Data) := by
  unfold DS_Set.Has
  by_cases hS0 : t.NumSlots = 0
  · rw [if_pos hS0]
    have hD : t.Data = [] := List.length_eq_zero.1 (by rw [W.len, hS0])
    simp [hD]
  · rw [if_neg hS0]
    have hS : 0 < t.NumSlots := by omega
    obtain ⟨k, hk⟩ : ∃ k, t.NumSlots = 2 ^ k := by
      rcases W.pow2 with h | h
      · omega
      · exact h
    set S := t.NumSlots
    set d := t.Data
    have hlen : d.length = S := W.len
    set a := DS_hashIndex key S with ha_def
    have ha : a < S := hashIndex_lt hS key
    constructor
    · intro h
      exact setHasLoop_true_mem hk hlen S a ha h
    · rintro ⟨hkey, hmem⟩
      obtain ⟨s, hs_len, hs⟩ := mem_getD d hmem
      have hs_lt : s < S := by omega
      set n := cdist S a s with hn_def
      have hn_lt : n < S := cdist_lt hS a s
      have hsn : (a + n) % S = s := add_cdist ha hs_lt
      have hocc : ∀ i, i < n → d.getD ((a + i) % S) 0 ≠ 0 := by
        intro i hi
        have hchain := W.chain s hs_lt (by rw [hs]; exact hkey)
        have hb : DS_hashIndex (d.getD s 0) S = a := by rw [hs]
        unfold ChainSlotOK at hchain
        rw [hb] at hchain
        exact hchain i hi
      have hnok : ∀ i, i < n → key ≠ d.getD ((a + i) % S) 0 := by
        intro i hi heq
        have hocc_i := hocc i hi
        have := W.nodup ((a + i) % S) s
          (show (a + i) % S < d.length by rw [hlen]; exact Nat.mod_lt _ hS)
          (show s < d.length by omega) hocc_i (by rw [← heq, hs])
        rw [← hsn] at this
        exact absurd (probe_inj ha (by omega) hn_lt this) (by omega)
      have hskip := setHasLoop_skip hk n a ha
        (fun i hi => ⟨hocc i hi, hnok i hi⟩) (S - n)
      rw [show n + (S - n) = S by omega] at hskip
      rw [hskip, hsn, show S - n = (S - n - 1) + 1 by omega,
        setHasLoop_hit (by rw [hs]; exact hkey) (by rw [hs])]

/-! ### Correctness of `DS_Set::Remove` (backwards-shift deletion) -/

theorem set_getD_eq_self (d : List Nat) : ∀ j, d.set j (d.getD j 0) = d := by
  induction d with
  | nil => intro j; rfl
  | cons x xs ih =>
    intro j
    match j with
    | 0 => rfl
    | j + 1 =>
      show x :: xs.set j ((x :: xs).getD (j + 1) 0) = x :: xs
      rw [List.getD_cons_succ, ih j]

theorem countOcc_pos {d : List Nat} {j : Nat} (hj : j < d.length)
    (h : d.getD j 0 ≠ 0) : 1 ≤ countOcc d := by
  apply List.countP_pos.2
  exact ⟨d.getD j 0, getD_mem d hj, by simpa using h⟩

theorem nodup_set_zero {d : List Nat} (hn : NodupInv d) (j : Nat) :
    NodupInv (d.set j 0) := by
  intro i i2 hi hi2 hocc heq
  simp only [List.length_set] at hi hi2
  by_cases hij : i = j
  · rw [hij, getD_set_self d 0 0 (by omega)] at hocc
    exact absurd rfl hocc
  · rw [getD_set_ne d 0 0 (Ne.symm hij)] at hocc heq
    by_cases hij2 : i2 = j
    · rw [hij2, getD_set_self d 0 0 (by omega)] at heq
      exact absurd heq hocc
    · rw [getD_set_ne d 0 0 (Ne.symm hij2)] at heq
      exact hn i i2 hi hi2 hocc heq

theorem nodup_set_fresh {d : List Nat} {x : Nat} (hn : NodupInv d)
    (hx : x ∉ d) (j : Nat) : NodupInv (d.set j x) := by
  intro i i2 hi hi2 hocc heq
  simp only [List.length_set] at hi hi2
  by_cases hij : i = j <;> by_cases hij2 : i2 = j
  · omega
  · rw [hij, getD_set_self d 0 x (by omega)] at heq
    rw [getD_set_ne d 0 x (Ne.symm hij2)] at heq
    exact absurd (by rw [heq]; exact getD_mem d (by omega)) hx
  · rw [hij2, getD_set_self d 0 x (by omega)] at heq
    rw [getD_set_ne d 0 x (Ne.symm hij)] at heq hocc
    exact absurd (by rw [← heq]; exact getD_mem d (by omega)) hx
  · rw [getD_set_ne d 0 x (Ne.symm hij)] at hocc heq
    rw [getD_set_ne d 0 x (Ne.symm hij2)] at heq
    exact hn i i2 (by omega) (by omega) hocc heq

theorem mem_set_zero {d : List Nat} {j : Nat} (hn : NodupInv d)
    (hj : j < d.length) :
    ∀ v, v ≠ 0 → (v ∈ d.set j 0 ↔ v ∈ d ∧ v ≠ d.getD j 0) := by
  intro v hv
  constructor
  · intro h
    obtain ⟨i, hi, hgi⟩ := mem_getD _ h
    simp only [List.length_set] at hi
    by_cases hij : i = j
    · rw [hij, getD_set_self d 0 0 (by omega)] at hgi
      exact absurd hgi.symm hv
    · rw [getD_set_ne d 0 0 (Ne.symm hij)] at hgi
      refine ⟨by rw [← hgi]; exact getD_mem d (by omega), ?_⟩
      intro hveq
      exact hij (hn i j (by omega) hj (by rw [hgi]; exact hv)
        (by rw [hgi]; exact hveq))
  · rintro ⟨h1, h2⟩
    obtain ⟨i, hi, hgi⟩ := mem_getD _ h1
    have hij : i ≠ j := by
      intro heq
      rw [heq] at hgi
      exact h2 hgi.symm
    rw [← getD_set_ne d 0 0 (Ne.symm hij)] at hgi
    rw [← hgi]
    exact getD_mem _ (by simp only [List.length_set]; omega)

theorem mem_set_fill {d : List Nat} {j x : Nat} (hj : j < d.length)
    (hempty : d.getD j 0 = 0) :
    ∀ v, v ≠ 0 → (v ∈ d.set j x ↔ v ∈ d ∨ v = x) := by
  intro v hv
  constructor
  · intro h
    rcases List.mem_or_eq_of_mem_set h with h1 | h1
    · exact Or.inl h1
    · exact Or.inr h1
  · rintro (h | hveq)
    · obtain ⟨i, hi, hgi⟩ := mem_getD d h
      have hij : i ≠ j := by
        intro heq
        rw [heq, hempty] at hgi
        exact hv hgi.symm
      rw [← getD_set_ne d 0 x (Ne.symm hij)] at hgi
      rw [← hgi]
      exact getD_mem _ (by simp only [List.length_set]; omega)
    · have h2 : (d.set j x).getD j 0 ∈ d.set j x :=
        getD_mem _ (by simp only [List.length_set]; omega)
      rw [getD_set_self d 0 x hj] at h2
      rw [hveq]
      exact h2

theorem countOcc_set_zero {d : List Nat} {j : Nat} (hj : j < d.length)
    (hocc : d.getD j 0 ≠ 0) : countOcc (d.set j 0) + 1 = countOcc d := by
  have := countOcc_set d 0 j hj
  rw [if_neg hocc, if_pos rfl] at this
  omega

theorem countOcc_set_fill {d : List Nat} {j x : Nat} (hj : j < d.length)
    (hempty : d.getD j 0 = 0) (hx : x ≠ 0) :
    countOcc (d.set j x) = countOcc d + 1 := by
  have := countOcc_set d x j hj
  rw [if_pos hempty, if_neg hx] at this
  omega

/-- Where the re-insertion of an evicted key lands: the probe either stops
at the hole `h` (when `h` lies on the key's probe path before its old slot
`j`), or returns the key to its old slot `j`. -/
theorem repair_landing {S k : Nat} (hk : S = 2 ^ k) {d : List Nat} {h j x : Nat}
    (hlen : d.length = S) (hh : h < S) (hj : j < S) (hhj : h ≠ j)
    (hole : d.getD h 0 = 0) (hxj : d.getD j 0 = x) (hx : x ≠ 0)
    (hnodup : NodupInv d)
    (hchain : ∀ i, i < cdist S (DS_hashIndex x S) j →
      (DS_hashIndex x S + i) % S ≠ h →
      d.getD ((DS_hashIndex x S + i) % S) 0 ≠ 0) :
    (cdist S (DS_hashIndex x S) h < cdist S (DS_hashIndex x S) j →
      setAddLoop (d.set j 0) S x S (DS_hashIndex x S) =
        some ((d.set j 0).set h x, true)) ∧
    (¬ cdist S (DS_hashIndex x S) h < cdist S (DS_hashIndex x S) j →
      setAddLoop (d.set j 0) S x S (DS_hashIndex x S) = some (d, true)) := by
  have hS : 0 < S := by omega
  set b := DS_hashIndex x S with hb_def
  have hb : b < S := hashIndex_lt hS x
  have hd1len : (d.set j 0).length = S := by simpa using hlen
  have hd1j : (d.set j 0).getD j 0 = 0 := getD_set_self d 0 0 (by omega)
  have hd1h : (d.set j 0).getD h 0 = 0 := by
    rw [getD_set_ne d 0 0 hhj.symm.symm.symm]
    exact hole
  have hd1_ne : ∀ p, p ≠ j → (d.set j 0).getD p 0 = d.getD p 0 :=
    fun p hp => getD_set_ne d 0 0 (Ne.symm hp)
  have hnox : ∀ p, p < S → x ≠ (d.set j 0).getD p 0 := by
    intro p hp heq
    by_cases hpj : p = j
    · rw [hpj, hd1j] at heq
      exact hx heq
    · rw [hd1_ne p hpj] at heq
      exact hpj (hnodup p j (by omega) (by omega) (by rw [← heq]; exact hx)
        (by rw [← heq, hxj]))
  constructor
  · intro hcase
    set n := cdist S b h with hn_def
    have hn_lt : n < S := cdist_lt hS b h
    have hbn : (b + n) % S = h := add_cdist hb hh
    have hrun : ∀ i, i < n → (d.set j 0).getD ((b + i) % S) 0 ≠ 0 ∧
        x ≠ (d.set j 0).getD ((b + i) % S) 0 := by
      intro i hi
      have hq : (b + i) % S < S := Nat.mod_lt _ hS
      have hqh : (b + i) % S ≠ h := by
        intro heq
        rw [← hbn] at heq
        exact absurd (probe_inj hb (by omega) hn_lt heq) (by omega)
      have hqj : (b + i) % S ≠ j := by
        intro heq
        have := cdist_add hb i
        rw [heq] at this
        rw [Nat.mod_eq_of_lt (by omega)] at this
        omega
      refine ⟨?_, hnox _ hq⟩
      rw [hd1_ne _ hqj]
      exact hchain i (by omega) hqh
    have hskip := setAddLoop_skip hk n b hb hrun (S - n)
    rw [show n + (S - n) = S by omega] at hskip
    rw [hskip, hbn, show S - n = (S - n - 1) + 1 by omega,
      setAddLoop_empty hd1h]
  · intro hcase
    set n := cdist S b j with hn_def
    have hn_lt : n < S := cdist_lt hS b j
    have hbn : (b + n) % S = j := add_cdist hb hj
    have hrun : ∀ i, i < n → (d.set j 0).getD ((b + i) % S) 0 ≠ 0 ∧
        x ≠ (d.set j 0).getD ((b + i) % S) 0 := by
      intro i hi
      have hq : (b + i) % S < S := Nat.mod_lt _ hS
      have hqj : (b + i) % S ≠ j := by
        intro heq
        rw [← hbn] at heq
        exact absurd (probe_inj hb (by omega) hn_lt heq) (by omega)
      have hqh : (b + i) % S ≠ h := by
        intro heq
        have := cdist_add hb i
        rw [heq] at this
        rw [Nat.mod_eq_of_lt (by omega)] at this
        omega
      refine ⟨?_, hnox _ hq⟩
      rw [hd1_ne _ hqj]
      exact hchain i (by omega) hqh
    have hskip := setAddLoop_skip hk n b hb hrun (S - n)
    rw [show n + (S - n) = S by omega] at hskip
    rw [hskip, hbn, show S - n = (S - n - 1) + 1 by omega,
      setAddLoop_empty hd1j, List.set_set]
    have : d.set j x = d := by
      conv_lhs => rw [← hxj]
      exact set_getD_eq_self d j
    rw [this]

theorem cdist_right_inj {S a b c : Nat} (ha : a < S) (hb : b < S) (hc : c < S)
    (h : cdist S a b = cdist S a c) : b = c := by
  have h1 := add_cdist ha hb
  have h2 := add_cdist ha hc
  rw [h, h2] at h1
  exact h1.symm

theorem cdist_add_lt {S b : Nat} (hb : b < S) {i : Nat} (hi : i < S) :
    cdist S b ((b + i) % S) = i := by
  rw [cdist_add hb, Nat.mod_eq_of_lt hi]

theorem cdist_succ_of_lt {S a idx : Nat} (ha : a < S) (hidx : idx < S)
    (hlt : cdist S a idx + 1 < S) :
    cdist S a ((idx + 1) % S) = cdist S a idx + 1 := by
  have h1 : idx = (a + cdist S a idx) % S := (add_cdist ha hidx).symm
  conv_lhs => rw [h1]
  rw [Nat.mod_add_mod, Nat.add_assoc]
  exact cdist_add_lt ha hlt

theorem setAdd_unfold_nogrow (rr : Nat) (d : List Nat) (c S key : Nat)
    (hng : ¬ 100 * (c + 1) > 70 * S) :
    DS_Set.Add (rr + 1) ⟨d, c, S⟩ key =
      (setAddLoop d S key S (DS_hashIndex key S)).map fun r =>
        (⟨r.1, if r.2 then c + 1 else c, S⟩, r.2) := by
  simp only [DS_Set.Add]
  rw [if_neg hng, Option.some_bind]

/-- One iteration of the backwards-shift deletion loop on an occupied
slot: evicting the key at slot `(idx+1) % S` and re-inserting it through
`DS_Set::Add` succeeds, reports `added_new = true`, and re-establishes the
repair invariant with the scan advanced to that slot. -/
theorem repair_step (rf : Nat) {S k : Nat} (hk : S = 2 ^ k) (hrf : 1 ≤ rf)
    {D : List Nat} {key i0 e : Nat} (hload : 100 * countOcc D ≤ 70 * S)
    {t : DS_Set} {h idx : Nat} (inv : RepairInv S D key i0 e t h idx)
    (hx0 : t.Data.getD ((idx + 1) % S) 0 ≠ 0) :
    ∃ t2 h2, DS_Set.Add rf ⟨t.Data.set ((idx + 1) % S) 0, t.NumElems - 1, t.NumSlots⟩
        (t.Data.getD ((idx + 1) % S) 0) = some (t2, true) ∧
      RepairInv S D key i0 e t2 h2 ((idx + 1) % S) := by
  obtain ⟨d, c, S0⟩ := t
  have hslots : S = S0 := inv.slots.symm
  subst hslots
  simp only at hx0 ⊢
  have hlen : d.length = S := inv.len
  have hi0 : i0 < S := inv.i0_lt
  have hh : h < S := inv.h_lt
  have hidx : idx < S := inv.idx_lt
  have hhole : d.getD h 0 = 0 := inv.hole
  have helems : c = countOcc d := inv.elems
  have hcount : countOcc d + 1 = countOcc D := inv.count
  have huntouched : ∀ p, p < S → cdist S i0 idx < cdist S i0 p →
      d.getD p 0 = D.getD p 0 := inv.untouched
  have hh_in : cdist S i0 h ≤ cdist S i0 idx := inv.h_in
  have he : e < S := inv.e_lt
  have hene : e ≠ h := inv.e_ne
  have he_empty : d.getD e 0 = 0 := inv.e_empty
  have he_ahead : cdist S i0 idx < cdist S i0 e := inv.e_ahead
  have hnodup : NodupInv d := inv.nodup
  have hmem : ∀ v, v ≠ 0 → (v ∈ d ↔ v ∈ D ∧ v ≠ key) := inv.mem
  have hchainI : ∀ s, s < S → d.getD s 0 ≠ 0 →
      ChainSlotOK d S s ∨
      (cdist S (DS_hashIndex (d.getD s 0) S) h <
          cdist S (DS_hashIndex (d.getD s 0) S) s ∧
        (∀ i, i < cdist S (DS_hashIndex (d.getD s 0) S) s →
          (DS_hashIndex (d.getD s 0) S + i) % S ≠ h →
          d.getD ((DS_hashIndex (d.getD s 0) S + i) % S) 0 ≠ 0) ∧
        (∀ i, i < cdist S ((idx + 1) % S) s →
          d.getD (((idx + 1) % S + i) % S) 0 ≠ 0)) := inv.chain
  have hS : 0 < S := by omega
  set j := (idx + 1) % S with hj_def
  have hj : j < S := by
    rw [hj_def]
    exact Nat.mod_lt _ hS
  set x := d.getD j 0 with hx_def
  have hb : DS_hashIndex x S < S := hashIndex_lt hS x
  have hjh : j ≠ h := by
    intro hcon
    apply hx0
    rw [hx_def, hcon]
    exact hhole
  have hje : j ≠ e := by
    intro hcon
    apply hx0
    rw [hx_def, hcon]
    exact he_empty
  have hceS : cdist S i0 e < S := cdist_lt hS i0 e
  have hstep_lt : cdist S i0 idx + 1 < S := by omega
  have hcd_j : cdist S i0 j = cdist S i0 idx + 1 := by
    rw [hj_def]
    exact cdist_succ_of_lt hi0 hidx hstep_lt
  have hcd_je_lt : cdist S i0 j < cdist S i0 e := by
    rcases Nat.lt_or_ge (cdist S i0 j) (cdist S i0 e) with hlt | hge
    · exact hlt
    · have heq : cdist S i0 j = cdist S i0 e := by omega
      exact absurd (cdist_right_inj hi0 hj he heq) hje
  have hcposd : 1 ≤ countOcc d :=
    countOcc_pos (show j < d.length by omega)
      (show d.getD j 0 ≠ 0 by rw [← hx_def]; exact hx0)
  have hng : ¬ 100 * (c - 1 + 1) > 70 * S := by omega
  have hchain_j := hchainI j hj (by rw [← hx_def]; exact hx0)
  rw [← hx_def] at hchain_j
  have hchainx : ∀ i, i < cdist S (DS_hashIndex x S) j →
      (DS_hashIndex x S + i) % S ≠ h →
      d.getD ((DS_hashIndex x S + i) % S) 0 ≠ 0 := by
    rcases hchain_j with hok | ⟨h1, h2, h3⟩
    · intro i hi hne
      exact hok i hi
    · exact h2
  by_cases hcase : cdist S (DS_hashIndex x S) h < cdist S (DS_hashIndex x S) j
  · -- The evicted key lands in the hole `h`; the new hole is its old slot `j`.
    set d2 := (d.set j 0).set h x with hd2_def
    have hlen2 : d2.length = S := by
      rw [hd2_def, List.length_set, List.length_set]
      exact hlen
    have hd1_h : (d.set j 0).getD h 0 = 0 := by
      rw [getD_set_ne d 0 0 hjh]
      exact hhole
    have hd2_h : d2.getD h 0 = x := by
      rw [hd2_def]
      exact getD_set_self (d.set j 0) 0 x (by rw [List.length_set]; omega)
    have hd2_j : d2.getD j 0 = 0 := by
      rw [hd2_def, getD_set_ne (d.set j 0) 0 x (Ne.symm hjh)]
      exact getD_set_self d 0 0 (by omega)
    have hd2_other : ∀ p, p ≠ h → p ≠ j → d2.getD p 0 = d.getD p 0 := by
      intro p hph hpj
      rw [hd2_def, getD_set_ne (d.set j 0) 0 x (fun hcon => hph hcon.symm),
        getD_set_ne d 0 0 (fun hcon => hpj hcon.symm)]
    have hocc1 : countOcc (d.set j 0) + 1 = countOcc d :=
      countOcc_set_zero (by omega) (by rw [← hx_def]; exact hx0)
    have hocc2 : countOcc d2 = countOcc d := by
      rw [hd2_def, countOcc_set_fill (by rw [List.length_set]; omega) hd1_h hx0]
      omega
    have hxnotin : x ∉ d.set j 0 := by
      intro hcon
      exact ((mem_set_zero hnodup (by omega) x hx0).1 hcon).2 hx_def
    have hnodup2 : NodupInv d2 := by
      rw [hd2_def]
      exact nodup_set_fresh (nodup_set_zero hnodup j) hxnotin h
    have hxmem : x ∈ d := by
      rw [hx_def]
      exact getD_mem d (by omega)
    have hmem2 : ∀ v, v ≠ 0 → (v ∈ d2 ↔ v ∈ D ∧ v ≠ key) := by
      intro v hv
      rw [hd2_def, mem_set_fill (by rw [List.length_set]; omega) hd1_h v hv,
        mem_set_zero hnodup (by omega) v hv]
      constructor
      · rintro (⟨hvd, hne⟩ | hvx)
        · exact (hmem v hv).1 hvd
        · rw [hvx]
          exact (hmem x hx0).1 hxmem
      · intro hvD
        by_cases hvx : v = x
        · exact Or.inr hvx
        · exact Or.inl ⟨(hmem v hv).2 hvD, fun hcon => hvx (hcon.trans hx_def.symm)⟩
    have hAddEq : DS_Set.Add rf ⟨d.set j 0, c - 1, S⟩ x =
        some (⟨d2, c - 1 + 1, S⟩, true) := by
      obtain ⟨rr, hrr⟩ : ∃ rr, rf = rr + 1 := ⟨rf - 1, by omega⟩
      rw [hrr, setAdd_unfold_nogrow rr (d.set j 0) (c - 1) S x hng,
        (repair_landing hk hlen hh hj (Ne.symm hjh) hhole hx_def.symm hx0
          hnodup hchainx).1 hcase]
      rfl
    have hinv2 : RepairInv S D key i0 e ⟨d2, c - 1 + 1, S⟩ j j := by
      refine ⟨rfl, hlen2, hi0, hj, hj, hd2_j, ?_, ?_, ?_, le_refl _, he,
        fun hcon => hje hcon.symm, ?_, hcd_je_lt, hnodup2, hmem2, ?_⟩
      · show c - 1 + 1 = countOcc d2
        omega
      · show countOcc d2 + 1 = countOcc D
        omega
      · intro p hp hcd
        have hpj : p ≠ j := by
          intro hcon
          rw [hcon] at hcd
          omega
        have hph : p ≠ h := by
          intro hcon
          rw [hcon] at hcd
          omega
        show d2.getD p 0 = D.getD p 0
        rw [hd2_other p hph hpj]
        exact huntouched p hp (by omega)
      · show d2.getD e 0 = 0
        rw [hd2_other e hene (fun hcon => hje hcon.symm)]
        exact he_empty
      · intro s hs hso2
        have hso2d : d2.getD s 0 ≠ 0 := hso2
        have hsj : s ≠ j := by
          intro hcon
          rw [hcon] at hso2d
          exact hso2d hd2_j
        show ChainSlotOK d2 S s ∨
          (cdist S (DS_hashIndex (d2.getD s 0) S) j <
              cdist S (DS_hashIndex (d2.getD s 0) S) s ∧
            (∀ i, i < cdist S (DS_hashIndex (d2.getD s 0) S) s →
              (DS_hashIndex (d2.getD s 0) S + i) % S ≠ j →
              d2.getD ((DS_hashIndex (d2.getD s 0) S + i) % S) 0 ≠ 0) ∧
            (∀ i, i < cdist S ((j + 1) % S) s →
              d2.getD (((j + 1) % S + i) % S) 0 ≠ 0))
        by_cases hsh : s = h
        · -- Slot `h` now holds the evicted key, whose probe chain is intact.
          left
          subst hsh
          simp only [ChainSlotOK, hd2_h]
          intro i hi
          have hiS : i < S := by
            have := cdist_lt hS (DS_hashIndex x S) s
            omega
          have hcd_q := cdist_add_lt hb hiS
          have hq_ne_h : (DS_hashIndex x S + i) % S ≠ s := by
            intro hcon
            rw [hcon] at hcd_q
            omega
          have hq_ne_j : (DS_hashIndex x S + i) % S ≠ j := by
            intro hcon
            rw [hcon] at hcd_q
            omega
          rw [hd2_other _ hq_ne_h hq_ne_j]
          exact hchainx i (by omega) hq_ne_h
        · have hval : d2.getD s 0 = d.getD s 0 := hd2_other s hsh hsj
          have hso : d.getD s 0 ≠ 0 := by
            rw [← hval]
            exact hso2d
          rw [hval]
          set bs := DS_hashIndex (d.getD s 0) S with hbs_def
          have hbs : bs < S := hashIndex_lt hS _
          have hchain_s := hchainI s hs hso
          rw [← hbs_def] at hchain_s
          have hsub_s : ∀ i, i < cdist S bs s → (bs + i) % S ≠ h →
              d.getD ((bs + i) % S) 0 ≠ 0 := by
            rcases hchain_s with hok | ⟨h1, h2, h3⟩
            · intro i hi hne
              exact hok i hi
            · exact h2
          have hstrong : ∀ i, i < cdist S bs s → (bs + i) % S ≠ j →
              d2.getD ((bs + i) % S) 0 ≠ 0 := by
            intro i hi hqj
            by_cases hqh : (bs + i) % S = h
            · rw [hqh, hd2_h]
              exact hx0
            · rw [hd2_other _ hqh hqj]
              exact hsub_s i hi hqh
          have hspos : 1 ≤ cdist S j s := by
            rcases Nat.eq_zero_or_pos (cdist S j s) with h0 | h0
            · exact absurd (cdist_eq_zero hj hs h0).symm hsj
            · exact h0
          by_cases hjin : cdist S bs j < cdist S bs s
          · -- `j` lies on the chain of `s`: the chain is now broken at `j`
            -- but the scan, resuming right after `j`, still reaches `s`.
            right
            have hreach_d : ∀ i, i < cdist S j s → d.getD ((j + i) % S) 0 ≠ 0 := by
              rcases hchain_s with hok | ⟨h1, h2, h3⟩
              · have hj_eq : j = (bs + cdist S bs j) % S := (add_cdist hbs hj).symm
                have hjs_eq : cdist S j s = cdist S bs s - cdist S bs j := by
                  conv_lhs => rw [hj_eq]
                  exact cdist_sub hbs hs (le_of_lt hjin)
                intro i hi
                have hpos : (j + i) % S = (bs + (cdist S bs j + i)) % S := by
                  conv_lhs => rw [hj_eq]
                  rw [Nat.mod_add_mod, Nat.add_assoc]
                rw [hpos]
                exact hok (cdist S bs j + i)
                  (show cdist S bs j + i < cdist S bs s by omega)
              · exact h3
            refine ⟨hjin, hstrong, ?_⟩
            intro i hi
            have hscan : cdist S ((j + 1) % S) s = cdist S j s - 1 :=
              cdist_sub hj hs hspos
            rw [Nat.mod_add_mod, Nat.add_assoc]
            have hocc := hreach_d (1 + i) (by omega)
            have hppj : (j + (1 + i)) % S ≠ j := by
              intro hcon
              have hcd := cdist_add_lt hj
                (show 1 + i < S from by have := cdist_lt hS j s; omega)
              rw [hcon, cdist_self] at hcd
              omega
            by_cases hpph : (j + (1 + i)) % S = h
            · rw [hpph, hd2_h]
              exact hx0
            · rw [hd2_other _ hpph hppj]
              exact hocc
          · -- `j` is not on the chain of `s`: the chain stays intact.
            left
            simp only [ChainSlotOK]
            rw [hval, ← hbs_def]
            intro i hi
            have hq_ne_j : (bs + i) % S ≠ j := by
              intro hcon
              have hcd := cdist_add_lt hbs
                (show i < S from by have := cdist_lt hS bs s; omega)
              rw [hcon] at hcd
              omega
            exact hstrong i hi hq_ne_j
    exact ⟨⟨d2, c - 1 + 1, S⟩, j, hAddEq, hinv2⟩
  · -- The evicted key probes back to its own slot: the table is unchanged,
    -- the hole stays at `h`, only the scan index advances.
    have hAddEq : DS_Set.Add rf ⟨d.set j 0, c - 1, S⟩ x =
        some (⟨d, c - 1 + 1, S⟩, true) := by
      obtain ⟨rr, hrr⟩ : ∃ rr, rf = rr + 1 := ⟨rf - 1, by omega⟩
      rw [hrr, setAdd_unfold_nogrow rr (d.set j 0) (c - 1) S x hng,
        (repair_landing hk hlen hh hj (Ne.symm hjh) hhole hx_def.symm hx0
          hnodup hchainx).2 hcase]
      rfl
    have hinv2 : RepairInv S D key i0 e ⟨d, c - 1 + 1, S⟩ h j := by
      refine ⟨rfl, hlen, hi0, hh, hj, hhole, ?_, hcount, ?_, ?_, he, hene,
        he_empty, hcd_je_lt, hnodup, hmem, ?_⟩
      · show c - 1 + 1 = countOcc d
        omega
      · intro p hp hcd
        exact huntouched p hp (by omega)
      · show cdist S i0 h ≤ cdist S i0 j
        omega
      · intro s hs hso2
        have hso : d.getD s 0 ≠ 0 := hso2
        rcases hchainI s hs hso with hok | ⟨hin_s, hsub_s, hreach_s⟩
        · exact Or.inl hok
        · right
          have hsj : s ≠ j := by
            intro hcon
            rw [hcon] at hin_s
            rw [← hx_def] at hin_s
            exact hcase hin_s
          have hspos : 1 ≤ cdist S j s := by
            rcases Nat.eq_zero_or_pos (cdist S j s) with h0 | h0
            · exact absurd (cdist_eq_zero hj hs h0).symm hsj
            · exact h0
          refine ⟨hin_s, hsub_s, ?_⟩
          intro i hi
          have hscan : cdist S ((j + 1) % S) s = cdist S j s - 1 :=
            cdist_sub hj hs hspos
          show d.getD (((j + 1) % S + i) % S) 0 ≠ 0
          rw [Nat.mod_add_mod, Nat.add_assoc]
          exact hreach_s (1 + i) (by omega)
    exact ⟨⟨d, c - 1 + 1, S⟩, h, hAddEq, hinv2⟩

/-- The backwards-shift deletion loop of `DS_Set::Remove` terminates and,
from the repair invariant, rebuilds a well-formed table with the removed
key absent and every other key kept. -/
theorem setRemoveRepair_correct (rf : Nat) {S k : Nat} (hk : S = 2 ^ k)
    (hrf : 1 ≤ rf) {D : List Nat} {key i0 e : Nat}
    (hload : 100 * countOcc D ≤ 70 * S) :
    ∀ (fuel : Nat) (t : DS_Set) (h idx : Nat),
      RepairInv S D key i0 e t h idx →
      cdist S ((idx + 1) % S) e < fuel →
      ∃ t2, setRemoveRepair rf S fuel t idx = some t2 ∧
        SetWF t2 ∧ t2.NumSlots = S ∧
        t2.NumElems + 1 = countOcc D ∧
        (∀ v, v ≠ 0 → (v ∈ t2.Data ↔ v ∈ D ∧ v ≠ key)) := by
  intro fuel
  induction fuel with
  | zero =>
    intro t h idx inv hfuel
    omega
  | succ m ih =>
    intro t h idx inv hfuel
    have hS : 0 < S := by have := inv.h_lt; omega
    have hj : (idx + 1) % S < S := Nat.mod_lt _ hS
    by_cases hempty : t.Data.getD ((idx + 1) % S) 0 = 0
    · -- The scan hit an empty slot: the loop stops and the chain invariant
      -- holds again, because a still-broken chain would have to cross the
      -- empty scan slot itself.
      refine ⟨t, ?_, ?_, inv.slots, ?_, inv.mem⟩
      · simp only [setRemoveRepair, probeStep_eq hk]
        rw [if_pos hempty]
      · refine ⟨?_, ?_, inv.elems, ?_, inv.nodup, ?_⟩
        · rw [inv.slots]
          exact inv.len
        · rw [inv.slots]
          exact Or.inr ⟨k, hk⟩
        · rw [inv.slots]
          have h1 := inv.count
          have h2 := inv.elems
          omega
        · rw [inv.slots]
          intro s hs hso
          rcases inv.chain s hs hso with hok | ⟨h1, h2, h3⟩
          · exact hok
          · exfalso
            have hsj : s ≠ (idx + 1) % S := by
              intro hcon
              rw [hcon] at hso
              exact hso hempty
            have hpos : 0 < cdist S ((idx + 1) % S) s := by
              rcases Nat.eq_zero_or_pos (cdist S ((idx + 1) % S) s) with h0 | h0
              · exact absurd (cdist_eq_zero hj hs h0).symm hsj
              · exact h0
            have hocc := h3 0 hpos
            rw [Nat.add_zero, Nat.mod_eq_of_lt hj] at hocc
            exact hocc hempty
      · have h1 := inv.count
        have h2 := inv.elems
        omega
    · -- The scan hit an occupied slot: evict and re-insert it, then recurse.
      obtain ⟨t2, h2, hAdd, hinv2⟩ := repair_step rf hk hrf hload inv hempty
      have hje : (idx + 1) % S ≠ e := by
        intro hcon
        rw [hcon] at hempty
        exact hempty inv.e_empty
      have hspos : 1 ≤ cdist S ((idx + 1) % S) e := by
        rcases Nat.eq_zero_or_pos (cdist S ((idx + 1) % S) e) with h0 | h0
        · exact absurd (cdist_eq_zero hj inv.e_lt h0) hje
        · exact h0
      have hscan : cdist S (((idx + 1) % S + 1) % S) e =
          cdist S ((idx + 1) % S) e - 1 := cdist_sub hj inv.e_lt hspos
      obtain ⟨t3, hrec, hwf3, hs3, hc3, hm3⟩ :=
        ih t2 h2 ((idx + 1) % S) hinv2 (by omega)
      refine ⟨t3, ?_, hwf3, hs3, hc3, hm3⟩
      simp only [setRemoveRepair, probeStep_eq hk]
      rw [if_neg hempty, hAdd, Option.some_bind]
      exact hrec

theorem setRemoveLoop_skip {rf : Nat} {t : DS_Set} {S key : Nat} {k : Nat}
    (hk : S = 2 ^ k) :
    ∀ (n : Nat) (a : Nat), a < S →
      (∀ i, i < n → t.Data.getD ((a + i) % S) 0 ≠ 0 ∧
        key ≠ t.Data.getD ((a + i) % S) 0) →
      ∀ fuel, setRemoveLoop rf S key (n + fuel) t a =
        setRemoveLoop rf S key fuel t ((a + n) % S) := by
  intro n
  induction n with
  | zero =>
    intro a ha _ fuel
    rw [Nat.zero_add, Nat.add_zero, Nat.mod_eq_of_lt ha]
  | succ m ih =>
    intro a ha hrun fuel
    have hS : 0 < S := by omega
    have h0 := hrun 0 (by omega)
    rw [Nat.add_zero, Nat.mod_eq_of_lt ha] at h0
    have hstep : setRemoveLoop rf S key (m + 1 + fuel) t a =
        setRemoveLoop rf S key (m + fuel) t (DS_probeStep a S) := by
      rw [show m + 1 + fuel = (m + fuel) + 1 by omega]
      simp only [setRemoveLoop]
      rw [if_neg h0.1, if_neg h0.2]
    rw [hstep, probeStep_eq hk]
    have hrun1 : ∀ i, i < m →
        t.Data.getD (((a + 1) % S + i) % S) 0 ≠ 0 ∧
        key ≠ t.Data.getD (((a + 1) % S + i) % S) 0 := by
      intro i hi
      rw [Nat.mod_add_mod, show a + 1 + i = a + (1 + i) by omega]
      exact hrun (1 + i) (by omega)
    rw [ih ((a + 1) % S) (Nat.mod_lt _ hS) hrun1 fuel, Nat.mod_add_mod,
      show a + 1 + m = a + (m + 1) by omega]

theorem setRemoveLoop_empty {rf : Nat} {t : DS_Set} {S key a : Nat}
    (h : t.Data.getD a 0 = 0) (fuel : Nat) :
    setRemoveLoop rf S key (fuel + 1) t a = some (t, false) := by
  simp only [setRemoveLoop]
  rw [if_pos h]

theorem setRemoveLoop_hit {rf : Nat} {t : DS_Set} {S key a : Nat}
    (h : t.Data.getD a 0 ≠ 0) (hkey : key = t.Data.getD a 0) (fuel : Nat) :
    setRemoveLoop rf S key (fuel + 1) t a =
      (setRemoveRepair rf S t.NumSlots
        ⟨t.Data.set a 0, t.NumElems - 1, t.NumSlots⟩ a).map fun r => (r, true) := by
  simp only [setRemoveLoop]
  rw [if_neg h, if_pos hkey]

/-- `DS_Set::Remove` on a well-formed table: always succeeds, reports
whether a slot was found, removes exactly the requested key, and preserves
the table invariant. -/
theorem setRemove_correct (rf : Nat) {t : DS_Set} {key : Nat} (W : SetWF t)
    (hrf : 1 ≤ rf) :
    ∃ t2 removed, DS_Set.Remove rf t key = some (t2, removed) ∧ SetWF t2 ∧
      t2.NumSlots = t.NumSlots ∧
      (removed = true ↔ (key ≠ 0 ∧ key ∈ t.Data)) ∧
      (∀ v, v ≠ 0 → (v ∈ t2.Data ↔ v ∈ t.Data ∧ v ≠ key)) ∧
      t2.NumElems = (if removed = true then t.NumElems - 1 else t.NumElems) := by
  by_cases hS0 : t.NumSlots = 0
  · -- Zero slots: `Remove` is an immediate no-op reporting `false`.
    have hnil : t.Data = [] := List.eq_nil_of_length_eq_zero (by rw [W.len, hS0])
    refine ⟨t, false, ?_, W, rfl, ?_, ?_, ?_⟩
    · unfold DS_Set.Remove
      rw [if_pos hS0]
    · simp [hnil]
    · intro v hv
      simp [hnil]
    · simp
  · obtain ⟨k, hk⟩ : ∃ k, t.NumSlots = 2 ^ k := by
      rcases W.pow2 with h | h
      · exact absurd h hS0
      · exact h
    obtain ⟨d, c, S⟩ := t
    simp only at hS0 hk ⊢
    have Wlen : d.length = S := W.len
    have Wcount : c = countOcc d := W.count
    have Wload : 100 * c ≤ 70 * S := W.load
    have Wnodup : NodupInv d := W.nodup
    have Wchain : ChainInv d S := W.chain
    have hS : 0 < S := by omega
    have hb : DS_hashIndex key S < S := hashIndex_lt hS key
    have hcoltd : countOcc d < S := by omega
    obtain ⟨p0, hp0S, hp0⟩ := exists_empty_slot d (by omega)
    have hp0S' : p0 < S := by omega
    have hex : ∃ n, d.getD ((DS_hashIndex key S + n) % S) 0 = 0 ∨
        key = d.getD ((DS_hashIndex key S + n) % S) 0 :=
      ⟨cdist S (DS_hashIndex key S) p0, Or.inl (by rw [add_cdist hb hp0S']; exact hp0)⟩
    set N := Nat.find hex with hN_def
    have hspec := Nat.find_spec hex
    have hNle0 : N ≤ cdist S (DS_hashIndex key S) p0 := by
      apply Nat.find_min'
      exact Or.inl (by rw [add_cdist hb hp0S']; exact hp0)
    have hNS : N < S := by
      have := cdist_lt hS (DS_hashIndex key S) p0
      omega
    set q := (DS_hashIndex key S + N) % S with hq_def
    have hq : q < S := by
      rw [hq_def]
      exact Nat.mod_lt _ hS
    have hcdq : cdist S (DS_hashIndex key S) q = N := by
      rw [hq_def]
      exact cdist_add_lt hb hNS
    have hrun : ∀ i, i < N →
        d.getD ((DS_hashIndex key S + i) % S) 0 ≠ 0 ∧
        key ≠ d.getD ((DS_hashIndex key S + i) % S) 0 := by
      intro i hi
      have hmin := Nat.find_min hex hi
      exact ⟨fun h => hmin (Or.inl h), fun h => hmin (Or.inr h)⟩
    have hremove : DS_Set.Remove rf ⟨d, c, S⟩ key =
        setRemoveLoop rf S key (N + (S - N)) ⟨d, c, S⟩ (DS_hashIndex key S) := by
      unfold DS_Set.Remove
      rw [if_neg hS0, show N + (S - N) = S by omega]
    have hwalk := @setRemoveLoop_skip rf (⟨d, c, S⟩ : DS_Set) S key _ hk
      N (DS_hashIndex key S) hb hrun (S - N)
    obtain ⟨f, hf⟩ : ∃ f, S - N = f + 1 := ⟨S - N - 1, by omega⟩
    by_cases hq0 : d.getD q 0 = 0
    · -- The probe found an empty slot before the key: nothing is removed.
      have hnot : ¬ (key ≠ 0 ∧ key ∈ d) := by
        rintro ⟨hk0, hkin⟩
        obtain ⟨p, hpl, hpval⟩ := mem_getD d hkin
        have hpS : p < S := by omega
        have hpne : d.getD p 0 ≠ 0 := by rw [hpval]; exact hk0
        have hokp := Wchain p hpS hpne
        have hNle : N ≤ cdist S (DS_hashIndex key S) p := by
          apply Nat.find_min'
          exact Or.inr (by rw [add_cdist hb hpS]; exact hpval.symm)
        rcases Nat.lt_or_ge N (cdist S (DS_hashIndex key S) p) with hlt | hge
        · have hocc := hokp N
            (show N < cdist S (DS_hashIndex (d.getD p 0) S) p by rw [hpval]; exact hlt)
          rw [hpval] at hocc
          rw [← hq_def] at hocc
          exact hocc hq0
        · have hNeq : N = cdist S (DS_hashIndex key S) p := by omega
          have hqp : q = p := by rw [hq_def, hNeq, add_cdist hb hpS]
          rw [hqp, hpval] at hq0
          exact hk0 hq0
      refine ⟨⟨d, c, S⟩, false, ?_, W, rfl, ?_, ?_, ?_⟩
      · rw [hremove, hwalk, hf]
        exact setRemoveLoop_empty hq0 f
      · constructor
        · intro h
          exact absurd h (by simp)
        · intro h
          exact absurd h hnot
      · intro v hv
        constructor
        · intro hvd
          refine ⟨hvd, ?_⟩
          intro hcon
          exact hnot ⟨by rw [← hcon]; exact hv, by rw [← hcon]; exact hvd⟩
        · exact fun h => h.1
      · simp
    · -- The probe found the key at slot `q`: clear it and repair the chain.
      have hkeyq : key = d.getD q 0 := by
        rcases hspec with h | h
        · exact absurd h hq0
        · exact h
      have hkey0 : key ≠ 0 := by rw [hkeyq]; exact hq0
      have hkeyin : key ∈ d := by rw [hkeyq]; exact getD_mem d (by omega)
      have hqlen : q < d.length := by omega
      have hp0q : p0 ≠ q := by
        intro hcon
        rw [hcon] at hp0
        exact hq0 hp0
      have he_ahead : cdist S (DS_hashIndex key S) q <
          cdist S (DS_hashIndex key S) p0 := by
        rcases Nat.lt_trichotomy (cdist S (DS_hashIndex key S) p0) N with hlt | heq | hgt
        · have := (hrun (cdist S (DS_hashIndex key S) p0) hlt).1
          rw [add_cdist hb hp0S'] at this
          exact absurd hp0 this
        · have : p0 = q := by
            rw [hq_def, ← heq, add_cdist hb hp0S']
          exact absurd this hp0q
        · omega
      have hc1 : 1 ≤ countOcc d := countOcc_pos hqlen hq0
      have hcsz : countOcc (d.set q 0) + 1 = countOcc d := countOcc_set_zero hqlen hq0
      have hinv0 : RepairInv S d key (DS_hashIndex key S) p0
          ⟨d.set q 0, c - 1, S⟩ q q := by
        refine ⟨rfl, ?_, hb, hq, hq, ?_, ?_, hcsz, ?_, le_refl _, hp0S', hp0q, ?_,
          he_ahead, nodup_set_zero Wnodup q, ?_, ?_⟩
        · rw [List.length_set]
          exact Wlen
        · exact getD_set_self d 0 0 hqlen
        · show c - 1 = countOcc (d.set q 0)
          omega
        · intro p hp hcd
          have hpq : p ≠ q := by
            intro hcon
            rw [hcon] at hcd
            omega
          show (d.set q 0).getD p 0 = d.getD p 0
          exact getD_set_ne d 0 0 (Ne.symm hpq)
        · show (d.set q 0).getD p0 0 = 0
          rw [getD_set_ne d 0 0 (Ne.symm hp0q)]
          exact hp0
        · intro v hv
          rw [mem_set_zero Wnodup hqlen v hv, ← hkeyq]
        · intro s hs hso
          have hsq : s ≠ q := by
            intro hcon
            rw [hcon] at hso
            exact hso (getD_set_self d 0 0 hqlen)
          have hval : (d.set q 0).getD s 0 = d.getD s 0 :=
            getD_set_ne d 0 0 (Ne.symm hsq)
          have hsod : d.getD s 0 ≠ 0 := by
            rw [← hval]
            exact hso
          have hok := Wchain s hs hsod
          show ChainSlotOK (d.set q 0) S s ∨
            (cdist S (DS_hashIndex ((d.set q 0).getD s 0) S) q <
                cdist S (DS_hashIndex ((d.set q 0).getD s 0) S) s ∧
              (∀ i, i < cdist S (DS_hashIndex ((d.set q 0).getD s 0) S) s →
                (DS_hashIndex ((d.set q 0).getD s 0) S + i) % S ≠ q →
                (d.set q 0).getD
                  ((DS_hashIndex ((d.set q 0).getD s 0) S + i) % S) 0 ≠ 0) ∧
              (∀ i, i < cdist S ((q + 1) % S) s →
                (d.set q 0).getD (((q + 1) % S + i) % S) 0 ≠ 0))
          rw [hval]
          set bs := DS_hashIndex (d.getD s 0) S with hbs_def
          have hbs : bs < S := hashIndex_lt hS _
          by_cases hqin : cdist S bs q < cdist S bs s
          · right
            refine ⟨hqin, ?_, ?_⟩
            · intro i hi hne
              rw [getD_set_ne d 0 0 (Ne.symm hne)]
              exact hok i hi
            · intro i hi
              have hq_eq : q = (bs + cdist S bs q) % S := (add_cdist hbs hq).symm
              have hqs_eq : cdist S q s = cdist S bs s - cdist S bs q := by
                conv_lhs => rw [hq_eq]
                exact cdist_sub hbs hs (le_of_lt hqin)
              have hqs_pos : 1 ≤ cdist S q s := by omega
              have hscan2 : cdist S ((q + 1) % S) s = cdist S q s - 1 :=
                cdist_sub hq hs hqs_pos
              have hpos2 : ((q + 1) % S + i) % S =
                  (bs + (cdist S bs q + (1 + i))) % S := by
                conv_lhs => rw [hq_eq]
                rw [Nat.mod_add_mod, Nat.add_assoc, Nat.mod_add_mod, Nat.add_assoc]
              have hlt2 : cdist S bs q + (1 + i) < S := by
                have := cdist_lt hS bs s
                omega
              have hcdp := cdist_add_lt hbs hlt2
              have hpq : (bs + (cdist S bs q + (1 + i))) % S ≠ q := by
                intro hcon
                rw [hcon] at hcdp
                omega
              rw [hpos2, getD_set_ne d 0 0 (Ne.symm hpq)]
              exact hok (cdist S bs q + (1 + i))
                (show cdist S bs q + (1 + i) < cdist S bs s by omega)
          · left
            simp only [ChainSlotOK]
            rw [hval, ← hbs_def]
            intro i hi
            have hiS : i < S := by
              have := cdist_lt hS bs s
              omega
            have hcdp := cdist_add_lt hbs hiS
            have hpq : (bs + i) % S ≠ q := by
              intro hcon
              rw [hcon] at hcdp
              omega
            rw [getD_set_ne d 0 0 (Ne.symm hpq)]
            exact hok i hi
      obtain ⟨t3, hrec, hwf3, hs3, hc3, hm3⟩ :=
        setRemoveRepair_correct rf hk hrf
          (show 100 * countOcc d ≤ 70 * S by omega) S
          ⟨d.set q 0, c - 1, S⟩ q q hinv0 (cdist_lt hS ((q + 1) % S) p0)
      refine ⟨t3, true, ?_, hwf3, hs3, ?_, hm3, ?_⟩
      · rw [hremove, hwalk, hf]
        have hq0b : (⟨d, c, S⟩ : DS_Set).Data.getD
            ((DS_hashIndex key S + N) % S) 0 ≠ 0 := hq0
        have hkeyqb : key = (⟨d, c, S⟩ : DS_Set).Data.getD
            ((DS_hashIndex key S + N) % S) 0 := hkeyq
        rw [setRemoveLoop_hit hq0b hkeyqb f]
        show (setRemoveRepair rf S S ⟨d.set q 0, c - 1, S⟩ q).map
          (fun r => (r, true)) = some (t3, true)
        rw [hrec, Option.map_some']
      · simp [hkey0, hkeyin]
      · rw [if_pos rfl]
        show t3.NumElems = c - 1
        omega

/-! ### Map/set correspondence -/

theorem pow2_of_and_pred {n : Nat} (h : n &&& (n - 1) = 0) :
    n = 0 ∨ ∃ k, n = 2 ^ k := by
  rcases Nat.eq_zero_or_pos n with h0 | h0
  · exact Or.inl h0
  right
  refine ⟨Nat.log2 n, ?_⟩
  by_contra hne
  have hle : 2 ^ Nat.log2 n ≤ n := Nat.log2_self_le (by omega)
  have hlt : n < 2 ^ (Nat.log2 n + 1) := Nat.lt_log2_self
  have hgt : 2 ^ Nat.log2 n < n := by omega
  have ht1 : n.testBit (Nat.log2 n) = true := by
    rw [Nat.testBit_to_div_mod]
    have hdiv : n / 2 ^ Nat.log2 n = 1 := by
      have h1 : 1 ≤ n / 2 ^ Nat.log2 n := (Nat.le_div_iff_mul_le (by positivity)).2 (by omega)
      have h2 : n / 2 ^ Nat.log2 n < 2 := (Nat.div_lt_iff_lt_mul (by positivity)).2 (by
        rw [Nat.pow_succ] at hlt
        omega)
      omega
    simp [hdiv]
  have ht2 : (n - 1).testBit (Nat.log2 n) = true := by
    rw [Nat.testBit_to_div_mod]
    have hdiv : (n - 1) / 2 ^ Nat.log2 n = 1 := by
      have h1 : 1 ≤ (n - 1) / 2 ^ Nat.log2 n :=
        (Nat.le_div_iff_mul_le (by positivity)).2 (by omega)
      have h2 : (n - 1) / 2 ^ Nat.log2 n < 2 := (Nat.div_lt_iff_lt_mul (by positivity)).2 (by
        rw [Nat.pow_succ] at hlt
        omega)
      omega
    simp [hdiv]
  have := congrArg (fun m => m.testBit (Nat.log2 n)) h
  simp only [Nat.testBit_and, ht1, ht2, Nat.zero_testBit] at this
  exact absurd this (by simp)

theorem mapKeys_getD (d : List DS_MapSlot) (i : Nat) :
    (d.map Prod.fst).getD i 0 = (d.getD i (0, 0)).1 := by
  by_cases h : i < d.length
  · rw [getD_eq_getElem _ _ (by simpa using h), getD_eq_getElem _ _ h,
      List.getElem_map]
  · rw [getD_eq_default _ _ (by simpa using h), getD_eq_default _ _ (by omega)]

theorem mapKeys_set (d : List DS_MapSlot) (i : Nat) (kv : DS_MapSlot) :
    (d.set i kv).map Prod.fst = (d.map Prod.fst).set i kv.1 :=
  List.map_set

theorem mapKeys_writeVal (d : List DS_MapSlot) (i v : Nat) :
    (mapWriteVal d i v).map Prod.fst = d.map Prod.fst := by
  unfold mapWriteVal
  rw [mapKeys_set, ← mapKeys_getD, set_getD_eq_self]

theorem mapAddLoop_proj (d : List DS_MapSlot) (S key : Nat) :
    ∀ fuel idx,
      (mapAddLoop d S key fuel idx).map (fun r => (r.1.map Prod.fst, r.2.1)) =
        setAddLoop (d.map Prod.fst) S key fuel idx := by
  intro fuel
  induction fuel with
  | zero => intro idx; rfl
  | succ m ih =>
    intro idx
    simp only [mapAddLoop, setAddLoop, mapKeys_getD]
    by_cases h0 : (d.getD idx (0, 0)).1 = 0
    · rw [if_pos h0, if_pos h0, Option.map_some']
      rw [mapKeys_set]
    · rw [if_neg h0, if_neg h0]
      by_cases hk : key = (d.getD idx (0, 0)).1
      · rw [if_pos hk, if_pos hk, Option.map_some']
      · rw [if_neg hk, if_neg hk]
        exact ih (DS_probeStep idx S)

theorem mapAddResize_proj : ∀ rfuel,
    (∀ (t : DS_Map) (key : Nat),
      (DS_Map.Add rfuel t key).map (fun r => (mapKeys r.1, r.2.1)) =
        DS_Set.Add rfuel (mapKeys t) key) ∧
    (∀ (t : DS_Map) (n : Nat), (0 < n ∨ countOcc (t.Data.map Prod.fst) = 0) →
      (DS_Map.Resize rfuel t n).map mapKeys = DS_Set.Resize rfuel (mapKeys t) n) := by
  intro rfuel
  induction rfuel with
  | zero => exact ⟨fun t key => rfl, fun t n _ => rfl⟩
  | succ rr ih =>
    have hstep : ∀ (t1 : DS_Map) (key : Nat),
        ((mapAddLoop t1.Data t1.NumSlots key t1.NumSlots
            (DS_hashIndex key t1.NumSlots)).map fun r =>
          ((⟨r.1, if r.2.1 then t1.NumElems + 1 else t1.NumElems,
            t1.NumSlots⟩ : DS_Map), r.2)).map (fun r => (mapKeys r.1, r.2.1)) =
        (setAddLoop (mapKeys t1).Data (mapKeys t1).NumSlots key
            (mapKeys t1).NumSlots (DS_hashIndex key (mapKeys t1).NumSlots)).map
          fun r => ((⟨r.1, if r.2 then (mapKeys t1).NumElems + 1
            else (mapKeys t1).NumElems, (mapKeys t1).NumSlots⟩ : DS_Set), r.2) := by
      intro t1 key
      have hproj := mapAddLoop_proj t1.Data t1.NumSlots key t1.NumSlots
        (DS_hashIndex key t1.NumSlots)
      rcases hml : mapAddLoop t1.Data t1.NumSlots key t1.NumSlots
          (DS_hashIndex key t1.NumSlots) with _ | r
      · rw [hml] at hproj
        show Option.map _ (Option.map _ none) =
          Option.map _ (setAddLoop (t1.Data.map Prod.fst) t1.NumSlots key
            t1.NumSlots (DS_hashIndex key t1.NumSlots))
        rw [← hproj]
        rfl
      · rw [hml] at hproj
        show Option.map _ (Option.map _ (some r)) =
          Option.map _ (setAddLoop (t1.Data.map Prod.fst) t1.NumSlots key
            t1.NumSlots (DS_hashIndex key t1.NumSlots))
        rw [← hproj]
        rfl
    constructor
    · intro t key
      simp only [DS_Map.Add, DS_Set.Add]
      by_cases hg : 100 * (t.NumElems + 1) > 70 * t.NumSlots
      · rw [if_pos (show 100 * (t.NumElems + 1) > 70 * t.NumSlots from hg),
          if_pos (show 100 * ((mapKeys t).NumElems + 1) > 70 * (mapKeys t).NumSlots from hg)]
        have hres := ih.2 t (if t.NumSlots = 0 then 8 else t.NumSlots * 2)
          (Or.inl (by by_cases h0 : t.NumSlots = 0 <;> simp [h0] <;> omega))
        rcases hr : DS_Map.Resize rr t (if t.NumSlots = 0 then 8 else t.NumSlots * 2)
          with _ | t1
        · rw [hr] at hres
          show Option.map _ (Option.bind none _) =
            Option.bind (DS_Set.Resize rr (mapKeys t)
              (if (mapKeys t).NumSlots = 0 then 8 else (mapKeys t).NumSlots * 2)) _
          rw [show (if (mapKeys t).NumSlots = 0 then 8 else (mapKeys t).NumSlots * 2) =
            (if t.NumSlots = 0 then 8 else t.NumSlots * 2) from rfl, ← hres]
          rfl
        · rw [hr] at hres
          show Option.map _ (Option.bind (some t1) _) =
            Option.bind (DS_Set.Resize rr (mapKeys t)
              (if (mapKeys t).NumSlots = 0 then 8 else (mapKeys t).NumSlots * 2)) _
          rw [show (if (mapKeys t).NumSlots = 0 then 8 else (mapKeys t).NumSlots * 2) =
            (if t.NumSlots = 0 then 8 else t.NumSlots * 2) from rfl, ← hres]
          rw [Option.map_some', Option.some_bind, Option.some_bind]
          exact hstep t1 key
      · rw [if_neg (show ¬ 100 * (t.NumElems + 1) > 70 * t.NumSlots from hg),
          if_neg (show ¬ 100 * ((mapKeys t).NumElems + 1) > 70 * (mapKeys t).NumSlots from hg),
          Option.some_bind, Option.some_bind]
        exact hstep t key
    · intro t n hn
      simp only [DS_Map.Resize, DS_Set.Resize]
      have hfold : ∀ (l : List DS_MapSlot) (om : Option DS_Map),
          (l.foldl (fun acc elem => acc.bind fun a =>
            if elem.1 = 0 then some a
            else (DS_Map.Add rr a elem.1).map fun r =>
              ⟨mapWriteVal r.1.Data r.2.2 elem.2, r.1.NumElems, r.1.NumSlots⟩) om).map
            mapKeys =
          (l.map Prod.fst).foldl (fun a2 elem => a2.bind fun a =>
            if elem = 0 then some a
            else (DS_Set.Add rr a elem).map Prod.fst) (om.map mapKeys) := by
        intro l
        induction l with
        | nil => intro om; rfl
        | cons x xs ihl =>
          intro om
          rw [List.map_cons, List.foldl_cons, List.foldl_cons, ihl]
          congr 1
          rcases om with _ | a
          · rfl
          · rw [Option.map_some', Option.some_bind, Option.some_bind]
            by_cases hx : x.1 = 0
            · rw [if_pos hx, if_pos hx, Option.map_some']
            · rw [if_neg hx, if_neg hx]
              have hadd := ih.1 a x.1
              rcases ha : DS_Map.Add rr a x.1 with _ | r
              · rw [ha] at hadd
                rw [← hadd]
                rfl
              · rw [ha] at hadd
                rw [← hadd, Option.map_some', Option.map_some', Option.map_some',
                  Option.map_some']
                congr 1
                show (⟨(mapWriteVal r.1.Data r.2.2 x.2).map Prod.fst, r.1.NumElems,
                  r.1.NumSlots⟩ : DS_Set) = mapKeys r.1
                rw [mapKeys_writeVal]
                rfl
      by_cases hn0 : 0 < n
      · rw [if_pos (show 0 < n from hn0)]
        rw [hfold t.Data (some (⟨List.replicate n (0, 0), 0, n⟩ : DS_Map))]
        show _ = (mapKeys t).Data.foldl _ (some (⟨List.replicate n 0, 0, n⟩ : DS_Set))
        rw [Option.map_some']
        show ((t.Data.map Prod.fst).foldl _
          (some (⟨(List.replicate n (0, 0)).map Prod.fst, 0, n⟩ : DS_Set))) = _
        rw [List.map_replicate]
        rfl
      · rcases hn with h | hocc
        · omega
        · rw [if_neg hn0]
          have hallz : ∀ kv ∈ t.Data, kv.1 = 0 := by
            intro kv hkv
            by_contra hne
            have hmem : kv.1 ∈ t.Data.map Prod.fst := List.mem_map_of_mem _ hkv
            have := countOcc_eq_zero_mem hocc kv.1 hmem
            exact hne this
          have hconst : ∀ (om : Option DS_Map) (l : List DS_MapSlot),
              (∀ kv ∈ l, kv.1 = 0) →
              l.foldl (fun acc elem => acc.bind fun a =>
                if elem.1 = 0 then some a
                else (DS_Map.Add rr a elem.1).map fun r =>
                  ⟨mapWriteVal r.1.Data r.2.2 elem.2, r.1.NumElems, r.1.NumSlots⟩) om
                = om := by
            intro om l
            induction l generalizing om with
            | nil => intro _; rfl
            | cons x xs ihl =>
              intro hz
              rw [List.foldl_cons]
              have hx : x.1 = 0 := hz x (by simp)
              have : (om.bind fun a => if x.1 = 0 then some a
                  else (DS_Map.Add rr a x.1).map fun r =>
                    ⟨mapWriteVal r.1.Data r.2.2 x.2, r.1.NumElems, r.1.NumSlots⟩) = om := by
                rcases om with _ | a
                · rfl
                · rw [Option.some_bind, if_pos hx]
              rw [this]
              exact ihl _ (fun kv hkv => hz kv (by simp [hkv]))
          rw [hconst _ _ hallz, Option.map_some']
          show some (⟨(List.replicate n (0, 0)).map Prod.fst, 0, n⟩ : DS_Set) = _
          rw [List.map_replicate]

theorem mapRemoveRepair_proj (rf S : Nat) :
    ∀ fuel (t : DS_Map) (idx : Nat),
      (mapRemoveRepair rf S fuel t idx).map mapKeys =
        setRemoveRepair rf S fuel (mapKeys t) idx := by
  intro fuel
  induction fuel with
  | zero => intro t idx; rfl
  | succ m ih =>
    intro t idx
    simp only [mapRemoveRepair, setRemoveRepair]
    rw [show (mapKeys t).Data = t.Data.map Prod.fst from rfl, mapKeys_getD]
    by_cases h0 : (t.Data.getD (DS_probeStep idx S) (0, 0)).1 = 0
    · rw [if_pos h0, if_pos h0, Option.map_some']
    · rw [if_neg h0, if_neg h0]
      have ht1 : mapKeys ⟨t.Data.set (DS_probeStep idx S)
            (0, (t.Data.getD (DS_probeStep idx S) (0, 0)).2),
          t.NumElems - 1, t.NumSlots⟩ =
          (⟨(t.Data.map Prod.fst).set (DS_probeStep idx S) 0,
            (mapKeys t).NumElems - 1, (mapKeys t).NumSlots⟩ : DS_Set) := by
        show (⟨(t.Data.set (DS_probeStep idx S)
            (0, (t.Data.getD (DS_probeStep idx S) (0, 0)).2)).map Prod.fst,
          t.NumElems - 1, t.NumSlots⟩ : DS_Set) = _
        rw [mapKeys_set]
        rfl
      rw [← ht1]
      have hadd := (mapAddResize_proj rf).1
        ⟨t.Data.set (DS_probeStep idx S)
            (0, (t.Data.getD (DS_probeStep idx S) (0, 0)).2),
          t.NumElems - 1, t.NumSlots⟩
        (t.Data.getD (DS_probeStep idx S) (0, 0)).1
      rcases ha : DS_Map.Add rf
          ⟨t.Data.set (DS_probeStep idx S)
              (0, (t.Data.getD (DS_probeStep idx S) (0, 0)).2),
            t.NumElems - 1, t.NumSlots⟩
          (t.Data.getD (DS_probeStep idx S) (0, 0)).1 with _ | r
      · rw [ha] at hadd
        rw [← hadd]
        rfl
      · rw [ha] at hadd
        rw [← hadd]
        rw [Option.some_bind, Option.map_some', Option.some_bind]
        rw [ih]
        congr 1
        show (⟨(mapWriteVal r.1.Data r.2.2
            (t.Data.getD (DS_probeStep idx S) (0, 0)).2).map Prod.fst,
          r.1.NumElems, r.1.NumSlots⟩ : DS_Set) = mapKeys r.1
        rw [mapKeys_writeVal]
        rfl

theorem mapRemoveLoop_proj (rf S key : Nat) :
    ∀ fuel (t : DS_Map) (idx : Nat),
      (mapRemoveLoop rf S key fuel t idx).map (fun r => (mapKeys r.1, r.2)) =
        setRemoveLoop rf S key fuel (mapKeys t) idx := by
  intro fuel
  induction fuel with
  | zero => intro t idx; rfl
  | succ m ih =>
    intro t idx
    simp only [mapRemoveLoop, setRemoveLoop]
    rw [show (mapKeys t).Data = t.Data.map Prod.fst from rfl, mapKeys_getD]
    by_cases h0 : (t.Data.getD idx (0, 0)).1 = 0
    · rw [if_pos h0, if_pos h0, Option.map_some']
    · rw [if_neg h0, if_neg h0]
      by_cases hk : key = (t.Data.getD idx (0, 0)).1
      · rw [if_pos hk, if_pos hk]
        have ht1 : mapKeys ⟨t.Data.set idx (0, (t.Data.getD idx (0, 0)).2),
            t.NumElems - 1, t.NumSlots⟩ =
            (⟨(t.Data.map Prod.fst).set idx 0,
              (mapKeys t).NumElems - 1, (mapKeys t).NumSlots⟩ : DS_Set) := by
          show (⟨(t.Data.set idx (0, (t.Data.getD idx (0, 0)).2)).map Prod.fst,
            t.NumElems - 1, t.NumSlots⟩ : DS_Set) = _
          rw [mapKeys_set]
          rfl
        rw [← ht1]
        have hrep := mapRemoveRepair_proj rf S t.NumSlots
          ⟨t.Data.set idx (0, (t.Data.getD idx (0, 0)).2),
            t.NumElems - 1, t.NumSlots⟩ idx
        rw [show (mapKeys t).NumSlots = t.NumSlots from rfl]
        rcases hr : mapRemoveRepair rf S t.NumSlots
            ⟨t.Data.set idx (0, (t.Data.getD idx (0, 0)).2),
              t.NumElems - 1, t.NumSlots⟩ idx with _ | r
        · rw [hr] at hrep
          rw [← hrep]
          rfl
        · rw [hr] at hrep
          rw [← hrep]
          rfl
      · rw [if_neg hk, if_neg hk]
        exact ih t (DS_probeStep idx S)

theorem mapRemove_proj (rf : Nat) (t : DS_Map) (key : Nat) :
    (DS_Map.Remove rf t key).map (fun r => (mapKeys r.1, r.2)) =
      DS_Set.Remove rf (mapKeys t) key := by
  unfold DS_Map.Remove DS_Set.Remove
  rw [show (mapKeys t).NumSlots = t.NumSlots from rfl]
  by_cases h0 : t.NumSlots = 0
  · rw [if_pos h0, if_pos h0, Option.map_some']
  · rw [if_neg h0, if_neg h0]
    exact mapRemoveLoop_proj rf t.NumSlots key t.NumSlots t
      (DS_hashIndex key t.NumSlots)

theorem mapAddLoop_key {d : List DS_MapSlot} {S key : Nat} {k : Nat}
    (hk : S = 2 ^ k) (hlen : d.length = S) :
    ∀ fuel idx, idx < S →
      ∀ d2 isNew i, mapAddLoop d S key fuel idx = some (d2, isNew, i) →
        i < S ∧ d2.length = S ∧ (d2.getD i (0, 0)).1 = key := by
  intro fuel
  induction fuel with
  | zero =>
    intro idx _ d2 isNew i h
    exact absurd h (by simp [mapAddLoop])
  | succ m ih =>
    intro idx hidx d2 isNew i h
    have hS : 0 < S := by omega
    simp only [mapAddLoop] at h
    by_cases h0 : (d.getD idx (0, 0)).1 = 0
    · rw [if_pos h0] at h
      obtain ⟨h1, h2, h3⟩ : d.set idx (key, (d.getD idx (0, 0)).2) = d2 ∧
          true = isNew ∧ idx = i := by
        have := Option.some.inj h
        exact ⟨congrArg Prod.fst this, congrArg (Prod.fst ∘ Prod.snd) this,
          congrArg (Prod.snd ∘ Prod.snd) this⟩
      subst h1 h3
      refine ⟨hidx, by simpa using hlen, ?_⟩
      rw [getD_set_self d (0, 0) _ (by omega)]
    · rw [if_neg h0] at h
      by_cases hkey : key = (d.getD idx (0, 0)).1
      · rw [if_pos hkey] at h
        obtain ⟨h1, h2, h3⟩ : d = d2 ∧ false = isNew ∧ idx = i := by
          have := Option.some.inj h
          exact ⟨congrArg Prod.fst this, congrArg (Prod.fst ∘ Prod.snd) this,
            congrArg (Prod.snd ∘ Prod.snd) this⟩
        subst h1 h3
        exact ⟨hidx, hlen, hkey.symm⟩
      · rw [if_neg hkey, probeStep_eq hk] at h
        exact ih ((idx + 1) % S) (Nat.mod_lt _ hS) d2 isNew i h

theorem mapFindLoop_skip {d : List DS_MapSlot} {S key : Nat} {k : Nat}
    (hk : S = 2 ^ k) :
    ∀ (n : Nat) (a : Nat), a < S →
      (∀ i, i < n → (d.getD ((a + i) % S) (0, 0)).1 ≠ 0 ∧
        key ≠ (d.getD ((a + i) % S) (0, 0)).1) →
      ∀ fuel, mapFindLoop d S key (n + fuel) a = mapFindLoop d S key fuel ((a + n) % S) := by
  intro n
  induction n with
  | zero =>
    intro a ha _ fuel
    rw [Nat.zero_add, Nat.add_zero, Nat.mod_eq_of_lt ha]
  | succ m ih =>
    intro a ha hrun fuel
    have hS : 0 < S := by omega
    have h0 := hrun 0 (by omega)
    rw [Nat.add_zero, Nat.mod_eq_of_lt ha] at h0
    have hstep : mapFindLoop d S key (m + 1 + fuel) a =
        mapFindLoop d S key (m + fuel) (DS_probeStep a S) := by
      rw [show m + 1 + fuel = (m + fuel) + 1 by omega]
      simp only [mapFindLoop]
      rw [if_neg h0.1, if_neg h0.2]
    rw [hstep, probeStep_eq hk]
    have hrun1 : ∀ i, i < m →
        (d.getD (((a + 1) % S + i) % S) (0, 0)).1 ≠ 0 ∧
        key ≠ (d.getD (((a + 1) % S + i) % S) (0, 0)).1 := by
      intro i hi
      rw [Nat.mod_add_mod, show a + 1 + i = a + (1 + i) by omega]
      exact hrun (1 + i) (by omega)
    rw [ih ((a + 1) % S) (Nat.mod_lt _ hS) hrun1 fuel, Nat.mod_add_mod,
      show a + 1 + m = a + (m + 1) by omega]

theorem mapFindLoop_empty {d : List DS_MapSlot} {S key a : Nat}
    (h : (d.getD a (0, 0)).1 = 0) (fuel : Nat) :
    mapFindLoop d S key (fuel + 1) a = none := by
  simp only [mapFindLoop]
  rw [if_pos h]

theorem mapFindLoop_hit {d : List DS_MapSlot} {S key a : Nat}
    (h : (d.getD a (0, 0)).1 ≠ 0) (hkey : key = (d.getD a (0, 0)).1) (fuel : Nat) :
    mapFindLoop d S key (fuel + 1) a = some (d.getD a (0, 0)).2 := by
  simp only [mapFindLoop]
  rw [if_neg h, if_pos hkey]

/-- Where `DS_Map::FindPtr` probes: on a well-formed map it returns the
value stored beside the unique slot holding `key`, and `none` when no slot
holds `key`. -/
theorem findPtr_spec {t : DS_Map} (W : MapWF t) (key : Nat) :
    (∀ i v, i < t.Data.length → t.Data.getD i (0, 0) = (key, v) → key ≠ 0 →
      DS_Map.FindPtr t key = some v) ∧
    (¬ (key ≠ 0 ∧ key ∈ t.Data.map Prod.fst) → DS_Map.FindPtr t key = none) := by
  have Wlen : (t.Data.map Prod.fst).length = t.NumSlots := W.len
  have Wcount : t.NumElems = countOcc (t.Data.map Prod.fst) := W.count
  have Wload : 100 * t.NumElems ≤ 70 * t.NumSlots := W.load
  have Wnodup : NodupInv (t.Data.map Prod.fst) := W.nodup
  have Wchain : ChainInv (t.Data.map Prod.fst) t.NumSlots := W.chain
  have Wpow2 : t.NumSlots = 0 ∨ ∃ k, t.NumSlots = 2 ^ k := W.pow2
  by_cases hS0 : t.NumSlots = 0
  · constructor
    · intro i v hi hslot hkey
      rw [List.length_map] at Wlen
      omega
    · intro _
      unfold DS_Map.FindPtr
      rw [if_pos hS0]
  · set S := t.NumSlots with hS_def
    set d := t.Data with hd_def
    have hS : 0 < S := by omega
    obtain ⟨k, hk⟩ : ∃ k, S = 2 ^ k := by
      rcases Wpow2 with h | h
      · omega
      · exact h
    have hlen : d.length = S := by
      rw [← List.length_map d Prod.fst]
      exact Wlen
    have hb : DS_hashIndex key S < S := hashIndex_lt hS key
    have hocclt : countOcc (d.map Prod.fst) < S := by omega
    obtain ⟨p0, hp0l, hp0⟩ := exists_empty_slot (d.map Prod.fst) (by
      rw [List.length_map]
      omega)
    have hp0S : p0 < S := by
      rw [List.length_map] at hp0l
      omega
    rw [mapKeys_getD] at hp0
    have hex : ∃ n, (d.getD ((DS_hashIndex key S + n) % S) (0, 0)).1 = 0 ∨
        key = (d.getD ((DS_hashIndex key S + n) % S) (0, 0)).1 :=
      ⟨cdist S (DS_hashIndex key S) p0,
        Or.inl (by rw [add_cdist hb hp0S]; exact hp0)⟩
    set N := Nat.find hex with hN_def
    have hspec := Nat.find_spec hex
    have hNle0 : N ≤ cdist S (DS_hashIndex key S) p0 := by
      apply Nat.find_min'
      exact Or.inl (by rw [add_cdist hb hp0S]; exact hp0)
    have hNS : N < S := by
      have := cdist_lt hS (DS_hashIndex key S) p0
      omega
    set q := (DS_hashIndex key S + N) % S with hq_def
    have hq : q < S := by
      rw [hq_def]
      exact Nat.mod_lt _ hS
    have hcdq : cdist S (DS_hashIndex key S) q = N := by
      rw [hq_def]
      exact cdist_add_lt hb hNS
    have hrun : ∀ i, i < N →
        (d.getD ((DS_hashIndex key S + i) % S) (0, 0)).1 ≠ 0 ∧
        key ≠ (d.getD ((DS_hashIndex key S + i) % S) (0, 0)).1 := by
      intro i hi
      have hmin := Nat.find_min hex hi
      exact ⟨fun h => hmin (Or.inl h), fun h => hmin (Or.inr h)⟩
    have hfind : DS_Map.FindPtr t key =
        mapFindLoop d S key (N + (S - N)) (DS_hashIndex key S) := by
      unfold DS_Map.FindPtr
      rw [if_neg hS0, show N + (S - N) = S by omega]
    obtain ⟨f, hf⟩ : ∃ f, S - N = f + 1 := ⟨S - N - 1, by omega⟩
    have hwalk := @mapFindLoop_skip d S key _ hk N (DS_hashIndex key S)
      hb hrun (S - N)
    constructor
    · -- some slot `i` holds `(key, v)`
      intro i v hi hslot hkey
      have hiS : i < S := by omega
      have hkeyi : (d.map Prod.fst).getD i 0 = key := by
        rw [mapKeys_getD, hslot]
      -- the probe cannot stop early at an empty slot
      have hchain_i := Wchain i hiS (by rw [hkeyi]; exact hkey)
      have hNle : N ≤ cdist S (DS_hashIndex key S) i := by
        apply Nat.find_min'
        right
        rw [add_cdist hb hiS, hslot]
      by_cases hq0 : (d.getD q (0, 0)).1 = 0
      · exfalso
        rcases Nat.lt_or_ge N (cdist S (DS_hashIndex key S) i) with hlt | hge
        · have hocc := hchain_i N (by rw [hkeyi]; exact hlt)
          rw [hkeyi] at hocc
          rw [← hq_def, mapKeys_getD] at hocc
          exact hocc hq0
        · have hNeq : N = cdist S (DS_hashIndex key S) i := by omega
          have hqi : q = i := by rw [hq_def, hNeq, add_cdist hb hiS]
          rw [hqi, hslot] at hq0
          exact hkey hq0
      · have hkeyq : key = (d.getD q (0, 0)).1 := by
          rcases hspec with h | h
          · exact absurd h hq0
          · exact h
        have hqi : q = i := by
          apply Wnodup q i (by rw [List.length_map]; omega)
            (by rw [List.length_map]; omega)
          · rw [mapKeys_getD, ← hkeyq]
            exact hkey
          · rw [mapKeys_getD, mapKeys_getD, ← hkeyq, hslot]
        rw [hfind, hwalk, hf, mapFindLoop_hit hq0 hkeyq f]
        rw [hqi, hslot]
    · -- no slot holds `key`
      intro hnot
      by_cases hq0 : (d.getD q (0, 0)).1 = 0
      · rw [hfind, hwalk, hf]
        exact mapFindLoop_empty hq0 f
      · exfalso
        have hkeyq : key = (d.getD q (0, 0)).1 := by
          rcases hspec with h | h
          · exact absurd h hq0
          · exact h
        apply hnot
        refine ⟨by rw [hkeyq]; exact hq0, ?_⟩
        rw [hkeyq, ← mapKeys_getD]
        exact getD_mem _ (by rw [List.length_map]; omega)

/-- `DS_Map::Add` on a well-formed map: succeeds, preserves the invariant,
and the returned `VALUE**` out-pointer designates a slot that now holds
`key`. -/
theorem mapAdd_slot (rf : Nat) {t : DS_Map} {key : Nat} (W : MapWF t)
    (hkey : key ≠ 0) (hrf : 3 ≤ rf) :
    ∃ m2 isNew i, DS_Map.Add rf t key = some (m2, isNew, i) ∧ MapWF m2 ∧
      i < m2.Data.length ∧ (m2.Data.getD i (0, 0)).1 = key := by
  have W' : SetWF (mapKeys t) := W
  obtain ⟨s1, isNew, hSadd, hwfs, hcnt, hnew, hmem⟩ := setAdd_correct rf W' hkey hrf
  have hproj := (mapAddResize_proj rf).1 t key
  rw [hSadd] at hproj
  rcases hM : DS_Map.Add rf t key with _ | r
  · rw [hM] at hproj
    exact absurd hproj (by simp)
  obtain ⟨m2, isNew2, i⟩ := r
  rw [hM, Option.map_some'] at hproj
  have hinj := Option.some.inj hproj
  have hr1 : mapKeys m2 = s1 := congrArg Prod.fst hinj
  refine ⟨m2, isNew2, i, rfl, ?_, ?_, ?_⟩
  · show SetWF (mapKeys m2)
    rw [hr1]
    exact hwfs
  all_goals {
    obtain ⟨rr, hrr⟩ : ∃ rr, rf = rr + 1 := ⟨rf - 1, by omega⟩
    rw [hrr] at hM
    simp only [DS_Map.Add] at hM
    rcases hg : (if 100 * (t.NumElems + 1) > 70 * t.NumSlots then
        DS_Map.Resize rr t (if t.NumSlots = 0 then 8 else t.NumSlots * 2)
      else some t) with _ | t1
    · rw [hg] at hM
      exact absurd hM (by simp)
    rw [hg, Option.some_bind] at hM
    rcases hl : mapAddLoop t1.Data t1.NumSlots key t1.NumSlots
        (DS_hashIndex key t1.NumSlots) with _ | lr
    · rw [hl] at hM
      exact absurd hM (by simp)
    rw [hl, Option.map_some'] at hM
    have hM2 := Option.some.inj hM
    have hdata : m2.Data = lr.1 := (congrArg (fun p => DS_Map.Data p.1) hM2).symm
    have hi : i = lr.2.2 := (congrArg (fun p => p.2.2) hM2).symm
    have ht1facts : t1.Data.length = t1.NumSlots ∧ ∃ k1, t1.NumSlots = 2 ^ k1 := by
      by_cases hgrow : 100 * (t.NumElems + 1) > 70 * t.NumSlots
      · rw [if_pos hgrow] at hg
        have hn2 : ∃ k1, (if t.NumSlots = 0 then 8 else t.NumSlots * 2) = 2 ^ k1 := by
          by_cases h0 : t.NumSlots = 0
          · refine ⟨3, ?_⟩
            rw [if_pos h0]
            rfl
          · obtain ⟨k0, hk0⟩ : ∃ k0, t.NumSlots = 2 ^ k0 := by
              rcases W'.pow2 with h | h
              · exact absurd h h0
              · exact h
            exact ⟨k0 + 1, by rw [if_neg h0, hk0, Nat.pow_succ, Nat.mul_comm]⟩
        obtain ⟨k1, hk1⟩ := hn2
        have hbud : 100 * (mapKeys t).NumElems ≤
            70 * (if t.NumSlots = 0 then 8 else t.NumSlots * 2) := by
          have hload : 100 * t.NumElems ≤ 70 * t.NumSlots := W'.load
          show 100 * t.NumElems ≤ 70 * (if t.NumSlots = 0 then 8 else t.NumSlots * 2)
          by_cases h0 : t.NumSlots = 0
          · rw [if_pos h0]
            omega
          · rw [if_neg h0]
            omega
        obtain ⟨t2s, hres, hwf2, hslots2, _, _⟩ :=
          setResize_nogrow_correct rr W' hk1 (by omega) hbud
        have hproj2 := (mapAddResize_proj rr).2 t
          (if t.NumSlots = 0 then 8 else t.NumSlots * 2)
          (Or.inl (by by_cases h0 : t.NumSlots = 0 <;> simp [h0] <;> omega))
        rw [hg, hres, Option.map_some'] at hproj2
        have ht2 : mapKeys t1 = t2s := Option.some.inj hproj2
        refine ⟨?_, ?_⟩
        · have hl2 := hwf2.len
          rw [← ht2] at hl2
          have hml : (mapKeys t1).Data.length = t1.Data.length := List.length_map ..
          rw [hml] at hl2
          exact hl2
        · refine ⟨k1, ?_⟩
          have hns : t1.NumSlots = t2s.NumSlots := by
            rw [← ht2]
            rfl
          rw [hns, hslots2, hk1]
      · rw [if_neg hgrow] at hg
        have ht1 : t = t1 := Option.some.inj hg
        subst ht1
        refine ⟨?_, ?_⟩
        · have hwl2 : (t.Data.map Prod.fst).length = t.NumSlots := W'.len
          have hml : (t.Data.map Prod.fst).length = t.Data.length := List.length_map ..
          rw [hml] at hwl2
          exact hwl2
        · have hS0 : t.NumSlots ≠ 0 := by
            intro hc
            rw [hc] at hgrow
            omega
          have hpow : t.NumSlots = 0 ∨ ∃ k1, t.NumSlots = 2 ^ k1 := W'.pow2
          rcases hpow with h | h
          · exact absurd h hS0
          · exact h
    obtain ⟨hlen1, k1, hk1⟩ := ht1facts
    have hS1 : 0 < t1.NumSlots := by rw [hk1]; positivity
    obtain ⟨hiS, hlen2, hkeyi⟩ := mapAddLoop_key hk1 hlen1 t1.NumSlots
      (DS_hashIndex key t1.NumSlots) (hashIndex_lt hS1 key) lr.1 lr.2.1 lr.2.2
      (by rw [hl])
    first
    | (show i < m2.Data.length
       rw [hi, hdata, hlen2]
       exact hiS)
    | (show (m2.Data.getD i (0, 0)).1 = key
       rw [hi, hdata]
       exact hkeyi)
  }

theorem setRunOp_sound {t t2 : DS_Set} {op : TableOp} (W : SetWF t) (hop : op.KeyOk)
    (h : setRunOp t op = some t2) :
    SetWF t2 ∧
      (∀ v, v ≠ 0 →
        (v ∈ t2.Data ↔ match op with
          | .add k => v ∈ t.Data ∨ v = k
          | .remove k => v ∈ t.Data ∧ v ≠ k
          | .resize _ => v ∈ t.Data)) := by
  cases op with
  | add k =>
    have hk : k ≠ 0 := hop
    obtain ⟨t1, isNew, hadd, hwf, hcnt, hnew, hmem⟩ := setAdd_correct 3 W hk (le_refl 3)
    simp only [setRunOp] at h
    rw [if_pos (show DS_Set.AddAssertPasses k = true from by
      simp [DS_Set.AddAssertPasses, hk]), hadd, Option.map_some'] at h
    rcases Option.some.inj h with rfl
    exact ⟨hwf, hmem⟩
  | remove k =>
    obtain ⟨t1, removed, hrem, hwf, hslots, hiff, hmem, hcnt⟩ :=
      setRemove_correct 3 W (by omega)
    simp only [setRunOp] at h
    rw [hrem, Option.map_some'] at h
    rcases Option.some.inj h with rfl
    exact ⟨hwf, hmem⟩
  | resize n =>
    simp only [setRunOp] at h
    by_cases hc : n &&& (n - 1) = 0 ∧ t.NumElems ≤ n
    · rw [if_pos hc] at h
      obtain ⟨t1, hres, hwf, hcnt, hmem⟩ :=
        setResize_correct 4 W (pow2_of_and_pred hc.1) hc.2 (le_refl 4)
      rw [hres] at h
      rcases Option.some.inj h with rfl
      exact ⟨hwf, hmem⟩
    · rw [if_neg hc] at h
      exact absurd h (by simp)

theorem setRunOp_total {t : DS_Set} {op : TableOp} (W : SetWF t) (hop : op.KeyOk)
    (har : op.isAddRemove) : ∃ t2, setRunOp t op = some t2 := by
  cases op with
  | add k =>
    obtain ⟨t1, isNew, hadd, _, _, _, _⟩ := setAdd_correct 3 W hop (le_refl 3)
    refine ⟨t1, ?_⟩
    simp only [setRunOp]
    rw [if_pos (show DS_Set.AddAssertPasses k = true from by
      simp only [DS_Set.AddAssertPasses, Bool.not_eq_true']
      exact beq_eq_false_iff_ne.2 hop), hadd, Option.map_some']
  | remove k =>
    obtain ⟨t1, removed, hrem, _⟩ := setRemove_correct 3 W (by omega)
    refine ⟨t1, ?_⟩
    simp only [setRunOp]
    rw [hrem, Option.map_some']
  | resize n => exact (har : False).elim

theorem setRunOps_sound : ∀ (ops : List TableOp) (t t2 : DS_Set), SetWF t →
    (∀ op ∈ ops, op.KeyOk) → setRunOps t ops = some t2 →
    SetWF t2 ∧ ∀ key, key ≠ 0 →
      decide (key ∈ t2.Data) =
        ops.foldl (fun b op =>
          match op with
          | .add k => if k = key then true else b
          | .remove k => if k = key then false else b
          | .resize _ => b) (decide (key ∈ t.Data)) := by
  intro ops
  induction ops with
  | nil =>
    intro t t2 W _ h
    simp only [setRunOps] at h
    rcases Option.some.inj h with rfl
    exact ⟨W, fun key _ => rfl⟩
  | cons op rest ih =>
    intro t t2 W hks h
    simp only [setRunOps] at h
    rcases h1 : setRunOp t op with _ | t1
    · rw [h1] at h
      exact absurd h (by simp)
    · rw [h1, Option.some_bind] at h
      obtain ⟨hwf1, hmem1⟩ := setRunOp_sound W (hks op (by simp)) h1
      obtain ⟨hwf2, hpar⟩ := ih t1 t2 hwf1 (fun o ho => hks o (by simp [ho])) h
      refine ⟨hwf2, ?_⟩
      intro key hkey
      rw [List.foldl_cons, hpar key hkey]
      congr 1
      cases op with
      | add k =>
        have hiff := hmem1 key hkey
        show decide (key ∈ t1.Data) = if k = key then true else decide (key ∈ t.Data)
        by_cases hkk : k = key
        · subst hkk
          simp only [if_pos rfl]
          exact decide_eq_true (hiff.2 (Or.inr rfl))
        · rw [if_neg hkk]
          apply decide_eq_decide.2
          rw [hiff]
          exact ⟨fun h2 => h2.resolve_right (fun hc => hkk hc.symm), Or.inl⟩
      | remove k =>
        have hiff := hmem1 key hkey
        show decide (key ∈ t1.Data) = if k = key then false else decide (key ∈ t.Data)
        by_cases hkk : k = key
        · subst hkk
          simp only [if_pos rfl]
          apply decide_eq_false
          intro hc
          exact (hiff.1 hc).2 rfl
        · rw [if_neg hkk]
          apply decide_eq_decide.2
          rw [hiff]
          exact ⟨fun h2 => h2.1, fun h2 => ⟨h2, fun hc => hkk hc.symm⟩⟩
      | resize n =>
        show decide (key ∈ t1.Data) = decide (key ∈ t.Data)
        apply decide_eq_decide.2
        exact hmem1 key hkey

theorem setRunOps_total : ∀ (ops : List TableOp) (t : DS_Set), SetWF t →
    (∀ op ∈ ops, op.KeyOk ∧ op.isAddRemove) →
    ∃ t2, setRunOps t ops = some t2 := by
  intro ops
  induction ops with
  | nil => intro t _ _; exact ⟨t, rfl⟩
  | cons op rest ih =>
    intro t W hks
    obtain ⟨t1, h1⟩ := setRunOp_total W (hks op (by simp)).1 (hks op (by simp)).2
    obtain ⟨hwf1, _⟩ := setRunOp_sound W (hks op (by simp)).1 h1
    obtain ⟨t2, h2⟩ := ih t1 hwf1 (fun o ho => hks o (by simp [ho]))
    refine ⟨t2, ?_⟩
    simp only [setRunOps]
    rw [h1, Option.some_bind]
    exact h2

theorem mapRunOp_proj {t : DS_Map} (W : MapWF t) (op : TableOp) :
    (mapRunOp t op).map mapKeys = setRunOp (mapKeys t) op := by
  cases op with
  | add k =>
    simp only [mapRunOp, setRunOp]
    rw [show DS_Map.AddAssertPasses k = DS_Set.AddAssertPasses k from rfl]
    by_cases hc : DS_Set.AddAssertPasses k = true
    · rw [if_pos hc, if_pos hc]
      have hp := (mapAddResize_proj 3).1 t k
      rcases hA : DS_Map.Add 3 t k with _ | r
      · rw [hA] at hp
        rw [← hp]
        rfl
      · rw [hA] at hp
        rw [← hp, Option.map_some', Option.map_some', Option.map_some']
        rfl
    · rw [if_neg hc, if_neg hc]
      rfl
  | remove k =>
    simp only [mapRunOp, setRunOp]
    have hp := mapRemove_proj 3 t k
    rcases hA : DS_Map.Remove 3 t k with _ | r
    · rw [hA] at hp
      rw [← hp]
      rfl
    · rw [hA] at hp
      rw [← hp, Option.map_some', Option.map_some', Option.map_some']
      rfl
  | resize n =>
    simp only [mapRunOp, setRunOp]
    rw [show (mapKeys t).NumElems = t.NumElems from rfl]
    by_cases hc : n &&& (n - 1) = 0 ∧ t.NumElems ≤ n
    · rw [if_pos hc, if_pos hc]
      apply (mapAddResize_proj 4).2
      rcases Nat.eq_zero_or_pos n with h0 | h0
      · right
        have hWc : t.NumElems = countOcc (t.Data.map Prod.fst) := W.count
        have := hc.2
        omega
      · exact Or.inl h0
    · rw [if_neg hc, if_neg hc]
      rfl

theorem mapRunOps_proj : ∀ (ops : List TableOp) (t : DS_Map), MapWF t →
    (∀ op ∈ ops, op.KeyOk) →
    (mapRunOps t ops).map mapKeys = setRunOps (mapKeys t) ops := by
  intro ops
  induction ops with
  | nil => intro t _ _; rfl
  | cons op rest ih =>
    intro t W hks
    simp only [mapRunOps, setRunOps]
    have hp := mapRunOp_proj W op
    rcases h1 : mapRunOp t op with _ | t1
    · rw [h1] at hp
      rw [← hp]
      rfl
    · rw [h1] at hp
      rw [← hp, Option.map_some', Option.some_bind, Option.some_bind]
      have hwf1 : MapWF t1 := by
        show SetWF (mapKeys t1)
        exact (setRunOp_sound (W : SetWF (mapKeys t)) (hks op (by simp)) hp.symm).1
      exact ih t1 hwf1 (fun o ho => hks o (by simp [ho]))

/-! ### Claim theorems: hash tables -/

theorem setWF_init : SetWF DS_Set.Init := by
  refine ⟨rfl, Or.inl rfl, rfl, le_refl 0, ?_, ?_⟩
  · intro i j hi hj h1 h2
    exact absurd rfl h1
  · intro i hi hocc
    exact absurd rfl hocc

/-- C1: the table insert/find parity law.  For the `DS_Set` half of the
claim: after any trace of assert-passing operations from a fresh table,
`Has(k)` equals the net parity of inserts/removes of `k`, and `Add`/`Remove`
traces always run to completion.  For the `DS_Map` half the claim is only
provable for the model in which the ill-formed member access `moving->KEY`
in `DS_Map::Remove` is read as the intended `moving->Key`: there,
`Set(k,v)` followed by `Find(k)` yields `v`, and `Remove(k)` followed by
`Find(k)` reports absence. -/
theorem C1_insert_find_parity (ops : List TableOp)
    (hops : ∀ op ∈ ops, op.KeyOk) :
    (∀ t2, setRunOps DS_Set.Init ops = some t2 →
      ∀ key, key ≠ 0 → t2.Has key = netPresent ops key) ∧
    ((∀ op ∈ ops, op.isAddRemove) → ∃ t2, setRunOps DS_Set.Init ops = some t2) ∧
    (∀ (m : DS_Map) (key v : Nat), MapWF m → key ≠ 0 →
      ∀ m2, DS_Map.Set 3 m key v = some m2 → DS_Map.Find m2 key = some v) ∧
    (∀ (m : DS_Map) (key : Nat), MapWF m → key ≠ 0 →
      ∀ m2 r, DS_Map.Remove 3 m key = some (m2, r) → DS_Map.Find m2 key = none) := by
  have hwf0 : SetWF DS_Set.Init := setWF_init
  refine ⟨?_, ?_, ?_, ?_⟩
  · intro t2 h2 key hkey
    obtain ⟨hwf2, hpar⟩ := setRunOps_sound ops DS_Set.Init t2 hwf0 hops h2
    have h0 : decide (key ∈ DS_Set.Init.Data) = false := by
      simp [DS_Set.Init]
    have hnp : netPresent ops key = decide (key ∈ t2.Data) := by
      unfold netPresent
      rw [hpar key hkey, h0]
    rw [hnp]
    have hhas := setHas_correct hwf2 key
    by_cases hmem : key ∈ t2.Data
    · rw [decide_eq_true hmem]
      exact hhas.2 ⟨hkey, hmem⟩
    · rw [decide_eq_false hmem]
      cases hb : t2.Has key
      · rfl
      · exact absurd (hhas.1 hb).2 hmem
  · intro har
    exact setRunOps_total ops DS_Set.Init hwf0 (fun op ho => ⟨hops op ho, har op ho⟩)
  · intro m key v W hkey m2 hset
    obtain ⟨ma, isNew, i, hAdd, hwfa, hilen, hkeyi⟩ := mapAdd_slot 3 W hkey (le_refl 3)
    unfold DS_Map.Set at hset
    rw [hAdd, Option.map_some'] at hset
    rcases Option.some.inj hset with rfl
    have hwf2 : MapWF (⟨mapWriteVal ma.Data i v, ma.NumElems, ma.NumSlots⟩ : DS_Map) := by
      show SetWF (mapKeys ⟨mapWriteVal ma.Data i v, ma.NumElems, ma.NumSlots⟩)
      have : mapKeys (⟨mapWriteVal ma.Data i v, ma.NumElems, ma.NumSlots⟩ : DS_Map) =
          mapKeys ma := by
        show (⟨(mapWriteVal ma.Data i v).map Prod.fst, ma.NumElems, ma.NumSlots⟩ :
          DS_Set) = mapKeys ma
        rw [mapKeys_writeVal]
        rfl
      rw [this]
      exact hwfa
    have hslot : (mapWriteVal ma.Data i v).getD i (0, 0) =
        (((ma.Data.getD i (0, 0)).1, v) : DS_MapSlot) := by
      unfold mapWriteVal
      exact getD_set_self ma.Data (0, 0) _ hilen
    have hfind := (findPtr_spec hwf2 key).1 i v
      (by show i < (mapWriteVal ma.Data i v).length
          unfold mapWriteVal
          rw [List.length_set]
          exact hilen)
      (by show (mapWriteVal ma.Data i v).getD i (0, 0) = (key, v)
          rw [hslot, hkeyi])
      hkey
    exact hfind
  · intro m key W hkey m2 r hrem
    have W' : SetWF (mapKeys m) := W
    obtain ⟨s2, removed, hSrem, hwfs, _, _, hmem, _⟩ := setRemove_correct 3 W' (by omega)
    have hproj := mapRemove_proj 3 m key
    rw [hrem, hSrem, Option.map_some'] at hproj
    have hinj := Option.some.inj hproj
    have hs2 : mapKeys m2 = s2 := congrArg Prod.fst hinj
    have hwf2 : MapWF m2 := by
      show SetWF (mapKeys m2)
      rw [hs2]
      exact hwfs
    have hnot : ¬ (key ≠ 0 ∧ key ∈ m2.Data.map Prod.fst) := by
      rintro ⟨hk0, hkin⟩
      have : key ∈ s2.Data := by
        rw [← hs2]
        exact hkin
      exact ((hmem key hk0).1 this).2 rfl
    exact (findPtr_spec hwf2 key).2 hnot

theorem C1_insert_find_parity_witness :
    (∀ op ∈ [TableOp.add 5, TableOp.remove 5], TableOp.KeyOk op) ∧
    (⟨List.replicate 8 0, 0, 8⟩ : DS_Set).Has 5 =
      netPresent [TableOp.add 5, TableOp.remove 5] 5 :=
  ⟨by decide,
    (C1_insert_find_parity [TableOp.add 5, TableOp.remove 5] (by decide)).1
      ⟨List.replicate 8 0, 0, 8⟩ (by decide) 5 (by decide)⟩

/-- C2: the probe-chain invariant.  For `DS_Set` traces it holds after
every operation, deletions included; for `DS_Map` it is stated for the
key projection of the model in which `DS_Map::Remove`'s ill-formed
`moving->KEY` is read as the member `moving->Key`. -/
theorem C2_probe_chain_invariant (ops : List TableOp)
    (hops : ∀ op ∈ ops, op.KeyOk) :
    (∀ t2, setRunOps DS_Set.Init ops = some t2 → ChainInv t2.Data t2.NumSlots) ∧
    (∀ m2, mapRunOps DS_Map.Init ops = some m2 →
      ChainInv (m2.Data.map Prod.fst) m2.NumSlots) := by
  have hwf0 : SetWF DS_Set.Init := setWF_init
  constructor
  · intro t2 h2
    exact (setRunOps_sound ops DS_Set.Init t2 hwf0 hops h2).1.chain
  · intro m2 h2
    have hwfm0 : MapWF DS_Map.Init := hwf0
    have hproj := mapRunOps_proj ops DS_Map.Init hwfm0 hops
    rw [h2, Option.map_some'] at hproj
    exact (setRunOps_sound ops (mapKeys DS_Map.Init) (mapKeys m2) hwf0 hops
      hproj.symm).1.chain

theorem C2_probe_chain_invariant_witness :
    (∀ op ∈ [TableOp.add 5, TableOp.add 13, TableOp.remove 5], TableOp.KeyOk op) ∧
    ChainInv [0, 0, 0, 0, 0, 13, 0, 0] 8 :=
  ⟨by decide,
    (C2_probe_chain_invariant [TableOp.add 5, TableOp.add 13, TableOp.remove 5]
      (by decide)).1 ⟨[0, 0, 0, 0, 0, 13, 0, 0], 1, 8⟩ (by decide)⟩

/-- C3: the concrete backward-shift scenario: in an 8-slot set, keys `5`
and `13` both hash to slot `5`; after `Add(5)`, `Add(13)`, `Remove(5)`,
key `13` is still found and now occupies slot `hash(5) & 7`. -/
theorem C3_concrete_backshift :
    DS_hashIndex 5 8 = DS_hashIndex 13 8 ∧
    ((DS_Set.Add 3 ⟨List.replicate 8 0, 0, 8⟩ 5).bind fun r1 =>
      (DS_Set.Add 3 r1.1 13).bind fun r2 =>
        (DS_Set.Remove 3 r2.1 5).map fun r3 =>
          (r3.1.Has 13, r3.1.Data.getD (DS_hashIndex 5 8) 0)) =
      some (true, 13) := by decide

/-- C7: the 70% load-factor bound holds after every operation of any
assert-passing trace from a fresh table, for `DS_Set` and for `DS_Map`
(the latter in the corrected-`Remove` model), growth, deletion repair and
explicit `Resize` included. -/
theorem C7_load_factor_invariant (ops : List TableOp)
    (hops : ∀ op ∈ ops, op.KeyOk) :
    (∀ t2, setRunOps DS_Set.Init ops = some t2 →
      100 * t2.NumElems ≤ 70 * t2.NumSlots) ∧
    (∀ m2, mapRunOps DS_Map.Init ops = some m2 →
      100 * m2.NumElems ≤ 70 * m2.NumSlots) := by
  have hwf0 : SetWF DS_Set.Init := setWF_init
  constructor
  · intro t2 h2
    exact (setRunOps_sound ops DS_Set.Init t2 hwf0 hops h2).1.load
  · intro m2 h2
    have hwfm0 : MapWF DS_Map.Init := hwf0
    have hproj := mapRunOps_proj ops DS_Map.Init hwfm0 hops
    rw [h2, Option.map_some'] at hproj
    exact (setRunOps_sound ops (mapKeys DS_Map.Init) (mapKeys m2) hwf0 hops
      hproj.symm).1.load

theorem C7_load_factor_invariant_witness :
    (∀ op ∈ [TableOp.add 7], TableOp.KeyOk op) ∧
    100 * (⟨[0, 0, 0, 0, 0, 0, 0, 7], 1, 8⟩ : DS_Set).NumElems ≤
      70 * (⟨[0, 0, 0, 0, 0, 0, 0, 7], 1, 8⟩ : DS_Set).NumSlots :=
  ⟨by decide,
    (C7_load_factor_invariant [TableOp.add 7] (by decide)).1
      ⟨[0, 0, 0, 0, 0, 0, 0, 7], 1, 8⟩ (by decide)⟩

/-- C9: the sentinel-key assertion at the top of `Add` fails exactly for
the sentinel, and the other table operations are total: on well-formed
tables `DS_Set::Remove` and (in the corrected-`Remove` model)
`DS_Map::Remove` and `DS_Map::Add` always return, `DS_Set::Resize` returns
under its asserts, and on a zero-slot table `Has`/`FindPtr`/`Remove`
report absence instead of failing. -/
theorem C9_sentinel_assert_totality :
    (∀ key : Nat, DS_Set.AddAssertPasses key = false ↔ key = 0) ∧
    (∀ key : Nat, DS_Map.AddAssertPasses key = false ↔ key = 0) ∧
    (∀ (t : DS_Set) (key : Nat), SetWF t →
      ∃ r, DS_Set.Remove 3 t key = some r) ∧
    (∀ (t : DS_Set) (n : Nat), SetWF t → n &&& (n - 1) = 0 → t.NumElems ≤ n →
      ∃ t2, DS_Set.Resize 4 t n = some t2) ∧
    (∀ (m : DS_Map) (key : Nat), MapWF m →
      ∃ r, DS_Map.Remove 3 m key = some r) ∧
    (∀ (m : DS_Map) (key : Nat), MapWF m → key ≠ 0 →
      ∃ r, DS_Map.Add 3 m key = some r) ∧
    (∀ (t : DS_Set) (key : Nat), t.NumSlots = 0 →
      t.Has key = false ∧ DS_Set.Remove 3 t key = some (t, false)) ∧
    (∀ (m : DS_Map) (key : Nat), m.NumSlots = 0 →
      DS_Map.FindPtr m key = none ∧ DS_Map.Remove 3 m key = some (m, false)) := by
  refine ⟨?_, ?_, ?_, ?_, ?_, ?_, ?_, ?_⟩
  · intro key
    simp [DS_Set.AddAssertPasses]
  · intro key
    simp [DS_Map.AddAssertPasses]
  · intro t key W
    obtain ⟨t2, removed, hrem, _⟩ := setRemove_correct 3 W (by omega)
    exact ⟨(t2, removed), hrem⟩
  · intro t n W hpow hle
    obtain ⟨t2, hres, _⟩ := setResize_correct 4 W (pow2_of_and_pred hpow) hle (le_refl 4)
    exact ⟨t2, hres⟩
  · intro m key W
    have W' : SetWF (mapKeys m) := W
    obtain ⟨s2, removed, hSrem, _⟩ := setRemove_correct 3 W' (by omega)
    have hproj := mapRemove_proj 3 m key
    rw [hSrem] at hproj
    rcases hM : DS_Map.Remove 3 m key with _ | r
    · rw [hM] at hproj
      exact absurd hproj (by simp)
    · exact ⟨r, rfl⟩
  · intro m key W hkey
    obtain ⟨m2, isNew, i, hAdd, _⟩ := mapAdd_slot 3 W hkey (le_refl 3)
    exact ⟨(m2, isNew, i), hAdd⟩
  · intro t key h0
    constructor
    · unfold DS_Set.Has
      rw [if_pos h0]
    · unfold DS_Set.Remove
      rw [if_pos h0]
  · intro m key h0
    constructor
    · unfold DS_Map.FindPtr
      rw [if_pos h0]
    · unfold DS_Map.Remove
      rw [if_pos h0]

/-- C10: `DS_String::operator!=` is not the negation of `operator==`:
both overloads of `!=` test `memcmp(...) == 0` (instead of `!= 0`), so for
two equal one-byte strings `==` and `!=` both return `true`. -/
theorem C10_ne_not_negation_of_eq :
    (DS_String.opEq [1] [1] = true ∧ DS_String.opNe [1] [1] = true ∧
      ¬ DS_String.opNe [1] [1] = (!DS_String.opEq [1] [1])) ∧
    (DS_String.opEqCStr [1] (some [1]) = true ∧
      DS_String.opNeCStr [1] (some [1]) = true ∧
      ¬ DS_String.opNeCStr [1] (some [1]) = (!DS_String.opEqCStr [1] (some [1]))) := by
  decide

/-! ### Stack allocator: step lemmas -/

theorem push_fits {s : DS_StackAllocator} {cur : Nat} (hb : s.Mark.Block = some cur)
    {size al : Nat}
    (hfit : ¬ ((size : Int) > ((s.headers cur).SizeIncludingHeader : Int) -
      ((DS_AlignUpPow2 s.Mark.Ptr al : Int) - (cur : Int)))) :
    s.PushUninitialized size al =
      ({ s with Mark := ⟨s.Mark.Block, DS_AlignUpPow2 s.Mark.Ptr al + size⟩ },
        DS_AlignUpPow2 s.Mark.Ptr al) := by
  unfold DS_StackAllocator.PushUninitialized
  simp only [hb]
  rw [if_neg hfit]

theorem push_reuse {s : DS_StackAllocator} {cur nb : Nat}
    (hb : s.Mark.Block = some cur) {size al : Nat}
    (hnofit : (size : Int) > ((s.headers cur).SizeIncludingHeader : Int) -
      ((DS_AlignUpPow2 s.Mark.Ptr al : Int) - (cur : Int)))
    (hnext : (s.headers cur).Next = some nb)
    (hroom : (size : Int) ≤ ((s.headers nb).SizeIncludingHeader : Int) -
      (DS_AlignUpPow2 DS_StackBlockHeaderSize al : Int)) :
    s.PushUninitialized size al =
      ({ s with Mark := ⟨some nb,
          nb + DS_AlignUpPow2 DS_StackBlockHeaderSize al + size⟩ },
        nb + DS_AlignUpPow2 DS_StackBlockHeaderSize al) := by
  unfold DS_StackAllocator.PushUninitialized
  simp only [hb, hnext]
  rw [if_pos hnofit, if_pos hroom]

theorem push_alloc_none {s : DS_StackAllocator} {cur : Nat}
    (hb : s.Mark.Block = some cur) {size al : Nat}
    (hnofit : (size : Int) > ((s.headers cur).SizeIncludingHeader : Int) -
      ((DS_AlignUpPow2 s.Mark.Ptr al : Int) - (cur : Int)))
    (hnext : (s.headers cur).Next = none) :
    s.PushUninitialized size al =
      ({ s with
          headers := fun a =>
            if a = cur then
              ⟨((fun a2 => if a2 = s.stream s.nalloc then
                  (⟨if s.BlockSize > DS_AlignUpPow2 DS_StackBlockHeaderSize al + size
                    then s.BlockSize
                    else DS_AlignUpPow2 DS_StackBlockHeaderSize al + size, true,
                    none⟩ : DS_StackBlockHeader)
                else s.headers a2) cur).SizeIncludingHeader,
                ((fun a2 => if a2 = s.stream s.nalloc then
                  (⟨if s.BlockSize > DS_AlignUpPow2 DS_StackBlockHeaderSize al + size
                    then s.BlockSize
                    else DS_AlignUpPow2 DS_StackBlockHeaderSize al + size, true,
                    none⟩ : DS_StackBlockHeader)
                else s.headers a2) cur).AllocatedFromBackingAllocator,
                some (s.stream s.nalloc)⟩
            else if a = s.stream s.nalloc then
              ⟨if s.BlockSize > DS_AlignUpPow2 DS_StackBlockHeaderSize al + size
                then s.BlockSize
                else DS_AlignUpPow2 DS_StackBlockHeaderSize al + size, true, none⟩
            else s.headers a,
          FirstBlock := s.FirstBlock,
          nalloc := s.nalloc + 1,
          allocLog := s.allocLog ++ [(s.stream s.nalloc,
            if s.BlockSize > DS_AlignUpPow2 DS_StackBlockHeaderSize al + size
            then s.BlockSize
            else DS_AlignUpPow2 DS_StackBlockHeaderSize al + size)],
          Mark := ⟨some (s.stream s.nalloc),
            s.stream s.nalloc + DS_AlignUpPow2 DS_StackBlockHeaderSize al + size⟩ },
        s.stream s.nalloc + DS_AlignUpPow2 DS_StackBlockHeaderSize al) := by
  unfold DS_StackAllocator.PushUninitialized
  simp only [hb, hnext]
  rw [if_pos hnofit]

theorem push_alloc_next {s : DS_StackAllocator} {cur nb : Nat}
    (hb : s.Mark.Block = some cur) {size al : Nat}
    (hnofit : (size : Int) > ((s.headers cur).SizeIncludingHeader : Int) -
      ((DS_AlignUpPow2 s.Mark.Ptr al : Int) - (cur : Int)))
    (hnext : (s.headers cur).Next = some nb)
    (hnoroom : ¬ ((size : Int) ≤ ((s.headers nb).SizeIncludingHeader : Int) -
      (DS_AlignUpPow2 DS_StackBlockHeaderSize al : Int))) :
    s.PushUninitialized size al =
      ({ s with
          headers := fun a =>
            if a = cur then
              ⟨((fun a2 => if a2 = s.stream s.nalloc then
                  (⟨if s.BlockSize > DS_AlignUpPow2 DS_StackBlockHeaderSize al + size
                    then s.BlockSize
                    else DS_AlignUpPow2 DS_StackBlockHeaderSize al + size, true,
                    some nb⟩ : DS_StackBlockHeader)
                else s.headers a2) cur).SizeIncludingHeader,
                ((fun a2 => if a2 = s.stream s.nalloc then
                  (⟨if s.BlockSize > DS_AlignUpPow2 DS_StackBlockHeaderSize al + size
                    then s.BlockSize
                    else DS_AlignUpPow2 DS_StackBlockHeaderSize al + size, true,
                    some nb⟩ : DS_StackBlockHeader)
                else s.headers a2) cur).AllocatedFromBackingAllocator,
                some (s.stream s.nalloc)⟩
            else if a = s.stream s.nalloc then
              ⟨if s.BlockSize > DS_AlignUpPow2 DS_StackBlockHeaderSize al + size
                then s.BlockSize
                else DS_AlignUpPow2 DS_StackBlockHeaderSize al + size, true, some nb⟩
            else s.headers a,
          FirstBlock := s.FirstBlock,
          nalloc := s.nalloc + 1,
          allocLog := s.allocLog ++ [(s.stream s.nalloc,
            if s.BlockSize > DS_AlignUpPow2 DS_StackBlockHeaderSize al + size
            then s.BlockSize
            else DS_AlignUpPow2 DS_StackBlockHeaderSize al + size)],
          Mark := ⟨some (s.stream s.nalloc),
            s.stream s.nalloc + DS_AlignUpPow2 DS_StackBlockHeaderSize al + size⟩ },
        s.stream s.nalloc + DS_AlignUpPow2 DS_StackBlockHeaderSize al) := by
  unfold DS_StackAllocator.PushUninitialized
  simp only [hb, hnext]
  rw [if_pos hnofit, if_neg hnoroom]

theorem push_none {s : DS_StackAllocator} (hb : s.Mark.Block = none)
    {size al : Nat} (hpos : 0 < size) :
    s.PushUninitialized size al =
      ({ s with
          headers := fun a =>
            if a = s.stream s.nalloc then
              ⟨if s.BlockSize > DS_AlignUpPow2 DS_StackBlockHeaderSize al + size
                then s.BlockSize
                else DS_AlignUpPow2 DS_StackBlockHeaderSize al + size, true, none⟩
            else s.headers a,
          FirstBlock := some (s.stream s.nalloc),
          nalloc := s.nalloc + 1,
          allocLog := s.allocLog ++ [(s.stream s.nalloc,
            if s.BlockSize > DS_AlignUpPow2 DS_StackBlockHeaderSize al + size
            then s.BlockSize
            else DS_AlignUpPow2 DS_StackBlockHeaderSize al + size)],
          Mark := ⟨some (s.stream s.nalloc),
            s.stream s.nalloc + DS_AlignUpPow2 DS_StackBlockHeaderSize al + size⟩ },
        s.stream s.nalloc + DS_AlignUpPow2 DS_StackBlockHeaderSize al) := by
  unfold DS_StackAllocator.PushUninitialized
  simp only [hb]
  rw [if_pos (show (size : Int) > 0 from by exact_mod_cast hpos)]

theorem push_preserves (s : DS_StackAllocator) (size al : Nat) :
    (s.PushUninitialized size al).1.BlockSize = s.BlockSize ∧
    (s.PushUninitialized size al).1.BlockAlignment = s.BlockAlignment ∧
    (s.PushUninitialized size al).1.stream = s.stream ∧
    (s.PushUninitialized size al).1.freeLog = s.freeLog ∧
    s.nalloc ≤ (s.PushUninitialized size al).1.nalloc := by
  unfold DS_StackAllocator.PushUninitialized
  rcases hmb : s.Mark.Block with _ | cur
  all_goals simp only [hmb]
  all_goals repeat' split
  all_goals simp

theorem alignUp_dvd (x p : Nat) (hp : 0 < p) : p ∣ DS_AlignUpPow2 x p := by
  unfold DS_AlignUpPow2
  have h := Nat.mod_add_div (x + p - 1) p
  exact ⟨(x + p - 1) / p, by omega⟩

theorem alignUp_ge (x p : Nat) (hp : 0 < p) : x ≤ DS_AlignUpPow2 x p := by
  unfold DS_AlignUpPow2
  have h1 : (x + p - 1) % p < p := Nat.mod_lt _ hp
  omega

theorem alignUp_add_multiple {p b : Nat} (hp : 0 < p) (hb : p ∣ b) (x : Nat) :
    DS_AlignUpPow2 (b + x) p = b + DS_AlignUpPow2 x p := by
  unfold DS_AlignUpPow2
  obtain ⟨c, rfl⟩ := hb
  have h1 : p * c + x + p - 1 = p * c + (x + p - 1) := by omega
  rw [h1, Nat.mul_add_mod]
  have h2 : (x + p - 1) % p ≤ x + p - 1 := Nat.mod_le _ _
  omega

theorem alignUp_mod (x p : Nat) (hp : 0 < p) : DS_AlignUpPow2 x p % p = 0 := by
  obtain ⟨c, hc⟩ := alignUp_dvd x p hp
  rw [hc]
  exact Nat.mul_mod_right _ _

theorem alignUp_self (x p : Nat) (hp : 0 < p) (hx : p ∣ x) :
    DS_AlignUpPow2 x p = x := by
  obtain ⟨c, rfl⟩ := hx
  unfold DS_AlignUpPow2
  have h1 : p * c + p - 1 = p * c + (p - 1) := by omega
  rw [h1, Nat.mul_add_mod]
  have h2 : (p - 1) % p = p - 1 := Nat.mod_eq_of_lt (by omega)
  omega

/-! ### Claim theorems: allocators -/

/-- C5 counterexample: the stack allocator function copies `old_size`
bytes, not the lesser of old and new size: shrinking a 2-byte allocation
to 1 byte still copies the second old byte (into the byte just past the
new allocation), and a `new_size == 0` request does not free anything. -/
theorem C5_counterexample_stack_copies_old_size :
    ((DS_StackAllocatorFunction
        (DS_StackAllocator.Init (fun n => 8192 * (n + 1)) (some 4096) 4096 16)
        (fun a => a) 9000 2 1 16).2.2 = 4112) ∧
    ((DS_StackAllocatorFunction
        (DS_StackAllocator.Init (fun n => 8192 * (n + 1)) (some 4096) 4096 16)
        (fun a => a) 9000 2 1 16).2.1 4113 = 9001) ∧
    ((DS_StackAllocatorFunction
        (DS_StackAllocator.Init (fun n => 8192 * (n + 1)) (some 4096) 4096 16)
        (fun a => a) 9000 2 0 16).1.freeLog = []) := by
  decide

/-- C5 (amended): `DS_HeapAllocatorProc` frees on `size == 0`, otherwise
reallocates (a fresh allocation for a NULL pointer), and the reallocated
contents agree with the old contents on the lesser of the live old size
and the new size, per the modelled CRT `_aligned_realloc` contract.  The
stack allocator function never frees; it always pushes and, when
`old_data` is non-NULL, copies exactly `old_size` bytes. -/
theorem C5_allocator_dispatch :
    (∀ (h : CRTHeap) (ptr old_size al : Nat),
      DS_HeapAllocatorProc h ptr old_size 0 al = (CRT_aligned_free h ptr, 0)) ∧
    (∀ (h : CRTHeap) (ptr old_size size al : Nat), size ≠ 0 →
      DS_HeapAllocatorProc h ptr old_size size al = CRT_aligned_realloc h ptr size al) ∧
    (∀ (h : CRTHeap) (ptr old_size size al : Nat), size ≠ 0 → ptr ≠ 0 →
      ∀ i, i < min ((h.sizes ptr).getD 0) size →
        (DS_HeapAllocatorProc h ptr old_size size al).1.mem
          ((DS_HeapAllocatorProc h ptr old_size size al).2 + i) = h.mem (ptr + i)) ∧
    (∀ (s : DS_StackAllocator) (mem : Nat → Nat) (old_data old_size size al : Nat),
      (DS_StackAllocatorFunction s mem old_data old_size size al).1 =
        (s.PushUninitialized size al).1 ∧
      (DS_StackAllocatorFunction s mem old_data old_size size al).2.2 =
        (s.PushUninitialized size al).2 ∧
      (DS_StackAllocatorFunction s mem old_data old_size size al).1.freeLog =
        s.freeLog ∧
      (old_data ≠ 0 → ∀ i, i < old_size →
        (DS_StackAllocatorFunction s mem old_data old_size size al).2.1
          ((DS_StackAllocatorFunction s mem old_data old_size size al).2.2 + i) =
          mem (old_data + i))) := by
  refine ⟨?_, ?_, ?_, ?_⟩
  · intro h ptr old_size al
    unfold DS_HeapAllocatorProc
    rw [if_pos rfl]
  · intro h ptr old_size size al hsz
    unfold DS_HeapAllocatorProc
    rw [if_neg hsz]
  · intro h ptr old_size size al hsz hptr i hi
    unfold DS_HeapAllocatorProc
    rw [if_neg hsz]
    unfold CRT_aligned_realloc
    simp only
    rw [if_pos hptr]
    rw [if_pos ⟨Nat.le_add_right _ _, by omega⟩]
    congr 1
    omega
  · intro s mem old_data old_size size al
    refine ⟨rfl, rfl, ?_, ?_⟩
    · exact (push_preserves s size al).2.2.2.1
    · intro hod i hi
      show (if old_data ≠ 0 then
          (fun a => if (s.PushUninitialized size al).2 ≤ a ∧
              a < (s.PushUninitialized size al).2 + old_size then
            mem (old_data + (a - (s.PushUninitialized size al).2)) else mem a)
        else mem) ((s.PushUninitialized size al).2 + i) = mem (old_data + i)
      rw [if_pos hod]
      show (if (s.PushUninitialized size al).2 ≤ (s.PushUninitialized size al).2 + i ∧
          (s.PushUninitialized size al).2 + i < (s.PushUninitialized size al).2 + old_size
        then mem (old_data + ((s.PushUninitialized size al).2 + i -
          (s.PushUninitialized size al).2)) else mem ((s.PushUninitialized size al).2 + i)) =
        mem (old_data + i)
      rw [if_pos ⟨Nat.le_add_right _ _, by omega⟩]
      congr 1
      omega

theorem chainFrom_next_mem {s : DS_StackAllocator} {o : Option Nat} {l : List Nat}
    (h : ChainFrom s o l) :
    ∀ b ∈ l, ∀ nb, (s.headers b).Next = some nb → nb ∈ l := by
  induction h with
  | nil =>
    intro b hb
    exact absurd hb (by simp)
  | cons b rest hrest ih =>
    intro b2 hb2 nb hnb
    rcases List.mem_cons.1 hb2 with heq | hmem
    · subst heq
      rw [hnb] at hrest
      cases hrest with
      | cons _ rest2 h2 => exact List.mem_cons_of_mem _ (List.mem_cons_self _ _)
    · exact List.mem_cons_of_mem _ (ih b2 hmem nb hnb)

/-- C8 counterexample: with block size 64 and alignment 32, pushing 40
bytes allocates a block of `align_up(header, alignment) + size = 72`
bytes, not the claimed `max(block_size, header + size) = 64`. -/
theorem C8_counterexample_block_size :
    ((DS_StackAllocator.Init (fun n => 8192 * (n + 1)) none 64 32).PushUninitialized
        40 32).1.allocLog = [(8192, 72)] ∧
    72 ≠ max 64 (DS_StackBlockHeaderSize + 40) := by
  decide

/-- C8 (amended): when the current block lacks space, `PushUninitialized`
first reuses the already-linked next block if it has room; otherwise it
allocates a block of exactly
`max(block_size, align_up(header size, alignment) + size)` bytes and links
it after the current block (or as the first block); the returned pointer
is always aligned to the requested alignment. -/
theorem C8_push_block_acquisition {s : DS_StackAllocator} {bs : List Nat}
    (W : ArenaWF s bs) {size al : Nat} (hpow : ∃ j, al = 2 ^ j)
    (halle : al ≤ s.BlockAlignment) :
    (∀ cur nb, s.Mark.Block = some cur →
      ((size : Int) > ((s.headers cur).SizeIncludingHeader : Int) -
        ((DS_AlignUpPow2 s.Mark.Ptr al : Int) - (cur : Int))) →
      (s.headers cur).Next = some nb →
      ((size : Int) ≤ ((s.headers nb).SizeIncludingHeader : Int) -
        (DS_AlignUpPow2 DS_StackBlockHeaderSize al : Int)) →
      s.PushUninitialized size al =
        ({ s with Mark := ⟨some nb,
            nb + DS_AlignUpPow2 DS_StackBlockHeaderSize al + size⟩ },
          nb + DS_AlignUpPow2 DS_StackBlockHeaderSize al)) ∧
    (∀ cur, s.Mark.Block = some cur →
      ((size : Int) > ((s.headers cur).SizeIncludingHeader : Int) -
        ((DS_AlignUpPow2 s.Mark.Ptr al : Int) - (cur : Int))) →
      ((s.headers cur).Next = none ∨
        ∃ nb, (s.headers cur).Next = some nb ∧
          ¬ ((size : Int) ≤ ((s.headers nb).SizeIncludingHeader : Int) -
            (DS_AlignUpPow2 DS_StackBlockHeaderSize al : Int))) →
      (s.PushUninitialized size al).1.allocLog =
        s.allocLog ++ [(s.stream s.nalloc,
          if s.BlockSize > DS_AlignUpPow2 DS_StackBlockHeaderSize al + size
          then s.BlockSize
          else DS_AlignUpPow2 DS_StackBlockHeaderSize al + size)] ∧
      ((s.PushUninitialized size al).1.headers cur).Next =
        some (s.stream s.nalloc)) ∧
    (s.Mark.Block = none → 0 < size →
      (s.PushUninitialized size al).1.allocLog =
        s.allocLog ++ [(s.stream s.nalloc,
          if s.BlockSize > DS_AlignUpPow2 DS_StackBlockHeaderSize al + size
          then s.BlockSize
          else DS_AlignUpPow2 DS_StackBlockHeaderSize al + size)] ∧
      (s.PushUninitialized size al).1.FirstBlock = some (s.stream s.nalloc)) ∧
    ((s.PushUninitialized size al).2 % al = 0) := by
  have hal0 : 0 < al := by
    obtain ⟨j, rfl⟩ := hpow
    positivity
  have hdvd_ba : al ∣ s.BlockAlignment := by
    obtain ⟨j, hj⟩ := hpow
    obtain ⟨K, hK⟩ := W.align_pow2
    rw [hj, hK]
    rw [hj, hK] at halle
    exact pow_dvd_pow 2 ((Nat.pow_le_pow_iff_right (by omega)).1 halle)
  have hba_dvd_block : ∀ b, b % s.BlockAlignment = 0 → al ∣ b := by
    intro b hb
    exact dvd_trans hdvd_ba (Nat.dvd_of_mod_eq_zero hb)
  have hsum_mod : ∀ b, al ∣ b →
      (b + DS_AlignUpPow2 DS_StackBlockHeaderSize al) % al = 0 := by
    intro b hb
    obtain ⟨c1, h1⟩ := hb
    obtain ⟨c2, h2⟩ := alignUp_dvd DS_StackBlockHeaderSize al hal0
    rw [h1, h2, ← Nat.mul_add]
    exact Nat.mul_mod_right _ _
  refine ⟨?_, ?_, ?_, ?_⟩
  · intro cur nb hb hnofit hnext hroom
    exact push_reuse hb hnofit hnext hroom
  · intro cur hb hnofit hdisc
    rcases hdisc with hnext | ⟨nb, hnext, hnoroom⟩
    · rw [push_alloc_none hb hnofit hnext]
      refine ⟨rfl, ?_⟩
      show (if cur = cur then _ else _ : DS_StackBlockHeader).Next =
        some (s.stream s.nalloc)
      rw [if_pos rfl]
    · rw [push_alloc_next hb hnofit hnext hnoroom]
      refine ⟨rfl, ?_⟩
      show (if cur = cur then _ else _ : DS_StackBlockHeader).Next =
        some (s.stream s.nalloc)
      rw [if_pos rfl]
  · intro hb hpos
    rw [push_none hb hpos]
    exact ⟨rfl, rfl⟩
  · rcases hmb : s.Mark.Block with _ | cur
    · by_cases hpos : 0 < size
      · rw [push_none hmb hpos]
        exact hsum_mod _ (hba_dvd_block _ (W.stream_aligned s.nalloc))
      · have hz : size = 0 := by omega
        subst hz
        have hfits : s.PushUninitialized 0 al =
            ({ s with Mark := ⟨s.Mark.Block, DS_AlignUpPow2 s.Mark.Ptr al + 0⟩ },
              DS_AlignUpPow2 s.Mark.Ptr al) := by
          unfold DS_StackAllocator.PushUninitialized
          simp only [hmb]
          rw [if_neg (by decide)]
        rw [hfits]
        exact alignUp_mod _ _ hal0
    · by_cases hfit : (size : Int) > ((s.headers cur).SizeIncludingHeader : Int) -
        ((DS_AlignUpPow2 s.Mark.Ptr al : Int) - (cur : Int))
      · rcases hnext : (s.headers cur).Next with _ | nb
        · rw [push_alloc_none hmb hfit hnext]
          exact hsum_mod _ (hba_dvd_block _ (W.stream_aligned s.nalloc))
        · by_cases hroom : (size : Int) ≤ ((s.headers nb).SizeIncludingHeader : Int) -
            (DS_AlignUpPow2 DS_StackBlockHeaderSize al : Int)
          · rw [push_reuse hmb hfit hnext hroom]
            have hcur_mem : cur ∈ bs := W.mark_mem cur hmb
            have hnb_mem : nb ∈ bs := chainFrom_next_mem W.chain cur hcur_mem nb hnext
            exact hsum_mod _ (hba_dvd_block _ (W.blocks_aligned nb hnb_mem))
          · rw [push_alloc_next hmb hfit hnext hroom]
            exact hsum_mod _ (hba_dvd_block _ (W.stream_aligned s.nalloc))
      · rw [push_fits hmb hfit]
        exact alignUp_mod _ _ hal0

theorem arenaWF_init_some (stream : Nat → Nat) (b bsz ba : Nat)
    (hinj : ∀ n m, stream n = stream m → n = m)
    (hfresh : ∀ n, stream n ≠ b)
    (hal2 : ∀ n, stream n % ba = 0)
    (hb : b % ba = 0)
    (hk : ∃ k, ba = 2 ^ k) :
    ArenaWF (DS_StackAllocator.Init stream (some b) bsz ba) [b] := by
  refine ⟨?_, List.nodup_singleton b, ?_, ?_, ?_, ?_, hal2, ?_, ?_, hk⟩
  · refine ChainFrom.cons b [] ?_
    show ChainFrom _ ((if b = b then (⟨bsz, false, none⟩ : DS_StackBlockHeader)
      else ⟨0, false, none⟩).Next) []
    rw [if_pos rfl]
    exact ChainFrom.nil
  · intro b2 hb2
    have h2 : some b = some b2 := hb2
    rw [List.mem_singleton]
    exact (Option.some.inj h2).symm
  · intro h
    exact absurd (h : some b = none) (Option.some_ne_none b)
  · intro n _
    rw [List.mem_singleton]
    exact hfresh n
  · intro n m _ _ h
    exact hinj n m h
  · intro b2 hb2
    rw [List.mem_singleton] at hb2
    rw [hb2]
    exact hb
  · intro b2 hb2
    rw [List.mem_singleton] at hb2
    rw [hb2]
    show bsz ≤ (if b = b then (⟨bsz, false, none⟩ : DS_StackBlockHeader)
      else ⟨0, false, none⟩).SizeIncludingHeader
    rw [if_pos rfl]

theorem C8_push_block_acquisition_witness :
    ((DS_StackAllocator.Init (fun n => 8192 * (n + 1)) (some 4096) 4096
        16).PushUninitialized 8 8).2 % 8 = 0 :=
  (C8_push_block_acquisition
    (arenaWF_init_some (fun n => 8192 * (n + 1)) 4096 4096 16
      (fun n m h => by
        have h2 : 8192 * (n + 1) = 8192 * (m + 1) := h
        omega)
      (fun n => by
        show 8192 * (n + 1) ≠ 4096
        omega)
      (fun n => by
        show 8192 * (n + 1) % 16 = 0
        omega)
      (by decide) ⟨4, by decide⟩)
    ⟨3, by decide⟩ (by decide)).2.2.2

theorem chainFrom_congr {s s2 : DS_StackAllocator} {o : Option Nat} {l : List Nat}
    (h : ChainFrom s o l) (hh : ∀ b ∈ l, s2.headers b = s.headers b) :
    ChainFrom s2 o l := by
  induction h with
  | nil => exact ChainFrom.nil
  | cons b rest hrest ih =>
    refine ChainFrom.cons b rest ?_
    rw [hh b (List.mem_cons_self _ _)]
    exact ih (fun b2 hb2 => hh b2 (List.mem_cons_of_mem _ hb2))

theorem push_replay_fits {u s1 : DS_StackAllocator} {cur size al : Nat}
    (hb : u.Mark.Block = some cur)
    (hfit : ¬ ((size : Int) > ((u.headers cur).SizeIncludingHeader : Int) -
      ((DS_AlignUpPow2 u.Mark.Ptr al : Int) - (cur : Int))))
    (hsize_cur : (s1.headers cur).SizeIncludingHeader =
      (u.headers cur).SizeIncludingHeader) :
    ({s1 with Mark := u.Mark} : DS_StackAllocator).PushUninitialized size al =
      ({s1 with Mark := ⟨u.Mark.Block, DS_AlignUpPow2 u.Mark.Ptr al + size⟩},
        DS_AlignUpPow2 u.Mark.Ptr al) := by
  have hbv : ({s1 with Mark := u.Mark} : DS_StackAllocator).Mark.Block = some cur := hb
  have hfv : ¬ ((size : Int) >
      ((({s1 with Mark := u.Mark} : DS_StackAllocator).headers
        cur).SizeIncludingHeader : Int) -
      ((DS_AlignUpPow2 ({s1 with Mark := u.Mark} :
        DS_StackAllocator).Mark.Ptr al : Int) - (cur : Int))) := by
    show ¬ ((size : Int) > ((s1.headers cur).SizeIncludingHeader : Int) -
      ((DS_AlignUpPow2 u.Mark.Ptr al : Int) - (cur : Int)))
    rw [hsize_cur]
    exact hfit
  exact push_fits hbv hfv

theorem push_replay_switch {u s1 : DS_StackAllocator} {cur tb size al : Nat}
    (hb : u.Mark.Block = some cur)
    (hfit : (size : Int) > ((u.headers cur).SizeIncludingHeader : Int) -
      ((DS_AlignUpPow2 u.Mark.Ptr al : Int) - (cur : Int)))
    (hsize_cur : (s1.headers cur).SizeIncludingHeader =
      (u.headers cur).SizeIncludingHeader)
    (hnext : (s1.headers cur).Next = some tb)
    (hroom : (size : Int) ≤ ((s1.headers tb).SizeIncludingHeader : Int) -
      (DS_AlignUpPow2 DS_StackBlockHeaderSize al : Int)) :
    ({s1 with Mark := u.Mark} : DS_StackAllocator).PushUninitialized size al =
      ({s1 with Mark := ⟨some tb,
          tb + DS_AlignUpPow2 DS_StackBlockHeaderSize al + size⟩},
        tb + DS_AlignUpPow2 DS_StackBlockHeaderSize al) := by
  have hbv : ({s1 with Mark := u.Mark} : DS_StackAllocator).Mark.Block = some cur := hb
  have hfv : (size : Int) >
      ((({s1 with Mark := u.Mark} : DS_StackAllocator).headers
        cur).SizeIncludingHeader : Int) -
      ((DS_AlignUpPow2 ({s1 with Mark := u.Mark} :
        DS_StackAllocator).Mark.Ptr al : Int) - (cur : Int)) := by
    show (size : Int) > ((s1.headers cur).SizeIncludingHeader : Int) -
      ((DS_AlignUpPow2 u.Mark.Ptr al : Int) - (cur : Int))
    rw [hsize_cur]
    exact hfit
  have hnv : (({s1 with Mark := u.Mark} : DS_StackAllocator).headers cur).Next =
      some tb := hnext
  have hrv : (size : Int) ≤
      ((({s1 with Mark := u.Mark} : DS_StackAllocator).headers
        tb).SizeIncludingHeader : Int) -
      (DS_AlignUpPow2 DS_StackBlockHeaderSize al : Int) := hroom
  exact push_reuse hbv hfv hnv hrv

theorem pushMany_replay_aux :
    ∀ (ops : List (Nat × Nat)) (u : DS_StackAllocator) (cur : Nat) (tail : List Nat),
      (∀ n m, u.nalloc ≤ n → u.nalloc ≤ m → u.stream n = u.stream m → n = m) →
      u.Mark.Block = some cur →
      ChainFrom u (some cur) (cur :: tail) →
      (cur :: tail).Nodup →
      (∀ n, u.nalloc ≤ n → u.stream n ∉ cur :: tail) →
      pushMany ({ (pushMany u ops).1 with Mark := u.Mark }) ops = pushMany u ops ∧
      (pushMany u ops).1.stream = u.stream ∧
      u.nalloc ≤ (pushMany u ops).1.nalloc ∧
      (∃ cur1 tail1, (pushMany u ops).1.Mark.Block = some cur1 ∧
        ChainFrom (pushMany u ops).1 (some cur1) (cur1 :: tail1) ∧
        (cur1 :: tail1).Nodup ∧
        (∀ n, (pushMany u ops).1.nalloc ≤ n →
          (pushMany u ops).1.stream n ∉ cur1 :: tail1)) ∧
      (∀ a, a ∉ cur :: tail → (∀ n, u.nalloc ≤ n → a ≠ u.stream n) →
        (pushMany u ops).1.headers a = u.headers a) ∧
      (∀ a, (∀ n, u.nalloc ≤ n → a ≠ u.stream n) →
        ((pushMany u ops).1.headers a).SizeIncludingHeader =
          (u.headers a).SizeIncludingHeader) := by
  intro ops
  induction ops with
  | nil =>
    intro u cur tail hinj hb hchain hnodup hfresh
    exact ⟨rfl, rfl, le_refl _, ⟨cur, tail, hb, hchain, hnodup, hfresh⟩,
      fun a _ _ => rfl, fun a _ => rfl⟩
  | cons hd rest ih =>
    obtain ⟨size, al⟩ := hd
    intro u cur tail hinj hb hchain hnodup hfresh
    have hcurfut : ∀ n, u.nalloc ≤ n → cur ≠ u.stream n := fun n hn hc =>
      hfresh n hn (by rw [← hc]; exact List.mem_cons_self _ _)
    have hrest : ChainFrom u ((u.headers cur).Next) tail := by
      cases hchain with
      | cons _ _ h => exact h
    by_cases hfit : (size : Int) > ((u.headers cur).SizeIncludingHeader : Int) -
        ((DS_AlignUpPow2 u.Mark.Ptr al : Int) - (cur : Int))
    · -- current block does not fit the request
      rcases hnext : (u.headers cur).Next with _ | nb
      · -- no next block: a new block is allocated and linked after `cur`
        have hstep := push_alloc_none hb hfit hnext
        have hbU : (u.PushUninitialized size al).1.Mark.Block =
            some (u.stream u.nalloc) := by rw [hstep]
        have hnalU : (u.PushUninitialized size al).1.nalloc = u.nalloc + 1 := by
          rw [hstep]
        have hstrU : (u.PushUninitialized size al).1.stream = u.stream := by
          rw [hstep]
        have hM : (u.PushUninitialized size al).1.Mark =
            ⟨some (u.stream u.nalloc),
              u.stream u.nalloc + DS_AlignUpPow2 DS_StackBlockHeaderSize al + size⟩ := by
          rw [hstep]
        have hr2 : (u.PushUninitialized size al).2 =
            u.stream u.nalloc + DS_AlignUpPow2 DS_StackBlockHeaderSize al := by
          rw [hstep]
        have hca : ¬ cur = u.stream u.nalloc := hcurfut u.nalloc le_rfl
        have hac : ¬ u.stream u.nalloc = cur := fun hc => hca hc.symm
        have hUcur : (u.PushUninitialized size al).1.headers cur =
            ⟨(u.headers cur).SizeIncludingHeader,
              (u.headers cur).AllocatedFromBackingAllocator,
              some (u.stream u.nalloc)⟩ := by
          rw [hstep]
          simp only [if_pos (Eq.refl cur), if_neg hca, eq_self_iff_true, if_true]
        have hUaddr : (u.PushUninitialized size al).1.headers (u.stream u.nalloc) =
            ⟨if u.BlockSize > DS_AlignUpPow2 DS_StackBlockHeaderSize al + size
              then u.BlockSize
              else DS_AlignUpPow2 DS_StackBlockHeaderSize al + size, true, none⟩ := by
          rw [hstep]
          simp only [if_neg hac, if_pos (Eq.refl (u.stream u.nalloc)), eq_self_iff_true, if_true]
        have hUother : ∀ a, ¬ a = cur → ¬ a = u.stream u.nalloc →
            (u.PushUninitialized size al).1.headers a = u.headers a := by
          intro a h1 h2
          rw [hstep]
          simp only [if_neg h1, if_neg h2]
        have hinjU : ∀ n m, (u.PushUninitialized size al).1.nalloc ≤ n →
            (u.PushUninitialized size al).1.nalloc ≤ m →
            (u.PushUninitialized size al).1.stream n =
              (u.PushUninitialized size al).1.stream m → n = m := by
          intro n m hn hm heq
          rw [hnalU] at hn hm
          rw [hstrU] at heq
          exact hinj n m (by omega) (by omega) heq
        have h0 : ((u.PushUninitialized size al).1.headers
            (u.stream u.nalloc)).Next = none := by rw [hUaddr]
        have hchainU : ChainFrom (u.PushUninitialized size al).1
            (some (u.stream u.nalloc)) [u.stream u.nalloc] := by
          refine ChainFrom.cons _ _ ?_
          rw [h0]
          exact ChainFrom.nil
        have hnodupU : ([u.stream u.nalloc] : List Nat).Nodup :=
          List.nodup_singleton _
        have hfreshU : ∀ n, (u.PushUninitialized size al).1.nalloc ≤ n →
            (u.PushUninitialized size al).1.stream n ∉ [u.stream u.nalloc] := by
          intro n hn
          rw [hstrU]
          rw [hnalU] at hn
          simp only [List.mem_singleton]
          intro hc
          have := hinj n u.nalloc (by omega) le_rfl hc
          omega
        obtain ⟨hrep, hstr, hnal, hfin, hpers, hsz⟩ :=
          ih (u.PushUninitialized size al).1 (u.stream u.nalloc) []
            hinjU hbU hchainU hnodupU hfreshU
        set s1 := (pushMany (u.PushUninitialized size al).1 rest).1 with hs1
        have hfutUc : ∀ n, (u.PushUninitialized size al).1.nalloc ≤ n →
            cur ≠ (u.PushUninitialized size al).1.stream n := by
          intro n hn
          rw [hstrU]
          rw [hnalU] at hn
          exact hcurfut n (by omega)
        have hcur_notin1 : cur ∉ [u.stream u.nalloc] := by
          simp only [List.mem_singleton]
          exact hca
        have hfull : s1.headers cur =
            ⟨(u.headers cur).SizeIncludingHeader,
              (u.headers cur).AllocatedFromBackingAllocator,
              some (u.stream u.nalloc)⟩ :=
          (hpers cur hcur_notin1 hfutUc).trans hUcur
        have hsize_cur : (s1.headers cur).SizeIncludingHeader =
            (u.headers cur).SizeIncludingHeader := by rw [hfull]
        have hnext_s1 : (s1.headers cur).Next = some (u.stream u.nalloc) := by
          rw [hfull]
        have hfutUaddr : ∀ n, (u.PushUninitialized size al).1.nalloc ≤ n →
            u.stream u.nalloc ≠ (u.PushUninitialized size al).1.stream n := by
          intro n hn
          rw [hstrU]
          rw [hnalU] at hn
          intro hc
          have := hinj u.nalloc n le_rfl (by omega) hc
          omega
        have hszaddr : (s1.headers (u.stream u.nalloc)).SizeIncludingHeader =
            (if u.BlockSize > DS_AlignUpPow2 DS_StackBlockHeaderSize al + size
              then u.BlockSize
              else DS_AlignUpPow2 DS_StackBlockHeaderSize al + size) := by
          rw [hsz (u.stream u.nalloc) hfutUaddr, hUaddr]
        have hroom_s1 : (size : Int) ≤
            ((s1.headers (u.stream u.nalloc)).SizeIncludingHeader : Int) -
            (DS_AlignUpPow2 DS_StackBlockHeaderSize al : Int) := by
          rw [hszaddr]
          by_cases hbs : u.BlockSize > DS_AlignUpPow2 DS_StackBlockHeaderSize al + size
          · rw [if_pos hbs]
            omega
          · rw [if_neg hbs]
            omega
        have hstepv := push_replay_switch hb hfit hsize_cur hnext_s1 hroom_s1
        have hstepv2 : ({ s1 with Mark := u.Mark } :
              DS_StackAllocator).PushUninitialized size al =
            ({ s1 with Mark := (u.PushUninitialized size al).1.Mark },
              (u.PushUninitialized size al).2) := by
          rw [hM, hr2]
          exact hstepv
        refine ⟨?_, ?_, ?_, ?_, ?_, ?_⟩
        · show ((pushMany (({ s1 with Mark := u.Mark } :
                DS_StackAllocator).PushUninitialized size al).1 rest).1,
              (({ s1 with Mark := u.Mark } :
                DS_StackAllocator).PushUninitialized size al).2 ::
              (pushMany (({ s1 with Mark := u.Mark } :
                DS_StackAllocator).PushUninitialized size al).1 rest).2) =
            ((pushMany (u.PushUninitialized size al).1 rest).1,
              (u.PushUninitialized size al).2 ::
              (pushMany (u.PushUninitialized size al).1 rest).2)
          simp only [hstepv2]
          rw [hrep]
        · exact hstr.trans hstrU
        · exact le_trans (Nat.le_succ u.nalloc)
            (show u.nalloc + 1 ≤ s1.nalloc from by rw [← hnalU]; exact hnal)
        · exact hfin
        · intro a ha hfut
          have h2 : ¬ a = u.stream u.nalloc := fun hc => hfut u.nalloc le_rfl hc
          have h1 : ¬ a = cur := fun hc =>
            ha (by rw [hc]; exact List.mem_cons_self _ _)
          have ha1 : a ∉ [u.stream u.nalloc] := by
            simp only [List.mem_singleton]
            exact h2
          have hfutUa : ∀ n, (u.PushUninitialized size al).1.nalloc ≤ n →
              a ≠ (u.PushUninitialized size al).1.stream n := by
            intro n hn
            rw [hstrU]
            rw [hnalU] at hn
            exact hfut n (by omega)
          exact (hpers a ha1 hfutUa).trans (hUother a h1 h2)
        · intro a hfut
          have h2 : ¬ a = u.stream u.nalloc := fun hc => hfut u.nalloc le_rfl hc
          have hfutUa : ∀ n, (u.PushUninitialized size al).1.nalloc ≤ n →
              a ≠ (u.PushUninitialized size al).1.stream n := by
            intro n hn
            rw [hstrU]
            rw [hnalU] at hn
            exact hfut n (by omega)
          by_cases h1 : a = cur
          · subst h1
            exact (hsz a hfutUa).trans (by rw [hUcur])
          · exact (hsz a hfutUa).trans (by rw [hUother a h1 h2])
      · -- there is a linked next block
        rw [hnext] at hrest
        cases hrest with
        | cons _ tail2 hrest3 =>
        have hcur_notin : cur ∉ nb :: tail2 := (List.nodup_cons.1 hnodup).1
        have haddr_notmem2 : u.stream u.nalloc ∉ nb :: tail2 := fun hmem =>
          hfresh u.nalloc le_rfl (List.mem_cons_of_mem _ hmem)
        by_cases hroom : (size : Int) ≤ ((u.headers nb).SizeIncludingHeader : Int) -
            (DS_AlignUpPow2 DS_StackBlockHeaderSize al : Int)
        · -- the next block is reused
          have hstep := push_reuse hb hfit hnext hroom
          have hbU : (u.PushUninitialized size al).1.Mark.Block = some nb := by
            rw [hstep]
          have hnalU : (u.PushUninitialized size al).1.nalloc = u.nalloc := by
            rw [hstep]
          have hstrU : (u.PushUninitialized size al).1.stream = u.stream := by
            rw [hstep]
          have hM : (u.PushUninitialized size al).1.Mark =
              ⟨some nb, nb + DS_AlignUpPow2 DS_StackBlockHeaderSize al + size⟩ := by
            rw [hstep]
          have hr2 : (u.PushUninitialized size al).2 =
              nb + DS_AlignUpPow2 DS_StackBlockHeaderSize al := by
            rw [hstep]
          have hhdU : ∀ a, (u.PushUninitialized size al).1.headers a =
              u.headers a := by
            intro a
            rw [hstep]
          have hinjU : ∀ n m, (u.PushUninitialized size al).1.nalloc ≤ n →
              (u.PushUninitialized size al).1.nalloc ≤ m →
              (u.PushUninitialized size al).1.stream n =
                (u.PushUninitialized size al).1.stream m → n = m := by
            intro n m hn hm heq
            rw [hnalU] at hn hm
            rw [hstrU] at heq
            exact hinj n m hn hm heq
          have hchainU : ChainFrom (u.PushUninitialized size al).1 (some nb)
              (nb :: tail2) :=
            chainFrom_congr (ChainFrom.cons nb tail2 hrest3) (fun b _ => hhdU b)
          have hnodupU : (nb :: tail2).Nodup := (List.nodup_cons.1 hnodup).2
          have hfreshU : ∀ n, (u.PushUninitialized size al).1.nalloc ≤ n →
              (u.PushUninitialized size al).1.stream n ∉ nb :: tail2 := by
            intro n hn
            rw [hstrU]
            rw [hnalU] at hn
            exact fun hmem => hfresh n hn (List.mem_cons_of_mem _ hmem)
          obtain ⟨hrep, hstr, hnal, hfin, hpers, hsz⟩ :=
            ih (u.PushUninitialized size al).1 nb tail2
              hinjU hbU hchainU hnodupU hfreshU
          set s1 := (pushMany (u.PushUninitialized size al).1 rest).1 with hs1
          have hfutUc : ∀ n, (u.PushUninitialized size al).1.nalloc ≤ n →
              cur ≠ (u.PushUninitialized size al).1.stream n := by
            intro n hn
            rw [hstrU]
            rw [hnalU] at hn
            exact hcurfut n hn
          have hfull : s1.headers cur = u.headers cur :=
            (hpers cur hcur_notin hfutUc).trans (hhdU cur)
          have hsize_cur : (s1.headers cur).SizeIncludingHeader =
              (u.headers cur).SizeIncludingHeader := by rw [hfull]
          have hnext_s1 : (s1.headers cur).Next = some nb := by
            rw [hfull]
            exact hnext
          have hfutUnb : ∀ n, (u.PushUninitialized size al).1.nalloc ≤ n →
              nb ≠ (u.PushUninitialized size al).1.stream n := by
            intro n hn
            rw [hstrU]
            rw [hnalU] at hn
            intro hc
            refine hfresh n hn ?_
            rw [← hc]
            exact List.mem_cons_of_mem _ (List.mem_cons_self _ _)
          have hsznb : (s1.headers nb).SizeIncludingHeader =
              (u.headers nb).SizeIncludingHeader := by
            rw [hsz nb hfutUnb, hhdU nb]
          have hroom_s1 : (size : Int) ≤
              ((s1.headers nb).SizeIncludingHeader : Int) -
              (DS_AlignUpPow2 DS_StackBlockHeaderSize al : Int) := by
            rw [hsznb]
            exact hroom
          have hstepv := push_replay_switch hb hfit hsize_cur hnext_s1 hroom_s1
          have hstepv2 : ({ s1 with Mark := u.Mark } :
                DS_StackAllocator).PushUninitialized size al =
              ({ s1 with Mark := (u.PushUninitialized size al).1.Mark },
                (u.PushUninitialized size al).2) := by
            rw [hM, hr2]
            exact hstepv
          refine ⟨?_, ?_, ?_, ?_, ?_, ?_⟩
          · show ((pushMany (({ s1 with Mark := u.Mark } :
                  DS_StackAllocator).PushUninitialized size al).1 rest).1,
                (({ s1 with Mark := u.Mark } :
                  DS_StackAllocator).PushUninitialized size al).2 ::
                (pushMany (({ s1 with Mark := u.Mark } :
                  DS_StackAllocator).PushUninitialized size al).1 rest).2) =
              ((pushMany (u.PushUninitialized size al).1 rest).1,
                (u.PushUninitialized size al).2 ::
                (pushMany (u.PushUninitialized size al).1 rest).2)
            simp only [hstepv2]
            rw [hrep]
          · exact hstr.trans hstrU
          · exact le_trans (le_of_eq hnalU.symm) hnal
          · exact hfin
          · intro a ha hfut
            have hfutUa : ∀ n, (u.PushUninitialized size al).1.nalloc ≤ n →
                a ≠ (u.PushUninitialized size al).1.stream n := by
              intro n hn
              rw [hstrU]
              rw [hnalU] at hn
              exact hfut n hn
            exact (hpers a (fun hmem => ha (List.mem_cons_of_mem _ hmem))
              hfutUa).trans (hhdU a)
          · intro a hfut
            have hfutUa : ∀ n, (u.PushUninitialized size al).1.nalloc ≤ n →
                a ≠ (u.PushUninitialized size al).1.stream n := by
              intro n hn
              rw [hstrU]
              rw [hnalU] at hn
              exact hfut n hn
            exact (hsz a hfutUa).trans (by rw [hhdU a])
        · -- the next block is too small: a new block is allocated and linked
          have hstep := push_alloc_next hb hfit hnext hroom
          have hbU : (u.PushUninitialized size al).1.Mark.Block =
              some (u.stream u.nalloc) := by rw [hstep]
          have hnalU : (u.PushUninitialized size al).1.nalloc = u.nalloc + 1 := by
            rw [hstep]
          have hstrU : (u.PushUninitialized size al).1.stream = u.stream := by
            rw [hstep]
          have hM : (u.PushUninitialized size al).1.Mark =
              ⟨some (u.stream u.nalloc),
                u.stream u.nalloc + DS_AlignUpPow2 DS_StackBlockHeaderSize al + size⟩ := by
            rw [hstep]
          have hr2 : (u.PushUninitialized size al).2 =
              u.stream u.nalloc + DS_AlignUpPow2 DS_StackBlockHeaderSize al := by
            rw [hstep]
          have hca : ¬ cur = u.stream u.nalloc := hcurfut u.nalloc le_rfl
          have hac : ¬ u.stream u.nalloc = cur := fun hc => hca hc.symm
          have hUcur : (u.PushUninitialized size al).1.headers cur =
              ⟨(u.headers cur).SizeIncludingHeader,
                (u.headers cur).AllocatedFromBackingAllocator,
                some (u.stream u.nalloc)⟩ := by
            rw [hstep]
            simp only [if_pos (Eq.refl cur), if_neg hca, eq_self_iff_true, if_true]
          have hUaddr : (u.PushUninitialized size al).1.headers (u.stream u.nalloc) =
              ⟨if u.BlockSize > DS_AlignUpPow2 DS_StackBlockHeaderSize al + size
                then u.BlockSize
                else DS_AlignUpPow2 DS_StackBlockHeaderSize al + size, true,
                some nb⟩ := by
            rw [hstep]
            simp only [if_neg hac, if_pos (Eq.refl (u.stream u.nalloc)), eq_self_iff_true, if_true]
          have hUother : ∀ a, ¬ a = cur → ¬ a = u.stream u.nalloc →
              (u.PushUninitialized size al).1.headers a = u.headers a := by
            intro a h1 h2
            rw [hstep]
            simp only [if_neg h1, if_neg h2]
          have hinjU : ∀ n m, (u.PushUninitialized size al).1.nalloc ≤ n →
              (u.PushUninitialized size al).1.nalloc ≤ m →
              (u.PushUninitialized size al).1.stream n =
                (u.PushUninitialized size al).1.stream m → n = m := by
            intro n m hn hm heq
            rw [hnalU] at hn hm
            rw [hstrU] at heq
            exact hinj n m (by omega) (by omega) heq
          have hchainnb : ChainFrom (u.PushUninitialized size al).1 (some nb)
              (nb :: tail2) := by
            refine chainFrom_congr (ChainFrom.cons nb tail2 hrest3) ?_
            intro b hbmem
            refine hUother b ?_ ?_
            · intro hc
              rw [hc] at hbmem
              exact hcur_notin hbmem
            · intro hc
              rw [hc] at hbmem
              exact haddr_notmem2 hbmem
          have h0 : ((u.PushUninitialized size al).1.headers
              (u.stream u.nalloc)).Next = some nb := by rw [hUaddr]
          have hchainU : ChainFrom (u.PushUninitialized size al).1
              (some (u.stream u.nalloc)) (u.stream u.nalloc :: nb :: tail2) := by
            refine ChainFrom.cons _ _ ?_
            rw [h0]
            exact hchainnb
          have hnodupU : (u.stream u.nalloc :: nb :: tail2).Nodup := by
            rw [List.nodup_cons]
            exact ⟨haddr_notmem2, (List.nodup_cons.1 hnodup).2⟩
          have hfreshU : ∀ n, (u.PushUninitialized size al).1.nalloc ≤ n →
              (u.PushUninitialized size al).1.stream n ∉
                u.stream u.nalloc :: nb :: tail2 := by
            intro n hn
            rw [hstrU]
            rw [hnalU] at hn
            intro hmem
            rcases List.mem_cons.1 hmem with hc | hmem2
            · have := hinj u.nalloc n le_rfl (by omega) hc.symm
              omega
            · exact hfresh n (by omega) (List.mem_cons_of_mem _ hmem2)
          obtain ⟨hrep, hstr, hnal, hfin, hpers, hsz⟩ :=
            ih (u.PushUninitialized size al).1 (u.stream u.nalloc) (nb :: tail2)
              hinjU hbU hchainU hnodupU hfreshU
          set s1 := (pushMany (u.PushUninitialized size al).1 rest).1 with hs1
          have hfutUc : ∀ n, (u.PushUninitialized size al).1.nalloc ≤ n →
              cur ≠ (u.PushUninitialized size al).1.stream n := by
            intro n hn
            rw [hstrU]
            rw [hnalU] at hn
            exact hcurfut n (by omega)
          have hcur_notin1 : cur ∉ u.stream u.nalloc :: nb :: tail2 := by
            intro hmem
            rcases List.mem_cons.1 hmem with hc | hmem2
            · exact hca hc
            · exact hcur_notin hmem2
          have hfull : s1.headers cur =
              ⟨(u.headers cur).SizeIncludingHeader,
                (u.headers cur).AllocatedFromBackingAllocator,
                some (u.stream u.nalloc)⟩ :=
            (hpers cur hcur_notin1 hfutUc).trans hUcur
          have hsize_cur : (s1.headers cur).SizeIncludingHeader =
              (u.headers cur).SizeIncludingHeader := by rw [hfull]
          have hnext_s1 : (s1.headers cur).Next = some (u.stream u.nalloc) := by
            rw [hfull]
          have hfutUaddr : ∀ n, (u.PushUninitialized size al).1.nalloc ≤ n →
              u.stream u.nalloc ≠ (u.PushUninitialized size al).1.stream n := by
            intro n hn
            rw [hstrU]
            rw [hnalU] at hn
            intro hc
            have := hinj u.nalloc n le_rfl (by omega) hc
            omega
          have hszaddr : (s1.headers (u.stream u.nalloc)).SizeIncludingHeader =
              (if u.BlockSize > DS_AlignUpPow2 DS_StackBlockHeaderSize al + size
                then u.BlockSize
                else DS_AlignUpPow2 DS_StackBlockHeaderSize al + size) := by
            rw [hsz (u.stream u.nalloc) hfutUaddr, hUaddr]
          have hroom_s1 : (size : Int) ≤
              ((s1.headers (u.stream u.nalloc)).SizeIncludingHeader : Int) -
              (DS_AlignUpPow2 DS_StackBlockHeaderSize al : Int) := by
            rw [hszaddr]
            by_cases hbs : u.BlockSize > DS_AlignUpPow2 DS_StackBlockHeaderSize al + size
            · rw [if_pos hbs]
              omega
            · rw [if_neg hbs]
              omega
          have hstepv := push_replay_switch hb hfit hsize_cur hnext_s1 hroom_s1
          have hstepv2 : ({ s1 with Mark := u.Mark } :
                DS_StackAllocator).PushUninitialized size al =
              ({ s1 with Mark := (u.PushUninitialized size al).1.Mark },
                (u.PushUninitialized size al).2) := by
            rw [hM, hr2]
            exact hstepv
          refine ⟨?_, ?_, ?_, ?_, ?_, ?_⟩
          · show ((pushMany (({ s1 with Mark := u.Mark } :
                  DS_StackAllocator).PushUninitialized size al).1 rest).1,
                (({ s1 with Mark := u.Mark } :
                  DS_StackAllocator).PushUninitialized size al).2 ::
                (pushMany (({ s1 with Mark := u.Mark } :
                  DS_StackAllocator).PushUninitialized size al).1 rest).2) =
              ((pushMany (u.PushUninitialized size al).1 rest).1,
                (u.PushUninitialized size al).2 ::
                (pushMany (u.PushUninitialized size al).1 rest).2)
            simp only [hstepv2]
            rw [hrep]
          · exact hstr.trans hstrU
          · exact le_trans (Nat.le_succ u.nalloc)
              (show u.nalloc + 1 ≤ s1.nalloc from by rw [← hnalU]; exact hnal)
          · exact hfin
          · intro a ha hfut
            have h2 : ¬ a = u.stream u.nalloc := fun hc => hfut u.nalloc le_rfl hc
            have h1 : ¬ a = cur := fun hc =>
              ha (by rw [hc]; exact List.mem_cons_self _ _)
            have ha1 : a ∉ u.stream u.nalloc :: nb :: tail2 := by
              intro hmem
              rcases List.mem_cons.1 hmem with hc | hmem2
              · exact h2 hc
              · exact ha (List.mem_cons_of_mem _ hmem2)
            have hfutUa : ∀ n, (u.PushUninitialized size al).1.nalloc ≤ n →
                a ≠ (u.PushUninitialized size al).1.stream n := by
              intro n hn
              rw [hstrU]
              rw [hnalU] at hn
              exact hfut n (by omega)
            exact (hpers a ha1 hfutUa).trans (hUother a h1 h2)
          · intro a hfut
            have h2 : ¬ a = u.stream u.nalloc := fun hc => hfut u.nalloc le_rfl hc
            have hfutUa : ∀ n, (u.PushUninitialized size al).1.nalloc ≤ n →
                a ≠ (u.PushUninitialized size al).1.stream n := by
              intro n hn
              rw [hstrU]
              rw [hnalU] at hn
              exact hfut n (by omega)
            by_cases h1 : a = cur
            · subst h1
              exact (hsz a hfutUa).trans (by rw [hUcur])
            · exact (hsz a hfutUa).trans (by rw [hUother a h1 h2])
    · -- the current block fits the request
      have hstep := push_fits hb hfit
      have hbU : (u.PushUninitialized size al).1.Mark.Block = some cur := by
        rw [hstep]
        exact hb
      have hnalU : (u.PushUninitialized size al).1.nalloc = u.nalloc := by
        rw [hstep]
      have hstrU : (u.PushUninitialized size al).1.stream = u.stream := by
        rw [hstep]
      have hM : (u.PushUninitialized size al).1.Mark =
          ⟨u.Mark.Block, DS_AlignUpPow2 u.Mark.Ptr al + size⟩ := by
        rw [hstep]
      have hr2 : (u.PushUninitialized size al).2 =
          DS_AlignUpPow2 u.Mark.Ptr al := by
        rw [hstep]
      have hhdU : ∀ a, (u.PushUninitialized size al).1.headers a = u.headers a := by
        intro a
        rw [hstep]
      have hinjU : ∀ n m, (u.PushUninitialized size al).1.nalloc ≤ n →
          (u.PushUninitialized size al).1.nalloc ≤ m →
          (u.PushUninitialized size al).1.stream n =
            (u.PushUninitialized size al).1.stream m → n = m := by
        intro n m hn hm heq
        rw [hnalU] at hn hm
        rw [hstrU] at heq
        exact hinj n m hn hm heq
      have hchainU : ChainFrom (u.PushUninitialized size al).1 (some cur)
          (cur :: tail) :=
        chainFrom_congr hchain (fun b _ => hhdU b)
      have hfreshU : ∀ n, (u.PushUninitialized size al).1.nalloc ≤ n →
          (u.PushUninitialized size al).1.stream n ∉ cur :: tail := by
        intro n hn
        rw [hstrU]
        rw [hnalU] at hn
        exact hfresh n hn
      obtain ⟨hrep, hstr, hnal, hfin, hpers, hsz⟩ :=
        ih (u.PushUninitialized size al).1 cur tail
          hinjU hbU hchainU hnodup hfreshU
      set s1 := (pushMany (u.PushUninitialized size al).1 rest).1 with hs1
      have hfutUc : ∀ n, (u.PushUninitialized size al).1.nalloc ≤ n →
          cur ≠ (u.PushUninitialized size al).1.stream n := by
        intro n hn
        rw [hstrU]
        rw [hnalU] at hn
        exact hcurfut n hn
      have hsize_cur : (s1.headers cur).SizeIncludingHeader =
          (u.headers cur).SizeIncludingHeader := by
        rw [hsz cur hfutUc, hhdU cur]
      have hstepv := push_replay_fits hb hfit hsize_cur
      have hstepv2 : ({ s1 with Mark := u.Mark } :
            DS_StackAllocator).PushUninitialized size al =
          ({ s1 with Mark := (u.PushUninitialized size al).1.Mark },
            (u.PushUninitialized size al).2) := by
        rw [hM, hr2]
        exact hstepv
      refine ⟨?_, ?_, ?_, ?_, ?_, ?_⟩
      · show ((pushMany (({ s1 with Mark := u.Mark } :
              DS_StackAllocator).PushUninitialized size al).1 rest).1,
            (({ s1 with Mark := u.Mark } :
              DS_StackAllocator).PushUninitialized size al).2 ::
            (pushMany (({ s1 with Mark := u.Mark } :
              DS_StackAllocator).PushUninitialized size al).1 rest).2) =
          ((pushMany (u.PushUninitialized size al).1 rest).1,
            (u.PushUninitialized size al).2 ::
            (pushMany (u.PushUninitialized size al).1 rest).2)
        simp only [hstepv2]
        rw [hrep]
      · exact hstr.trans hstrU
      · exact le_trans (le_of_eq hnalU.symm) hnal
      · exact hfin
      · intro a ha hfut
        have hfutUa : ∀ n, (u.PushUninitialized size al).1.nalloc ≤ n →
            a ≠ (u.PushUninitialized size al).1.stream n := by
          intro n hn
          rw [hstrU]
          rw [hnalU] at hn
          exact hfut n hn
        exact (hpers a ha hfutUa).trans (hhdU a)
      · intro a hfut
        have hfutUa : ∀ n, (u.PushUninitialized size al).1.nalloc ≤ n →
            a ≠ (u.PushUninitialized size al).1.stream n := by
          intro n hn
          rw [hstrU]
          rw [hnalU] at hn
          exact hfut n hn
        exact (hsz a hfutUa).trans (by rw [hhdU a])

/-- C4 counterexample: on an arena initialized with no initial block,
`SetMark(GetMark())` is not a no-op: the current mark is `(NULL, NULL)`, and
`SetMark` on a NULL-block mark sets `Mark.Ptr` to
`(char*)FirstBlock + sizeof(DS_StackBlockHeader)`, which is address 16 when
`FirstBlock` is NULL. -/
theorem C4_counterexample_null_mark_not_noop :
    ((DS_StackAllocator.Init (fun n => n) none 4096 16).SetMark
      (DS_StackAllocator.Init (fun n => n) none 4096 16).GetMark).Mark.Ptr = 16 ∧
    (DS_StackAllocator.Init (fun n => n) none 4096 16).Mark.Ptr = 0 ∧
    ((DS_StackAllocator.Init (fun n => n) none 4096 16).SetMark
      (DS_StackAllocator.Init (fun n => n) none 4096 16).GetMark) ≠
      DS_StackAllocator.Init (fun n => n) none 4096 16 := by
  refine ⟨rfl, rfl, ?_⟩
  intro h
  have h2 : (16 : Nat) = 0 := congrArg (fun t => t.Mark.Ptr) h
  exact absurd h2 (by decide)

/-- C4 (amended): on a well-formed arena whose current mark has a non-NULL
block, `SetMark(GetMark())` is a no-op, and restoring a saved mark with
`SetMark` then re-running any sequence of `PushUninitialized(size, alignment)`
calls returns the same addresses, bit for bit, as the first run (the
original claim's null-block case fails, per the counterexample). -/
theorem C4_checkpoint_noop_and_replay (u : DS_StackAllocator) (cur : Nat)
    (tail : List Nat) (ops : List (Nat × Nat))
    (hinj : ∀ n m, u.nalloc ≤ n → u.nalloc ≤ m → u.stream n = u.stream m → n = m)
    (hb : u.Mark.Block = some cur)
    (hchain : ChainFrom u (some cur) (cur :: tail))
    (hnodup : (cur :: tail).Nodup)
    (hfresh : ∀ n, u.nalloc ≤ n → u.stream n ∉ cur :: tail) :
    u.SetMark u.GetMark = u ∧
    pushMany ((pushMany u ops).1.SetMark u.GetMark) ops = pushMany u ops := by
  have hset : ∀ (t : DS_StackAllocator), t.SetMark u.GetMark =
      { t with Mark := u.Mark } := by
    intro t
    unfold DS_StackAllocator.SetMark DS_StackAllocator.GetMark
    rw [hb]
  constructor
  · exact (hset u).trans rfl
  · rw [hset ((pushMany u ops).1)]
    exact (pushMany_replay_aux ops u cur tail hinj hb hchain hnodup hfresh).1

theorem C4_checkpoint_noop_and_replay_witness :
    (DS_StackAllocator.Init (fun n => 8192 * (n + 1)) (some 4096) 4096
        16).SetMark
      (DS_StackAllocator.Init (fun n => 8192 * (n + 1)) (some 4096) 4096
        16).GetMark =
      DS_StackAllocator.Init (fun n => 8192 * (n + 1)) (some 4096) 4096 16 ∧
    pushMany
      ((pushMany (DS_StackAllocator.Init (fun n => 8192 * (n + 1)) (some 4096)
          4096 16) [(8, 8), (5000, 16)]).1.SetMark
        (DS_StackAllocator.Init (fun n => 8192 * (n + 1)) (some 4096) 4096
          16).GetMark) [(8, 8), (5000, 16)] =
      pushMany (DS_StackAllocator.Init (fun n => 8192 * (n + 1)) (some 4096)
        4096 16) [(8, 8), (5000, 16)] := by
  refine C4_checkpoint_noop_and_replay
    (DS_StackAllocator.Init (fun n => 8192 * (n + 1)) (some 4096) 4096 16)
    4096 [] [(8, 8), (5000, 16)] ?_ rfl ?_ ?_ ?_
  · intro n m _ _ h
    have h2 : 8192 * (n + 1) = 8192 * (m + 1) := h
    omega
  · refine ChainFrom.cons _ _ ?_
    have h : ((DS_StackAllocator.Init (fun n => 8192 * (n + 1)) (some 4096)
        4096 16).headers 4096).Next = none := rfl
    rw [h]
    exact ChainFrom.nil
  · exact List.nodup_singleton _
  · intro n _ hmem
    have h2 : 8192 * (n + 1) = 4096 := List.mem_singleton.1 hmem
    omega

theorem resetFreeLoop_spec :
    ∀ (l : List Nat) (fuel : Nat) (s : DS_StackAllocator) (o : Option Nat),
      ChainFrom s o l → l.length ≤ fuel →
      resetFreeLoop fuel s o = some { s with freeLog := s.freeLog ++ l } := by
  intro l
  induction l with
  | nil =>
    intro fuel s o h _
    cases h
    cases fuel with
    | zero =>
      show some s = _
      rw [List.append_nil]
    | succ f =>
      show some s = _
      rw [List.append_nil]
  | cons b rest ihl =>
    intro fuel s o h hlen
    cases h with
    | cons _ _ hrest =>
    cases fuel with
    | zero => exact absurd hlen (by simp)
    | succ f =>
      have hchain2 : ChainFrom { s with freeLog := s.freeLog ++ [b] }
          ((s.headers b).Next) rest := chainFrom_congr hrest (fun _ _ => rfl)
      have hstep : resetFreeLoop (f + 1) s (some b) =
          resetFreeLoop f { s with freeLog := s.freeLog ++ [b] }
            ((s.headers b).Next) := rfl
      rw [hstep, ihl f _ _ hchain2 (by simp only [List.length_cons] at hlen; omega)]
      show some { s with freeLog := (s.freeLog ++ [b]) ++ rest } =
        some { s with freeLog := s.freeLog ++ b :: rest }
      rw [List.append_assoc, List.singleton_append]

theorem reset_spec (s : DS_StackAllocator) (fb : Nat) (brest : List Nat)
    (fuel : Nat) (hfb : s.FirstBlock = some fb)
    (hchain : ChainFrom s ((s.headers fb).Next) brest)
    (hlen : brest.length ≤ fuel) :
    s.Reset fuel = some
      { s with
        headers := fun a => if a = fb then
            ⟨(s.headers fb).SizeIncludingHeader,
              (s.headers fb).AllocatedFromBackingAllocator, none⟩
          else s.headers a,
        FirstBlock := if (s.headers fb).SizeIncludingHeader > s.BlockSize
          then none else some fb,
        Mark := if (s.headers fb).SizeIncludingHeader > s.BlockSize
          then ⟨none, DS_StackBlockHeaderSize⟩
          else ⟨some fb, fb + DS_StackBlockHeaderSize⟩,
        freeLog := (s.freeLog ++ brest) ++
          (if (s.headers fb).SizeIncludingHeader > s.BlockSize ∧
              (s.headers fb).AllocatedFromBackingAllocator = true
            then [fb] else []) } := by
  unfold DS_StackAllocator.Reset
  simp only [hfb]
  rw [resetFreeLoop_spec brest fuel s ((s.headers fb).Next) hchain hlen]
  by_cases hover : (s.headers fb).SizeIncludingHeader > s.BlockSize
  · rcases hAl : (s.headers fb).AllocatedFromBackingAllocator with _ | _
    · simp only [Option.map_some', hAl, eq_self_iff_true, if_true, if_pos hover,
        if_neg Bool.false_ne_true, Nat.zero_add,
        if_neg (show ¬ ((s.headers fb).SizeIncludingHeader > s.BlockSize ∧
          false = true) from fun hc => Bool.false_ne_true hc.2),
        List.append_nil]
    · simp only [Option.map_some', hAl, eq_self_iff_true, if_true, if_pos hover,
        if_pos (Eq.refl true), Nat.zero_add, and_true]
  · simp only [Option.map_some', eq_self_iff_true, if_true, if_neg hover, hfb,
      if_neg (show ¬ ((s.headers fb).SizeIncludingHeader > s.BlockSize ∧
        (s.headers fb).AllocatedFromBackingAllocator = true) from
        fun hc => hover hc.1),
      List.append_nil]

theorem obsRel_alloc_helper (s t s2 t2 : DS_StackAllocator)
    (R : ObsRel s t) (nbsL nbsR : Nat)
    (hbszL : s2.BlockSize = s.BlockSize)
    (hbalignL : s2.BlockAlignment = s.BlockAlignment)
    (hstreamL : s2.stream = s.stream)
    (hnalL : s2.nalloc = s.nalloc + 1)
    (hbL : s2.Mark.Block = some (s.stream s.nalloc))
    (hoffL : s.stream s.nalloc ≤ s2.Mark.Ptr)
    (hbszR : t2.BlockSize = t.BlockSize)
    (hbalignR : t2.BlockAlignment = t.BlockAlignment)
    (hstreamR : t2.stream = t.stream)
    (hnalR : t2.nalloc = t.nalloc + 1)
    (hbR : t2.Mark.Block = some (t.stream t.nalloc))
    (hoffR : t.stream t.nalloc ≤ t2.Mark.Ptr)
    (hoffeq : s2.Mark.Ptr - s.stream s.nalloc = t2.Mark.Ptr - t.stream t.nalloc)
    (hhdL : s2.headers (s.stream s.nalloc) = ⟨nbsL, true, none⟩)
    (hhdR : t2.headers (t.stream t.nalloc) = ⟨nbsR, true, none⟩)
    (hnbseq : nbsL = nbsR) :
    ObsRel s2 t2 := by
  refine ⟨?_, ?_, ?_, ?_, ?_, ?_, ?_, ?_, ?_, ?_⟩
  · rw [hbszL, hbszR]
    exact R.bsize
  · rw [hbalignL, hbalignR]
    exact R.balign
  · rw [hbalignL]
    exact R.align_pow2
  · intro n
    rw [hstreamL, hbalignL]
    exact R.stream_al_l n
  · intro n
    rw [hstreamR, hbalignR]
    exact R.stream_al_r n
  · intro n m hn hm he
    rw [hnalL] at hn hm
    rw [hstreamL] at he
    exact R.stream_inj_l n m (by omega) (by omega) he
  · intro n m hn hm he
    rw [hnalR] at hn hm
    rw [hstreamR] at he
    exact R.stream_inj_r n m (by omega) (by omega) he
  · intro bb hbb n hn
    rw [hbL] at hbb
    rw [hnalL] at hn
    rw [hstreamL]
    intro hce
    have hbbe : s.stream s.nalloc = bb := Option.some.inj hbb
    have := R.stream_inj_l n s.nalloc (by omega) le_rfl (hce.trans hbbe.symm)
    omega
  · intro bb hbb n hn
    rw [hbR] at hbb
    rw [hnalR] at hn
    rw [hstreamR]
    intro hce
    have hbbe : t.stream t.nalloc = bb := Option.some.inj hbb
    have := R.stream_inj_r n t.nalloc (by omega) le_rfl (hce.trans hbbe.symm)
    omega
  · refine Or.inr (Or.inl ⟨s.stream s.nalloc, t.stream t.nalloc, hbL, hbR,
      ?_, ?_, ?_, ?_, ?_, hoffL, hoffR, hoffeq⟩)
    · rw [hbalignL]
      exact R.stream_al_l s.nalloc
    · rw [hbalignL, R.balign]
      exact R.stream_al_r t.nalloc
    · rw [hhdL, hhdR]
      exact hnbseq
    · rw [hhdL]
    · rw [hhdR]

theorem obsRel_push {s t : DS_StackAllocator} (R : ObsRel s t) (size al : Nat)
    (hpos : 0 < size) (hal2 : ∃ j, al = 2 ^ j) (hle : al ≤ s.BlockAlignment) :
    ObsRel (s.PushUninitialized size al).1 (t.PushUninitialized size al).1 ∧
    (match (s.PushUninitialized size al).1.Mark.Block with
     | some b => some ((s.PushUninitialized size al).2 - b,
         ((s.PushUninitialized size al).1.headers b).SizeIncludingHeader)
     | none => none) =
    (match (t.PushUninitialized size al).1.Mark.Block with
     | some b => some ((t.PushUninitialized size al).2 - b,
         ((t.PushUninitialized size al).1.headers b).SizeIncludingHeader)
     | none => none) := by
  obtain ⟨j, hj⟩ := hal2
  obtain ⟨k, hk⟩ := R.align_pow2
  have hal0 : 0 < al := by
    rw [hj]
    exact pow_pos (by omega) j
  have haldvd : al ∣ s.BlockAlignment := by
    rw [hj, hk]
    refine pow_dvd_pow 2 ?_
    have h2 : (2 : Nat) ^ j ≤ 2 ^ k := by rw [← hj, ← hk]; exact hle
    exact (Nat.pow_le_pow_iff_right (by omega)).1 h2
  have hbsz : s.BlockSize = t.BlockSize := R.bsize
  have hbal : s.BlockAlignment = t.BlockAlignment := R.balign
  have hPL := push_preserves s size al
  have hPR := push_preserves t size al
  rcases R.cases with ⟨hsb, htb⟩ |
    ⟨b, c, hsb, htb, halb, halc, hszbc, hnb, hnc, hble, hcle, hoff⟩ |
    ⟨b, hsb, htb, halb, hszb, hnb, hptr, hhdr⟩
  · -- both sides have no current block: both allocate fresh standard blocks
    have hstepL := @push_none s hsb size al hpos
    have hstepR := @push_none t htb size al hpos
    have hbL : (s.PushUninitialized size al).1.Mark.Block =
        some (s.stream s.nalloc) := by rw [hstepL]
    have hbR : (t.PushUninitialized size al).1.Mark.Block =
        some (t.stream t.nalloc) := by rw [hstepR]
    have hnalL : (s.PushUninitialized size al).1.nalloc = s.nalloc + 1 := by
      rw [hstepL]
    have hnalR : (t.PushUninitialized size al).1.nalloc = t.nalloc + 1 := by
      rw [hstepR]
    have hPtrL : (s.PushUninitialized size al).1.Mark.Ptr =
        s.stream s.nalloc + DS_AlignUpPow2 DS_StackBlockHeaderSize al + size := by
      rw [hstepL]
    have hPtrR : (t.PushUninitialized size al).1.Mark.Ptr =
        t.stream t.nalloc + DS_AlignUpPow2 DS_StackBlockHeaderSize al + size := by
      rw [hstepR]
    have hhdL : (s.PushUninitialized size al).1.headers (s.stream s.nalloc) =
        ⟨if s.BlockSize > DS_AlignUpPow2 DS_StackBlockHeaderSize al + size
          then s.BlockSize
          else DS_AlignUpPow2 DS_StackBlockHeaderSize al + size, true, none⟩ := by
      rw [hstepL]
      simp only [if_pos (Eq.refl (s.stream s.nalloc)), eq_self_iff_true, if_true]
    have hhdR : (t.PushUninitialized size al).1.headers (t.stream t.nalloc) =
        ⟨if t.BlockSize > DS_AlignUpPow2 DS_StackBlockHeaderSize al + size
          then t.BlockSize
          else DS_AlignUpPow2 DS_StackBlockHeaderSize al + size, true, none⟩ := by
      rw [hstepR]
      simp only [if_pos (Eq.refl (t.stream t.nalloc)), eq_self_iff_true, if_true]
    have hr2L : (s.PushUninitialized size al).2 =
        s.stream s.nalloc + DS_AlignUpPow2 DS_StackBlockHeaderSize al := by
      rw [hstepL]
    have hr2R : (t.PushUninitialized size al).2 =
        t.stream t.nalloc + DS_AlignUpPow2 DS_StackBlockHeaderSize al := by
      rw [hstepR]
    have hnbseq : (if s.BlockSize > DS_AlignUpPow2 DS_StackBlockHeaderSize al + size
          then s.BlockSize
          else DS_AlignUpPow2 DS_StackBlockHeaderSize al + size) =
        (if t.BlockSize > DS_AlignUpPow2 DS_StackBlockHeaderSize al + size
          then t.BlockSize
          else DS_AlignUpPow2 DS_StackBlockHeaderSize al + size) := by rw [hbsz]
    constructor
    · exact obsRel_alloc_helper s t _ _ R _ _ hPL.1 hPL.2.1 hPL.2.2.1 hnalL hbL
        (by rw [hPtrL]; omega) hPR.1 hPR.2.1 hPR.2.2.1 hnalR hbR
        (by rw [hPtrR]; omega) (by rw [hPtrL, hPtrR]; omega) hhdL hhdR hnbseq
    · simp only [hbL, hbR, hr2L, hr2R, hhdL, hhdR, Nat.add_sub_cancel_left]
      rw [hnbseq]
  · -- both sides sit inside blocks of equal size at equal offsets
    have halbdvd : al ∣ b := dvd_trans haldvd (Nat.dvd_of_mod_eq_zero halb)
    have halcdvd : al ∣ c := dvd_trans haldvd (Nat.dvd_of_mod_eq_zero halc)
    have hsplit : s.Mark.Ptr = b + (s.Mark.Ptr - b) := by omega
    have htsplit : t.Mark.Ptr = c + (t.Mark.Ptr - c) := by omega
    have hALs2 : DS_AlignUpPow2 s.Mark.Ptr al =
        b + DS_AlignUpPow2 (s.Mark.Ptr - b) al := by
      conv_lhs => rw [hsplit]
      exact alignUp_add_multiple hal0 halbdvd _
    have hALt2 : DS_AlignUpPow2 t.Mark.Ptr al =
        c + DS_AlignUpPow2 (t.Mark.Ptr - c) al := by
      conv_lhs => rw [htsplit]
      exact alignUp_add_multiple hal0 halcdvd _
    have hoffal : DS_AlignUpPow2 (s.Mark.Ptr - b) al =
        DS_AlignUpPow2 (t.Mark.Ptr - c) al := by rw [hoff]
    by_cases hfit : (size : Int) > ((s.headers b).SizeIncludingHeader : Int) -
        ((DS_AlignUpPow2 s.Mark.Ptr al : Int) - (b : Int))
    · -- neither side fits: both allocate fresh blocks
      have hfitR : (size : Int) > ((t.headers c).SizeIncludingHeader : Int) -
          ((DS_AlignUpPow2 t.Mark.Ptr al : Int) - (c : Int)) := by
        rw [hALt2, ← hoffal, ← hszbc]
        rw [hALs2] at hfit
        push_cast at hfit ⊢
        omega
      have hfL : s.stream s.nalloc ≠ b := R.fresh_l b hsb s.nalloc le_rfl
      have hfR : t.stream t.nalloc ≠ c := R.fresh_r c htb t.nalloc le_rfl
      have hstepL := push_alloc_none hsb hfit hnb
      have hstepR := push_alloc_none htb hfitR hnc
      have hbL : (s.PushUninitialized size al).1.Mark.Block =
          some (s.stream s.nalloc) := by rw [hstepL]
      have hbR : (t.PushUninitialized size al).1.Mark.Block =
          some (t.stream t.nalloc) := by rw [hstepR]
      have hnalL : (s.PushUninitialized size al).1.nalloc = s.nalloc + 1 := by
        rw [hstepL]
      have hnalR : (t.PushUninitialized size al).1.nalloc = t.nalloc + 1 := by
        rw [hstepR]
      have hPtrL : (s.PushUninitialized size al).1.Mark.Ptr =
          s.stream s.nalloc + DS_AlignUpPow2 DS_StackBlockHeaderSize al + size := by
        rw [hstepL]
      have hPtrR : (t.PushUninitialized size al).1.Mark.Ptr =
          t.stream t.nalloc + DS_AlignUpPow2 DS_StackBlockHeaderSize al + size := by
        rw [hstepR]
      have hhdL : (s.PushUninitialized size al).1.headers (s.stream s.nalloc) =
          ⟨if s.BlockSize > DS_AlignUpPow2 DS_StackBlockHeaderSize al + size
            then s.BlockSize
            else DS_AlignUpPow2 DS_StackBlockHeaderSize al + size, true, none⟩ := by
        rw [hstepL]
        simp only [if_neg hfL, if_pos (Eq.refl (s.stream s.nalloc)),
          eq_self_iff_true, if_true]
      have hhdR : (t.PushUninitialized size al).1.headers (t.stream t.nalloc) =
          ⟨if t.BlockSize > DS_AlignUpPow2 DS_StackBlockHeaderSize al + size
            then t.BlockSize
            else DS_AlignUpPow2 DS_StackBlockHeaderSize al + size, true, none⟩ := by
        rw [hstepR]
        simp only [if_neg hfR, if_pos (Eq.refl (t.stream t.nalloc)),
          eq_self_iff_true, if_true]
      have hr2L : (s.PushUninitialized size al).2 =
          s.stream s.nalloc + DS_AlignUpPow2 DS_StackBlockHeaderSize al := by
        rw [hstepL]
      have hr2R : (t.PushUninitialized size al).2 =
          t.stream t.nalloc + DS_AlignUpPow2 DS_StackBlockHeaderSize al := by
        rw [hstepR]
      have hnbseq : (if s.BlockSize > DS_AlignUpPow2 DS_StackBlockHeaderSize al + size
            then s.BlockSize
            else DS_AlignUpPow2 DS_StackBlockHeaderSize al + size) =
          (if t.BlockSize > DS_AlignUpPow2 DS_StackBlockHeaderSize al + size
            then t.BlockSize
            else DS_AlignUpPow2 DS_StackBlockHeaderSize al + size) := by rw [hbsz]
      constructor
      · exact obsRel_alloc_helper s t _ _ R _ _ hPL.1 hPL.2.1 hPL.2.2.1 hnalL hbL
          (by rw [hPtrL]; omega) hPR.1 hPR.2.1 hPR.2.2.1 hnalR hbR
          (by rw [hPtrR]; omega) (by rw [hPtrL, hPtrR]; omega) hhdL hhdR hnbseq
      · simp only [hbL, hbR, hr2L, hr2R, hhdL, hhdR, Nat.add_sub_cancel_left]
        rw [hnbseq]
    · -- both sides fit in their current blocks
      have hfitRn : ¬ ((size : Int) > ((t.headers c).SizeIncludingHeader : Int) -
          ((DS_AlignUpPow2 t.Mark.Ptr al : Int) - (c : Int))) := by
        rw [hALt2, ← hoffal, ← hszbc]
        rw [hALs2] at hfit
        push_cast at hfit ⊢
        omega
      have hstepL := push_fits hsb hfit
      have hstepR := push_fits htb hfitRn
      have hbL : (s.PushUninitialized size al).1.Mark.Block = some b := by
        rw [hstepL]
        exact hsb
      have hbR : (t.PushUninitialized size al).1.Mark.Block = some c := by
        rw [hstepR]
        exact htb
      have hPtrL : (s.PushUninitialized size al).1.Mark.Ptr =
          DS_AlignUpPow2 s.Mark.Ptr al + size := by rw [hstepL]
      have hPtrR : (t.PushUninitialized size al).1.Mark.Ptr =
          DS_AlignUpPow2 t.Mark.Ptr al + size := by rw [hstepR]
      have hhdL : ∀ a, (s.PushUninitialized size al).1.headers a = s.headers a := by
        intro a
        rw [hstepL]
      have hhdR : ∀ a, (t.PushUninitialized size al).1.headers a = t.headers a := by
        intro a
        rw [hstepR]
      have hnalL : (s.PushUninitialized size al).1.nalloc = s.nalloc := by
        rw [hstepL]
      have hnalR : (t.PushUninitialized size al).1.nalloc = t.nalloc := by
        rw [hstepR]
      have hr2L : (s.PushUninitialized size al).2 =
          DS_AlignUpPow2 s.Mark.Ptr al := by rw [hstepL]
      have hr2R : (t.PushUninitialized size al).2 =
          DS_AlignUpPow2 t.Mark.Ptr al := by rw [hstepR]
      constructor
      · refine ⟨?_, ?_, ?_, ?_, ?_, ?_, ?_, ?_, ?_, ?_⟩
        · rw [hPL.1, hPR.1]
          exact hbsz
        · rw [hPL.2.1, hPR.2.1]
          exact hbal
        · rw [hPL.2.1]
          exact ⟨k, hk⟩
        · intro n
          rw [hPL.2.2.1, hPL.2.1]
          exact R.stream_al_l n
        · intro n
          rw [hPR.2.2.1, hPR.2.1]
          exact R.stream_al_r n
        · intro n m hn hm he
          rw [hnalL] at hn hm
          rw [hPL.2.2.1] at he
          exact R.stream_inj_l n m hn hm he
        · intro n m hn hm he
          rw [hnalR] at hn hm
          rw [hPR.2.2.1] at he
          exact R.stream_inj_r n m hn hm he
        · intro bb hbb n hn
          rw [hbL] at hbb
          rw [hnalL] at hn
          rw [hPL.2.2.1]
          have hbbe : b = bb := Option.some.inj hbb
          rw [← hbbe]
          exact R.fresh_l b hsb n hn
        · intro bb hbb n hn
          rw [hbR] at hbb
          rw [hnalR] at hn
          rw [hPR.2.2.1]
          have hbbe : c = bb := Option.some.inj hbb
          rw [← hbbe]
          exact R.fresh_r c htb n hn
        · refine Or.inr (Or.inl ⟨b, c, hbL, hbR, ?_, ?_, ?_, ?_, ?_, ?_, ?_, ?_⟩)
          · rw [hPL.2.1]
            exact halb
          · rw [hPL.2.1]
            exact halc
          · rw [hhdL b, hhdR c]
            exact hszbc
          · rw [hhdL b]
            exact hnb
          · rw [hhdR c]
            exact hnc
          · rw [hPtrL, hALs2]
            omega
          · rw [hPtrR, hALt2]
            omega
          · rw [hPtrL, hPtrR, hALs2, hALt2, hoffal]
            omega
      · simp only [hbL, hbR, hr2L, hr2R, hhdL, hhdR]
        rw [hALs2, hALt2, hoffal, hszbc]
        simp only [Nat.add_sub_cancel_left]
  · -- left sits at the start of an unused standard block, right has no block
    have halbdvd : al ∣ b := dvd_trans haldvd (Nat.dvd_of_mod_eq_zero halb)
    have hALs3 : DS_AlignUpPow2 s.Mark.Ptr al =
        b + DS_AlignUpPow2 DS_StackBlockHeaderSize al := by
      rw [hptr]
      exact alignUp_add_multiple hal0 halbdvd _
    by_cases hfit : (size : Int) > (s.BlockSize : Int) -
        (DS_AlignUpPow2 DS_StackBlockHeaderSize al : Int)
    · -- the request does not fit a standard block: both allocate fresh blocks
      have hfitL : (size : Int) > ((s.headers b).SizeIncludingHeader : Int) -
          ((DS_AlignUpPow2 s.Mark.Ptr al : Int) - (b : Int)) := by
        rw [hszb, hALs3]
        push_cast
        omega
      have hfL : s.stream s.nalloc ≠ b := R.fresh_l b hsb s.nalloc le_rfl
      have hstepL := push_alloc_none hsb hfitL hnb
      have hstepR := @push_none t htb size al hpos
      have hbL : (s.PushUninitialized size al).1.Mark.Block =
          some (s.stream s.nalloc) := by rw [hstepL]
      have hbR : (t.PushUninitialized size al).1.Mark.Block =
          some (t.stream t.nalloc) := by rw [hstepR]
      have hnalL : (s.PushUninitialized size al).1.nalloc = s.nalloc + 1 := by
        rw [hstepL]
      have hnalR : (t.PushUninitialized size al).1.nalloc = t.nalloc + 1 := by
        rw [hstepR]
      have hPtrL : (s.PushUninitialized size al).1.Mark.Ptr =
          s.stream s.nalloc + DS_AlignUpPow2 DS_StackBlockHeaderSize al + size := by
        rw [hstepL]
      have hPtrR : (t.PushUninitialized size al).1.Mark.Ptr =
          t.stream t.nalloc + DS_AlignUpPow2 DS_StackBlockHeaderSize al + size := by
        rw [hstepR]
      have hhdL : (s.PushUninitialized size al).1.headers (s.stream s.nalloc) =
          ⟨if s.BlockSize > DS_AlignUpPow2 DS_StackBlockHeaderSize al + size
            then s.BlockSize
            else DS_AlignUpPow2 DS_StackBlockHeaderSize al + size, true, none⟩ := by
        rw [hstepL]
        simp only [if_neg hfL, if_pos (Eq.refl (s.stream s.nalloc)),
          eq_self_iff_true, if_true]
      have hhdR : (t.PushUninitialized size al).1.headers (t.stream t.nalloc) =
          ⟨if t.BlockSize > DS_AlignUpPow2 DS_StackBlockHeaderSize al + size
            then t.BlockSize
            else DS_AlignUpPow2 DS_StackBlockHeaderSize al + size, true, none⟩ := by
        rw [hstepR]
        simp only [if_pos (Eq.refl (t.stream t.nalloc)), eq_self_iff_true, if_true]
      have hr2L : (s.PushUninitialized size al).2 =
          s.stream s.nalloc + DS_AlignUpPow2 DS_StackBlockHeaderSize al := by
        rw [hstepL]
      have hr2R : (t.PushUninitialized size al).2 =
          t.stream t.nalloc + DS_AlignUpPow2 DS_StackBlockHeaderSize al := by
        rw [hstepR]
      have hnbseq : (if s.BlockSize > DS_AlignUpPow2 DS_StackBlockHeaderSize al + size
            then s.BlockSize
            else DS_AlignUpPow2 DS_StackBlockHeaderSize al + size) =
          (if t.BlockSize > DS_AlignUpPow2 DS_StackBlockHeaderSize al + size
            then t.BlockSize
            else DS_AlignUpPow2 DS_StackBlockHeaderSize al + size) := by rw [hbsz]
      constructor
      · exact obsRel_alloc_helper s t _ _ R _ _ hPL.1 hPL.2.1 hPL.2.2.1 hnalL hbL
          (by rw [hPtrL]; omega) hPR.1 hPR.2.1 hPR.2.2.1 hnalR hbR
          (by rw [hPtrR]; omega) (by rw [hPtrL, hPtrR]; omega) hhdL hhdR hnbseq
      · simp only [hbL, hbR, hr2L, hr2R, hhdL, hhdR, Nat.add_sub_cancel_left]
        rw [hnbseq]
    · -- the request fits a standard block: left fills its block in place,
      -- right allocates a block that ends up identical in size
      have hro_size : DS_AlignUpPow2 DS_StackBlockHeaderSize al + size ≤
          s.BlockSize := by omega
      have hfitLn : ¬ ((size : Int) > ((s.headers b).SizeIncludingHeader : Int) -
          ((DS_AlignUpPow2 s.Mark.Ptr al : Int) - (b : Int))) := by
        rw [hszb, hALs3]
        push_cast
        omega
      have hstepL := push_fits hsb hfitLn
      have hstepR := @push_none t htb size al hpos
      have hnbsR : (if t.BlockSize > DS_AlignUpPow2 DS_StackBlockHeaderSize al + size
            then t.BlockSize
            else DS_AlignUpPow2 DS_StackBlockHeaderSize al + size) =
          s.BlockSize := by
        by_cases h : t.BlockSize > DS_AlignUpPow2 DS_StackBlockHeaderSize al + size
        · rw [if_pos h]
          exact hbsz.symm
        · rw [if_neg h]
          rw [hbsz] at hro_size
          omega
      have hbL : (s.PushUninitialized size al).1.Mark.Block = some b := by
        rw [hstepL]
        exact hsb
      have hbR : (t.PushUninitialized size al).1.Mark.Block =
          some (t.stream t.nalloc) := by rw [hstepR]
      have hPtrL : (s.PushUninitialized size al).1.Mark.Ptr =
          DS_AlignUpPow2 s.Mark.Ptr al + size := by rw [hstepL]
      have hPtrR : (t.PushUninitialized size al).1.Mark.Ptr =
          t.stream t.nalloc + DS_AlignUpPow2 DS_StackBlockHeaderSize al + size := by
        rw [hstepR]
      have hhdL : ∀ a, (s.PushUninitialized size al).1.headers a = s.headers a := by
        intro a
        rw [hstepL]
      have hhdR : (t.PushUninitialized size al).1.headers (t.stream t.nalloc) =
          ⟨if t.BlockSize > DS_AlignUpPow2 DS_StackBlockHeaderSize al + size
            then t.BlockSize
            else DS_AlignUpPow2 DS_StackBlockHeaderSize al + size, true, none⟩ := by
        rw [hstepR]
        simp only [if_pos (Eq.refl (t.stream t.nalloc)), eq_self_iff_true, if_true]
      have hnalL : (s.PushUninitialized size al).1.nalloc = s.nalloc := by
        rw [hstepL]
      have hnalR : (t.PushUninitialized size al).1.nalloc = t.nalloc + 1 := by
        rw [hstepR]
      have hr2L : (s.PushUninitialized size al).2 =
          DS_AlignUpPow2 s.Mark.Ptr al := by rw [hstepL]
      have hr2R : (t.PushUninitialized size al).2 =
          t.stream t.nalloc + DS_AlignUpPow2 DS_StackBlockHeaderSize al := by
        rw [hstepR]
      constructor
      · refine ⟨?_, ?_, ?_, ?_, ?_, ?_, ?_, ?_, ?_, ?_⟩
        · rw [hPL.1, hPR.1]
          exact hbsz
        · rw [hPL.2.1, hPR.2.1]
          exact hbal
        · rw [hPL.2.1]
          exact ⟨k, hk⟩
        · intro n
          rw [hPL.2.2.1, hPL.2.1]
          exact R.stream_al_l n
        · intro n
          rw [hPR.2.2.1, hPR.2.1]
          exact R.stream_al_r n
        · intro n m hn hm he
          rw [hnalL] at hn hm
          rw [hPL.2.2.1] at he
          exact R.stream_inj_l n m hn hm he
        · intro n m hn hm he
          rw [hnalR] at hn hm
          rw [hPR.2.2.1] at he
          exact R.stream_inj_r n m (by omega) (by omega) he
        · intro bb hbb n hn
          rw [hbL] at hbb
          rw [hnalL] at hn
          rw [hPL.2.2.1]
          have hbbe : b = bb := Option.some.inj hbb
          rw [← hbbe]
          exact R.fresh_l b hsb n hn
        · intro bb hbb n hn
          rw [hbR] at hbb
          rw [hnalR] at hn
          rw [hPR.2.2.1]
          intro hce
          have hbbe : t.stream t.nalloc = bb := Option.some.inj hbb
          have := R.stream_inj_r n t.nalloc (by omega) le_rfl (hce.trans hbbe.symm)
          omega
        · refine Or.inr (Or.inl ⟨b, t.stream t.nalloc, hbL, hbR,
            ?_, ?_, ?_, ?_, ?_, ?_, ?_, ?_⟩)
          · rw [hPL.2.1]
            exact halb
          · rw [hPL.2.1, hbal]
            exact R.stream_al_r t.nalloc
          · rw [hhdL b, hszb, hhdR]
            exact hnbsR.symm
          · rw [hhdL b]
            exact hnb
          · rw [hhdR]
          · rw [hPtrL, hALs3]
            omega
          · rw [hPtrR]
            omega
          · rw [hPtrL, hPtrR, hALs3]
            omega
      · simp only [hbL, hbR, hr2L, hr2R, hhdL, hhdR]
        rw [hALs3, hszb, hnbsR]
        simp only [Nat.add_sub_cancel_left]

theorem pushManyObs_congr :
    ∀ (ops : List (Nat × Nat)) (s t : DS_StackAllocator), ObsRel s t →
      (∀ p ∈ ops, 0 < p.1 ∧ (∃ j, p.2 = 2 ^ j) ∧ p.2 ≤ s.BlockAlignment) →
      pushManyObs s ops = pushManyObs t ops := by
  intro ops
  induction ops with
  | nil =>
    intro s t _ _
    rfl
  | cons hd rest ih =>
    obtain ⟨size, al⟩ := hd
    intro s t R hops
    obtain ⟨hpos, hal2, hle⟩ := hops (size, al) (List.mem_cons_self _ _)
    obtain ⟨R2, hobs⟩ := obsRel_push R size al hpos hal2 hle
    have hrest : ∀ p ∈ rest, 0 < p.1 ∧ (∃ j, p.2 = 2 ^ j) ∧
        p.2 ≤ (s.PushUninitialized size al).1.BlockAlignment := by
      intro p hp
      obtain ⟨h1, h2, h3⟩ := hops p (List.mem_cons_of_mem _ hp)
      refine ⟨h1, h2, ?_⟩
      rw [(push_preserves s size al).2.1]
      exact h3
    show (match (s.PushUninitialized size al).1.Mark.Block with
       | some b => some ((s.PushUninitialized size al).2 - b,
           ((s.PushUninitialized size al).1.headers b).SizeIncludingHeader)
       | none => none) :: pushManyObs (s.PushUninitialized size al).1 rest =
      (match (t.PushUninitialized size al).1.Mark.Block with
       | some b => some ((t.PushUninitialized size al).2 - b,
           ((t.PushUninitialized size al).1.headers b).SizeIncludingHeader)
       | none => none) :: pushManyObs (t.PushUninitialized size al).1 rest
    rw [hobs, ih _ _ R2 hrest]

/-- C6: on a well-formed arena whose block chain is `fb :: brest`, `Reset`
frees exactly the blocks after the first from the backing allocator, frees
the first block too only when it is oversized (its size-including-header
exceeds the configured block size) and backing-allocated — so a
caller-supplied initial block is never freed — nulls the first block
exactly when it is oversized, and rewinds the mark to the start of the
remaining first block (or to the empty state's address 16 when none
remains); afterwards the arena is observationally equivalent, addresses
aside, to a freshly `Init`-ed arena with the same configuration and no
initial block, for every sequence of positive-size, validly aligned
`PushUninitialized` calls. -/
theorem C6_reset_behaves_like_init (s : DS_StackAllocator) (fb : Nat)
    (brest : List Nat) (fuel : Nat)
    (W : ArenaWF s (fb :: brest))
    (hfb : s.FirstBlock = some fb)
    (hfuel : brest.length ≤ fuel)
    (hhdr : DS_StackBlockHeaderSize ≤ s.BlockSize) :
    ∃ s2, s.Reset fuel = some s2 ∧
      s2.freeLog = (s.freeLog ++ brest) ++
        (if (s.headers fb).SizeIncludingHeader > s.BlockSize ∧
            (s.headers fb).AllocatedFromBackingAllocator = true
          then [fb] else []) ∧
      s2.FirstBlock = (if (s.headers fb).SizeIncludingHeader > s.BlockSize
        then none else some fb) ∧
      s2.Mark.Block = s2.FirstBlock ∧
      s2.Mark.Ptr = (match s2.FirstBlock with | some b => b | none => 0) +
        DS_StackBlockHeaderSize ∧
      (∀ (stream2 : Nat → Nat) (ops : List (Nat × Nat)),
        (∀ n, stream2 n % s.BlockAlignment = 0) →
        (∀ n m, stream2 n = stream2 m → n = m) →
        (∀ p ∈ ops, 0 < p.1 ∧ (∃ j, p.2 = 2 ^ j) ∧ p.2 ≤ s.BlockAlignment) →
        pushManyObs s2 ops =
          pushManyObs (DS_StackAllocator.Init stream2 none s.BlockSize
            s.BlockAlignment) ops) := by
  have hchain0 : ChainFrom s (some fb) (fb :: brest) := by
    have h := W.chain
    rw [hfb] at h
    exact h
  have hchain1 : ChainFrom s ((s.headers fb).Next) brest := by
    cases hchain0 with
    | cons _ _ h => exact h
  have hrs := reset_spec s fb brest fuel hfb hchain1 hfuel
  refine ⟨_, hrs, rfl, rfl, ?_, ?_, ?_⟩
  · by_cases hover : (s.headers fb).SizeIncludingHeader > s.BlockSize
    · simp only [if_pos hover]
    · simp only [if_neg hover]
  · by_cases hover : (s.headers fb).SizeIncludingHeader > s.BlockSize
    · simp only [if_pos hover, Nat.zero_add]
    · simp only [if_neg hover]
  · intro stream2 ops h1 h2 hops
    refine pushManyObs_congr ops _ _ ?_ hops
    by_cases hover : (s.headers fb).SizeIncludingHeader > s.BlockSize
    · refine ⟨rfl, rfl, W.align_pow2, ?_, ?_, ?_, ?_, ?_, ?_, ?_⟩
      · intro n
        exact W.stream_aligned n
      · intro n
        exact h1 n
      · intro n m hn hm he
        exact W.stream_inj n m hn hm he
      · intro n m _ _ he
        exact h2 n m he
      · intro bb hbb n hn
        simp only [if_pos hover] at hbb
        exact absurd hbb (by simp)
      · intro bb hbb n hn
        exact absurd (show (none : Option Nat) = some bb from hbb) (by simp)
      · refine Or.inl ⟨?_, rfl⟩
        simp only [if_pos hover]
    · refine ⟨rfl, rfl, W.align_pow2, ?_, ?_, ?_, ?_, ?_, ?_, ?_⟩
      · intro n
        exact W.stream_aligned n
      · intro n
        exact h1 n
      · intro n m hn hm he
        exact W.stream_inj n m hn hm he
      · intro n m _ _ he
        exact h2 n m he
      · intro bb hbb n hn
        simp only [if_neg hover] at hbb
        have hfbb : fb = bb := Option.some.inj hbb
        rw [← hfbb]
        intro hc
        exact W.fresh n hn (by rw [hc]; exact List.mem_cons_self _ _)
      · intro bb hbb n hn
        exact absurd (show (none : Option Nat) = some bb from hbb) (by simp)
      · refine Or.inr (Or.inr ⟨fb, ?_, rfl, ?_, ?_, ?_, ?_, ?_⟩)
        · simp only [if_neg hover]
        · exact W.blocks_aligned fb (List.mem_cons_self _ _)
        · have hge := W.block_size_ge fb (List.mem_cons_self _ _)
          simp only [if_pos (Eq.refl fb), eq_self_iff_true, if_true]
          omega
        · simp only [if_pos (Eq.refl fb), eq_self_iff_true, if_true]
        · simp only [if_neg hover]
        · exact hhdr

theorem C6_reset_behaves_like_init_witness :
    ∃ s2, (DS_StackAllocator.Init (fun n => 8192 * (n + 1)) (some 4096) 4096
        16).Reset 1 = some s2 ∧
      s2.freeLog = (((DS_StackAllocator.Init (fun n => 8192 * (n + 1))
          (some 4096) 4096 16).freeLog ++ []) ++
        (if ((DS_StackAllocator.Init (fun n => 8192 * (n + 1)) (some 4096) 4096
              16).headers 4096).SizeIncludingHeader >
            (DS_StackAllocator.Init (fun n => 8192 * (n + 1)) (some 4096) 4096
              16).BlockSize ∧
            ((DS_StackAllocator.Init (fun n => 8192 * (n + 1)) (some 4096) 4096
              16).headers 4096).AllocatedFromBackingAllocator = true
          then [4096] else [])) ∧
      s2.FirstBlock = (if ((DS_StackAllocator.Init (fun n => 8192 * (n + 1))
            (some 4096) 4096 16).headers 4096).SizeIncludingHeader >
          (DS_StackAllocator.Init (fun n => 8192 * (n + 1)) (some 4096) 4096
            16).BlockSize
        then none else some 4096) ∧
      s2.Mark.Block = s2.FirstBlock ∧
      s2.Mark.Ptr = (match s2.FirstBlock with | some b => b | none => 0) +
        DS_StackBlockHeaderSize ∧
      (∀ (stream2 : Nat → Nat) (ops : List (Nat × Nat)),
        (∀ n, stream2 n % (DS_StackAllocator.Init (fun n => 8192 * (n + 1))
          (some 4096) 4096 16).BlockAlignment = 0) →
        (∀ n m, stream2 n = stream2 m → n = m) →
        (∀ p ∈ ops, 0 < p.1 ∧ (∃ j, p.2 = 2 ^ j) ∧
          p.2 ≤ (DS_StackAllocator.Init (fun n => 8192 * (n + 1)) (some 4096)
            4096 16).BlockAlignment) →
        pushManyObs s2 ops =
          pushManyObs (DS_StackAllocator.Init stream2 none
            (DS_StackAllocator.Init (fun n => 8192 * (n + 1)) (some 4096) 4096
              16).BlockSize
            (DS_StackAllocator.Init (fun n => 8192 * (n + 1)) (some 4096) 4096
              16).BlockAlignment) ops) := by
  refine C6_reset_behaves_like_init
    (DS_StackAllocator.Init (fun n => 8192 * (n + 1)) (some 4096) 4096 16)
    4096 [] 1 ?_ rfl (by decide) (by decide)
  refine arenaWF_init_some (fun n => 8192 * (n + 1)) 4096 4096 16 ?_ ?_ ?_
    (by decide) ⟨4, by decide⟩
  · intro n m h
    have h2 : 8192 * (n + 1) = 8192 * (m + 1) := h
    omega
  · intro n
    intro hc
    have h2 : 8192 * (n + 1) = 4096 := hc
    omega
  · intro n
    have h2 : (8192 * (n + 1)) % 16 = (16 * (512 * (n + 1))) % 16 := by
      have : 8192 * (n + 1) = 16 * (512 * (n + 1)) := by ring
      rw [this]
    rw [h2]
    exact Nat.mul_mod_right 16 _
